/-
Verification of the deterministic post-processing pipeline of the
agentic-codereview repository: the Markdown+YAML analysis codec
(src/util/markdown_yaml_parser.py), the confidence/severity enrichment
(src/util/security_enrichment.py), finding deduplication
(security_agent/agent.py), CVE validation (src/util/callbacks.py), and the
artifact save/load tools (src/tools/save_analysis_artifact.py,
src/tools/artifact_loader_tool.py).

Python strings are modelled as Lean `String`/`List Char`; Python floats as
`ℚ` (exact rational arithmetic; the constants involved are all decimal);
Python dicts carrying YAML metadata as insertion-ordered association lists;
fallible operations return `Option`.  Regular expressions from the source
are modelled by executable matching functions that follow the semantics of
the concrete pattern used at each call site (leftmost match, greedy /
non-greedy quantifiers as written); `yaml.safe_load`/`yaml.safe_dump` are
modelled on the block-mapping fragment of YAML actually used by the
document format: mappings nested one level (the `severity:`-style blocks)
whose scalars are plain or quoted strings, decimal integers and floats,
booleans and nulls, with comments and duplicate keys.  A text outside the
fragment parses to the same fail-soft `parse_error` result that a YAML
error produces in the source.
-/

import Mathlib

namespace CodeReview

/-! ### Character and string helpers (Python `str.strip`, `str.lower`, `re` whitespace) -/

/-- Whitespace as matched by Python's `\s` and stripped by `str.strip()`
(ASCII fragment). -/
def isWS (c : Char) : Bool :=
  c = ' ' || c = '\t' || c = '\n' || c = '\r' || c = '\x0b' || c = '\x0c'

/-- Python `str.strip()` on a character list. -/
def pyStrip (l : List Char) : List Char :=
  ((l.dropWhile isWS).reverse.dropWhile isWS).reverse

/-- Python `str.rstrip()` on a character list. -/
def pyRStrip (l : List Char) : List Char :=
  (l.reverse.dropWhile isWS).reverse

/-- Python `str.strip()` on a `String`. -/
def pyStripS (s : String) : String :=
  String.mk (pyStrip s.data)

/-- Python `str.lower()` (ASCII fragment), kept kernel-reducible. -/
def toLowerS (s : String) : String :=
  String.mk (s.data.map Char.toLower)

/-- Truthiness of an optional string field (`if finding.get(k):` in Python --
`None` and `""` are falsy). -/
def truthyS : Option String → Bool
  | some s => s ≠ ""
  | none => false

/-- Truthiness of an optional integer field (`None` and `0` are falsy). -/
def truthyI : Option Int → Bool
  | some n => n ≠ 0
  | none => false

/-- Python `a or b` for an optional string `a` with fallback `b`. -/
def pyOrS (a : Option String) (b : String) : String :=
  match a with
  | some s => if s = "" then b else s
  | none => b

/-- Substring test (`needle in haystack` on Python strings). -/
def hasInfix : List Char → List Char → Bool
  | [], pat => pat.isPrefixOf []
  | h :: t, pat => pat.isPrefixOf (h :: t) || hasInfix t pat

/-! ### src/util/security_enrichment.py -/

/-- `SEVERITY_ORDER = ["low", "medium", "high", "critical"]`. -/
def SEVERITY_ORDER : List String := ["low", "medium", "high", "critical"]

/-- `clamp(x, lo, hi) = max(lo, min(hi, x))`; the source's default bounds are
`lo = 0.05`, `hi = 0.98`. -/
def clamp (x lo hi : ℚ) : ℚ :=
  max lo (min hi x)

/-- `downgrade_severity(sev, steps)`: unknown or empty severities are reset to
`"low"`, then the index in `SEVERITY_ORDER` is lowered by `steps`, floored
at 0 (Python `max(0, idx - steps)`; Lean `Nat` subtraction floors the same
way). -/
def downgrade_severity (sev : String) (steps : Nat) : String :=
  let s0 := if sev = "" then "low" else sev
  let s1 := toLowerS s0
  let s2 := if SEVERITY_ORDER.contains s1 then s1 else "low"
  let idx := SEVERITY_ORDER.indexOf s2
  SEVERITY_ORDER.getD (idx - steps) "low"

/-- Value of the `confidence` key of a finding: a Python number (`int`,
`float`, or `bool`, which Python treats as numeric) or any other value. -/
inductive CVal where
  | num (q : ℚ)
  | other (s : String)
deriving DecidableEq

/-- The fields of a finding dict inspected by `compute_confidence` and the
deduplication step.  `none` models an absent key (or `None` value). -/
structure Finding where
  confidence : Option CVal := none
  file_path : Option String := none
  line : Option Int := none
  code_snippet : Option String := none
  evidence : Option String := none
  rule_id : Option String := none
  ftype : Option String := none
deriving DecidableEq

/-- Base confidence of `compute_confidence`: the finding's declared value when
numeric, else the neutral default 0.55. -/
def declaredBase (f : Finding) : ℚ :=
  match f.confidence with
  | some (.num q) => q
  | _ => 11/20

/-- `evidence = (finding.get("evidence") or finding.get("code_snippet") or "").lower()`. -/
def evidenceText (f : Finding) : String :=
  toLowerS (pyOrS f.evidence (pyOrS f.code_snippet ""))

/-- Condition of the +0.10 file-path boost. -/
def boostFile (f : Finding) : Bool := truthyS f.file_path

/-- Condition of the +0.10 line-number boost. -/
def boostLine (f : Finding) : Bool := truthyI f.line

/-- Condition of the +0.10 code-snippet/evidence boost. -/
def boostSnippet (f : Finding) : Bool := truthyS f.code_snippet || truthyS f.evidence

/-- Condition of the −0.15 degenerate-logging penalty
(`finding.get("line") == 1 and "no security logging detected" in evidence`). -/
def penaltyLogging (f : Finding) : Bool :=
  f.line = some 1 && hasInfix (evidenceText f).data "no security logging detected".data

/-- Condition of the −0.10 short-evidence penalty
(`len(evidence.strip()) < 8 and not finding.get("code_snippet")`). -/
def penaltyShort (f : Finding) : Bool :=
  (pyStrip (evidenceText f).data).length < 8 && !truthyS f.code_snippet

/-- `compute_confidence(finding)` from src/util/security_enrichment.py,
translated statement by statement. -/
def compute_confidence (f : Finding) : ℚ :=
  let conf := declaredBase f
  let conf := if boostFile f then conf + 1/10 else conf
  let conf := if boostLine f then conf + 1/10 else conf
  let conf := if boostSnippet f then conf + 1/10 else conf
  let conf := if penaltyLogging f then conf - 3/20 else conf
  let conf := if penaltyShort f then conf - 1/10 else conf
  clamp conf (1/20) (49/50)

/-- `adjust_severity_by_confidence(severity, confidence)` from
src/util/security_enrichment.py. -/
def adjust_severity_by_confidence (severity : String) (confidence : ℚ) : String :=
  let sev0 := if severity = "" then "low" else severity
  let sev1 := toLowerS sev0
  let sev := if SEVERITY_ORDER.contains sev1 then sev1 else "low"
  if confidence < 1/4 then downgrade_severity sev 2
  else if confidence < 9/20 ∧ (sev = "critical" ∨ sev = "high") then downgrade_severity sev 1
  else sev

/-! Specification-side restatements for the enrichment claims. -/

/-- Confidence formula as the specification words it: declared value if
numeric else 0.55, plus 0.10 per evidence item present (truthy), minus the
two penalties, clamped to [0.05, 0.98]. -/
def spec_confidence (f : Finding) : ℚ :=
  clamp
    (declaredBase f
      + (if boostFile f then (1:ℚ)/10 else 0)
      + (if boostLine f then (1:ℚ)/10 else 0)
      + (if boostSnippet f then (1:ℚ)/10 else 0)
      - (if penaltyLogging f then (3:ℚ)/20 else 0)
      - (if penaltyShort f then (1:ℚ)/10 else 0))
    (1/20) (49/50)

/-- Severity rank on the ordered scale low < medium < high < critical. -/
def sevRank : String → Nat
  | "medium" => 1
  | "high" => 2
  | "critical" => 3
  | _ => 0

/-- Severity name of a rank (clipped at `critical`). -/
def rankSev : Nat → String
  | 0 => "low"
  | 1 => "medium"
  | 2 => "high"
  | _ => "critical"

/-! ### Deduplication of findings
(`security_agent_after_tool` in
src/agent_workspace/orchestrator_agent/sub_agents/security_agent/agent.py) -/

/-- Python `a or b` for an optional integer `a` with fallback `b`
(`v.get("line") or 0`). -/
def pyOrI (a : Option Int) (b : Int) : Int :=
  match a with
  | some n => if n = 0 then b else n
  | none => b

/-- The composite deduplication key
`(v.get("rule_id") or "", v.get("type") or "", v.get("file_path") or "",
v.get("line") or 0, (v.get("code_snippet") or "")[:80])`. -/
def dedupKey (v : Finding) : String × String × String × Int × List Char :=
  (pyOrS v.rule_id "", pyOrS v.ftype "", pyOrS v.file_path "",
    pyOrI v.line 0, (pyOrS v.code_snippet "").data.take 80)

/-- The deduplication loop: scan the list keeping a `seen` set of keys,
retaining a finding only when its key has not been seen yet. -/
def dedup : List Finding → List (String × String × String × Int × List Char) → List Finding
  | [], _ => []
  | v :: rest, seen =>
    if dedupKey v ∈ seen then dedup rest seen
    else v :: dedup rest (dedupKey v :: seen)

/-! ### CVE validation (`validate_cve_exists` in src/util/callbacks.py) -/

/-- Outcome of the NVD HTTP lookup: a response with a status code and the
`totalResults` count, a timeout, or another network/transport error. -/
inductive HttpOutcome where
  | response (status : Nat) (totalResults : Nat)
  | timeout
  | netError (msg : String)
deriving DecidableEq

/-- The format check `re.match(r'^CVE-\d{4}-\d{4,}$', cve_id)`. -/
def cveFormatOk : List Char → Bool
  | 'C' :: 'V' :: 'E' :: '-' :: rest =>
    let year := rest.take 4
    let rest2 := rest.drop 4
    year.length = 4 && year.all Char.isDigit &&
      (match rest2 with
       | '-' :: digits => decide (4 ≤ digits.length) && digits.all Char.isDigit
       | _ => false)
  | _ => false

/-- The `timeout=5` argument of `requests.get` in `validate_cve_exists`. -/
def NVD_REQUEST_TIMEOUT_SECONDS : Nat := 5

/-- `validate_cve_exists(cve_id)` with the HTTP call abstracted into an
explicit outcome argument: malformed ids are rejected; a 200 response is
checked for `totalResults > 0`; any non-200 response, timeout or other
error returns `True` (fail open). -/
def validate_cve_exists (cve_id : String) (outcome : HttpOutcome) : Bool :=
  if !cveFormatOk cve_id.data then false
  else
    match outcome with
    | .response 200 tr => decide (0 < tr)
    | .response _ _ => true
    | .timeout => true
    | .netError _ => true

/-! ### Content filtering (`filter_content` in src/util/markdown_yaml_parser.py)

`re.subn(pattern, replacement, text, flags=re.IGNORECASE)` is modelled for
literal (metacharacter-free, nonempty) patterns: the scan is left to right,
matches are non-overlapping, and comparison is case-insensitive.  The scan
is written with an explicit fuel argument (the text length) so that it stays
structurally recursive and kernel-evaluable. -/

/-- Single-character comparison, optionally case-insensitive. -/
def eqCharCI (ci : Bool) (a b : Char) : Bool :=
  if ci then a.toLower = b.toLower else a = b

/-- Prefix match of a literal pattern, optionally case-insensitive. -/
def prefixMatch (ci : Bool) : List Char → List Char → Bool
  | [], _ => true
  | _ :: _, [] => false
  | a :: ps, b :: ss => eqCharCI ci a b && prefixMatch ci ps ss

/-- Fueled worker for literal `re.subn`: at a match, emit the replacement and
continue after the matched chunk; otherwise, emit one character and continue. -/
def subnF (ci : Bool) (pat rep : List Char) : Nat → List Char → List Char × Nat
  | _, [] => ([], 0)
  | 0, s => (s, 0)
  | n + 1, c :: rest =>
    if pat ≠ [] ∧ prefixMatch ci pat (c :: rest) then
      let r := subnF ci pat rep n (rest.drop (pat.length - 1))
      (rep ++ r.1, r.2 + 1)
    else
      let r := subnF ci pat rep n rest
      (c :: r.1, r.2)

/-- Literal `re.subn(pat, rep, s, flags)`: returns the rewritten text and the
number of replacements made. -/
def subn (ci : Bool) (pat rep s : List Char) : List Char × Nat :=
  subnF ci pat rep s.length s

/-- `filter_content(markdown_body, patterns)`: apply every rule in order via a
global case-insensitive substitution, summing the replacement counts. -/
def filter_content (markdown_body : List Char) (patterns : List (List Char × List Char)) :
    List Char × Nat :=
  patterns.foldl
    (fun acc pr =>
      let r := subn true pr.1 pr.2 acc.1
      (r.1, acc.2 + r.2))
    (markdown_body, 0)

/-- Case-insensitive occurrence test for a literal pattern. -/
def hasOccCI (pat : List Char) : List Char → Bool
  | [] => prefixMatch true pat []
  | c :: t => prefixMatch true pat (c :: t) || hasOccCI pat t

/-! ### Artifact saving (`save_analysis_result` in src/tools/save_analysis_artifact.py) -/

/-- Split a character list at newline characters (Python `s.split('\n')`;
the result is never empty). -/
def splitOnNl : List Char → List (List Char)
  | [] => [[]]
  | c :: rest =>
    match splitOnNl rest with
    | [] => [[c]]
    | h :: t => if c = '\n' then [] :: h :: t else (c :: h) :: t

/-- Python `'\n'.join(lines)`. -/
def joinNl : List (List Char) → List Char
  | [] => []
  | [l] => l
  | l :: rest => l ++ '\n' :: joinNl rest

/-- The backtick character, `'\x60'`. -/
def btChar : Char := '\x60'

/-- Predicate for `[^\x60]` in the backtick-span pattern: any character other
than a backtick. -/
def nb (x : Char) : Bool := x ≠ btChar

/-- Code-fence stripping in `save_analysis_result`: when the (already
stripped) text starts with three backticks, drop the first line, drop the
last line when it strips to three backticks, re-join and strip.  (The inner
`lines[0].startswith('```')` re-check of the source is always true under the
outer condition, since the first line contains the leading backticks.) -/
def dropClosingFence (lines : List (List Char)) : List (List Char) :=
  match lines.getLast? with
  | some last => if pyStrip last = [btChar, btChar, btChar] then lines.dropLast else lines
  | none => lines

def stripCodeFences (s : List Char) : List Char :=
  if [btChar, btChar, btChar].isPrefixOf s then
    pyStrip (joinNl (dropClosingFence ((splitOnNl s).drop 1)))
  else s

/-- Fueled worker for ``re.sub(r'`([^`]+)`', r"'\1'", s)``: a backtick
followed by a nonempty backtick-free run and a closing backtick is rewritten
to the run wrapped in single quotes; scanning resumes after the closing
backtick. -/
def subBTF : Nat → List Char → List Char
  | _, [] => []
  | 0, s => s
  | n + 1, c :: rest =>
    if c = btChar then
      let content := rest.takeWhile nb
      let after := rest.drop content.length
      if content ≠ [] ∧ after.head? = some btChar then
        '\'' :: (content ++ '\'' :: subBTF n (after.drop 1))
      else c :: subBTF n rest
    else c :: subBTF n rest

/-- The backtick-sanitization substitution applied by `save_analysis_result`. -/
def subBackticks (s : List Char) : List Char :=
  subBTF s.length s

/-- Occurrence test for an inline backtick span: some position starts a
backtick, a nonempty backtick-free run, and a closing backtick. -/
def hasBTMatch : List Char → Bool
  | [] => false
  | c :: rest =>
    (decide (c = btChar) &&
      (decide (rest.takeWhile nb ≠ []) &&
        decide ((rest.drop (rest.takeWhile nb).length).head? = some btChar)))
    || hasBTMatch rest

/-- The full text transformation `save_analysis_result` applies to
`analysis_data` before persisting it anywhere: `strip`, code-fence
stripping, then backtick sanitization. -/
def processAnalysisData (s : List Char) : List Char :=
  subBackticks (stripCodeFences (pyStrip s))

/-- `artifact_filename = f"{agent_name}_analysis.json"` in
`save_analysis_result` (the on-disk write in STEP 3 uses this name). -/
def save_disk_filename (agent_name : String) : String :=
  agent_name ++ "_analysis.json"

/-- Suffix test on character lists, via reversed prefix matching. -/
def endsWithL (s suf : List Char) : Bool :=
  suf.reverse.isPrefixOf s.reverse

/-- The glob `*_analysis.md` used by `load_analysis_results_from_artifacts`
matches exactly the (flat) file names ending in `_analysis.md`. -/
def matchesAnalysisGlob (name : String) : Bool :=
  endsWithL name.data "_analysis.md".data

/-- `pathlib.PurePath.stem` for a flat file name: the name with its last
dot-suffix removed (the name itself when it has no dot). -/
def stemOf (l : List Char) : List Char :=
  if l.contains '.' then ((l.reverse.dropWhile (fun c => c ≠ '.')).drop 1).reverse
  else l

/-- `file_path.stem.replace('_analysis', '')` in the loader. -/
def agentNameOfFile (name : String) : String :=
  String.mk (subn false "_analysis".data [] (stemOf name.data)).1

/-- Write (or overwrite) one file in a flat session directory, modelled as an
association list of `(file name, content)`. -/
def setFile (fs : List (String × String)) (name content : String) : List (String × String) :=
  if fs.any (fun e => e.1 = name) then
    fs.map (fun e => if e.1 = name then (name, content) else e)
  else fs ++ [(name, content)]

/-- The on-disk write of `save_analysis_result` (STEP 3): the processed
document is stored under `<agent_name>_analysis.json` in the session
directory.  (When the processed text is valid JSON the source re-indents it
before writing; the file name is the same either way, which is all the
round-trip claim depends on.) -/
def saveDisk (agent doc : String) (fs : List (String × String)) : List (String × String) :=
  setFile fs (save_disk_filename agent) (String.mk (processAnalysisData doc.data))

/-- `load_analysis_results_from_artifacts`: list the `*_analysis.md` files of
the session directory and map each stem (with `_analysis` removed) to the
file's text. -/
def load_analysis_results (fs : List (String × String)) : List (String × String) :=
  (fs.filter (fun e => matchesAnalysisGlob e.1)).map
    (fun e => (agentNameOfFile e.1, e.2))


/-! ### The Markdown+YAML codec (src/util/markdown_yaml_parser.py)

The front-matter regex
`^\s*---\s*\r?\n(?P<yaml>.*?)\r?\n---\s*\r?\n(?P<body>.*)$` (DOTALL) is
modelled exactly: leading `\s*` then a literal `---`; then `\s*\r?\n` with
greedy backtracking (all the ways of ending a whitespace run at a newline,
longest first); then the non-greedy yaml group (earliest closing delimiter
wins); the closing `\r?\n---\s*\r?\n` with its own greedy `\s*`; the rest is
the body.

`yaml.safe_load` / `yaml.safe_dump` are modelled on the fragment of YAML the
document format uses (the module docstring, the spec's wire format and the
agents' output templates): block mappings with word-character keys, nested
one level (the `severity:`/`metrics:`-style blocks), whose scalars are
plain strings, single- or double-quoted strings, decimal integers, decimal
floats, booleans (all YAML 1.1 word forms) and nulls, with `#` comments,
blank lines, and duplicate keys (last value wins, as in a Python dict).
Outside the fragment (flow collections `[..]`/`{..}` other than a bare
`{}` document, block scalars `|`/`>`, anchors/aliases/tags, multi-line or
indented plain scalars, deeper nesting, exponent/base-prefixed/underscored
number forms, timestamps, escape sequences in double quotes): a document
that only PyYAML would accept loads to `.err`, which `parse_analysis` maps
to the same fail-soft `parse_error` metadata that a `YAMLError` produces.
A document that loads to a non-mapping takes the source's `yaml_not_dict`
warning path.  All failure metadata keys and values are strings, as in the
source. -/

/-- A YAML scalar of the modelled fragment: string, integer, float,
boolean, or null. -/
inductive SVal where
  | s (v : String)
  | i (v : Int)
  | f (v : ℚ)
  | b (v : Bool)
  | null
deriving DecidableEq

/-- A YAML/metadata value: a scalar, or a block mapping nested one level
(the depth the document format uses). -/
inductive YVal where
  | s (v : String)
  | i (v : Int)
  | f (v : ℚ)
  | b (v : Bool)
  | null
  | m (entries : List (String × SVal))
deriving DecidableEq

/-- Embed a scalar as a metadata value. -/
def YVal.ofS : SVal → YVal
  | .s v => .s v
  | .i v => .i v
  | .f v => .f v
  | .b v => .b v
  | .null => .null

/-- The scalar carried by a non-mapping metadata value. -/
def YVal.toScalar : YVal → Option SVal
  | .s v => some (.s v)
  | .i v => some (.i v)
  | .f v => some (.f v)
  | .b v => some (.b v)
  | .null => some .null
  | .m _ => none

/-- Metadata: an insertion-ordered association list, mirroring the insertion
order of a Python dict (and `safe_dump(..., sort_keys=False)`). -/
def Metadata := List (String × YVal)

instance : DecidableEq Metadata := by
  unfold Metadata
  infer_instance

/-- Key-presence test (`k in metadata`). -/
def hasKey (m : Metadata) (k : String) : Bool :=
  m.any (fun kv => kv.1 = k)

/-- Value lookup (`metadata.get(k)` / `metadata[k]`). -/
def lookupV (m : Metadata) (k : String) : Option YVal :=
  (m.find? (fun kv => kv.1 = k)).map (fun kv => kv.2)

/-- Decimal digit character of `d < 10`. -/
def digitChar (d : Nat) : Char := Char.ofNat (48 + d)

/-- Digit value of a character. -/
def digitVal (c : Char) : Nat := c.toNat - 48

/-- Fueled decimal rendering of a natural number (fuel bounds the number of
divisions; `n` itself is always enough). -/
def natToCharsF : Nat → Nat → List Char
  | 0, _ => []
  | fuel + 1, n =>
    if n < 10 then [digitChar n] else natToCharsF fuel (n / 10) ++ [digitChar (n % 10)]

/-- Decimal rendering of a natural number (`str(n)`). -/
def natToChars (n : Nat) : List Char := natToCharsF (n + 1) n

/-- Decimal parsing of a digit string. -/
def charsToNat (l : List Char) : Nat :=
  l.foldl (fun acc c => 10 * acc + digitVal c) 0

/-- `str(i)` for an integer. -/
def intToChars (i : Int) : List Char :=
  if i < 0 then '-' :: natToChars i.natAbs else natToChars i.toNat

/-- A nonempty digit string with no leading zero. -/
def digitsNZ : List Char → Bool
  | [] => false
  | d :: rest => d.isDigit && d ≠ '0' && rest.all Char.isDigit

/-- Split a leading `-`/`+` sign off a number literal: (negative?, rest). -/
def splitSign (l : List Char) : Bool × List Char :=
  match l with
  | c :: r => if c = '-' then (true, r) else if c = '+' then (false, r) else (false, l)
  | [] => (false, [])

/-- PyYAML's implicit `int` resolver, restricted to the fragment's decimal
forms: `[-+]?(0|[1-9][0-9]*)`.  (Base-prefixed, underscored and sexagesimal
YAML 1.1 integer forms are outside the fragment.) -/
def intShape (l : List Char) : Bool :=
  let body := (splitSign l).2
  body = ['0'] || digitsNZ body

/-- Integer value of a decimal-integer string. -/
def parseIntChars : List Char → Int
  | [] => 0
  | c :: ds =>
    if c = '-' then -(charsToNat ds : Int)
    else if c = '+' then (charsToNat ds : Int)
    else (charsToNat (c :: ds) : Int)

/-- The unsigned part of `float(s)`: integer digits `ip`, then either
nothing or a `.` and fractional digits. -/
def parseDecimalMag (ip rest : List Char) : Option ℚ :=
  match rest with
  | [] => if ip = [] then none else some (charsToNat ip : ℚ)
  | c :: fp =>
    if c = '.' then
      (if fp.all Char.isDigit && (ip ≠ [] || fp ≠ []) then
        some ((charsToNat ip : ℚ) + (charsToNat fp : ℚ) / (10 ^ fp.length))
      else none)
    else none

/-- Python `float(s)` / PyYAML float construction on the decimal fragment:
optional sign, an integer part and/or a fractional part. -/
def parseDecimal (l : List Char) : Option ℚ :=
  (parseDecimalMag ((splitSign l).2.takeWhile Char.isDigit)
    ((splitSign l).2.drop ((splitSign l).2.takeWhile Char.isDigit).length)).map
    (fun q => if (splitSign l).1 then -q else q)

/-- PyYAML's implicit `float` resolver, restricted to the fragment's decimal
forms: `[-+]?([0-9]+\.[0-9]*|\.[0-9]+)`.  (Exponents, `.inf`/`.nan`,
underscored and sexagesimal forms are outside the fragment.) -/
def floatShape (l : List Char) : Bool :=
  let body := (splitSign l).2
  let ip := body.takeWhile Char.isDigit
  match body.drop ip.length with
  | c :: fp => c = '.' && fp.all Char.isDigit && (ip ≠ [] || fp ≠ [])
  | _ => false

/-- PyYAML's `bool` and `null` resolver words: `yes`/`no`/`true`/`false`/
`on`/`off` in their three YAML 1.1 casings, `null` in three casings, and
`~`. -/
def wordVal (l : List Char) : Option SVal :=
  if l = "yes".data ∨ l = "Yes".data ∨ l = "YES".data ∨ l = "true".data ∨
      l = "True".data ∨ l = "TRUE".data ∨ l = "on".data ∨ l = "On".data ∨
      l = "ON".data then some (.b true)
  else if l = "no".data ∨ l = "No".data ∨ l = "NO".data ∨ l = "false".data ∨
      l = "False".data ∨ l = "FALSE".data ∨ l = "off".data ∨ l = "Off".data ∨
      l = "OFF".data then some (.b false)
  else if l = "null".data ∨ l = "Null".data ∨ l = "NULL".data ∨ l = ['~'] then
    some .null
  else none

/-- Resolution of a plain scalar (PyYAML's implicit resolvers on the
fragment): booleans, nulls, decimal integers, decimal floats, else a
string.  (The `.s` arm under `floatShape` is unreachable:
`parseDecimal` succeeds on every `floatShape` string.) -/
def parseScalar (l : List Char) : SVal :=
  match wordVal l with
  | some sv => sv
  | none =>
    if intShape l then .i (parseIntChars l)
    else if floatShape l then
      match parseDecimal l with
      | some q => .f q
      | none => .s (String.mk l)
    else .s (String.mk l)

/-- Characters allowed in a key of the fragment (word characters). -/
def keyChar (c : Char) : Bool := c.isAlphanum || c = '_'

/-- Characters allowed inside a scalar of the fragment: anything but line
breaks, tabs and the exotic whitespace characters (so the only whitespace
inside a scalar is the space). -/
def vChar (c : Char) : Bool :=
  !(c = '\n' || c = '\r' || c = '\t' || c = '\x0b' || c = '\x0c')

/-- Keys of the fragment: word-character strings starting with a letter or
underscore and not colliding with a resolver word (such keys load as
strings in PyYAML and dump back unquoted). -/
def keyOK (k : List Char) : Bool :=
  match k with
  | [] => false
  | c :: _ =>
    (c.isAlpha || c = '_') && k.all keyChar && wordVal k = none

/-- Characters that open a non-plain construct at the start of a value:
flow collections, block scalars, anchors/aliases/tags, reserved
indicators, comments and quotes. -/
def indicatorChar (c : Char) : Bool :=
  c = '[' || c = ']' || c = '{' || c = '}' || c = ',' || c = '&' || c = '*' ||
    c = '!' || c = '|' || c = '>' || c = '%' || c = '@' || c = '\x60' ||
    c = '#' || c = '"' || c = '\''

/-- May a plain scalar start with this prefix?  (`- ` or a lone `-` starts a
block sequence entry; `:` and `?` heads are outside the fragment.) -/
def plainHead : List Char → Bool
  | [] => false
  | c :: rest =>
    !(indicatorChar c) && c ≠ ':' && c ≠ '?' &&
      !(c = '-' && (rest = [] || rest.head? = some ' '))

/-- Acceptability of a (comment-stripped, whitespace-stripped) plain scalar:
nonempty, over the fragment alphabet, no `: ` (which would be a nested
mapping and a YAML error on this line), no ` #` (a comment), no trailing
`:`, and a plain-safe first character. -/
def plainBodyOK (v : List Char) : Bool :=
  v ≠ [] && v.all vChar && pyStrip v = v && plainHead v &&
    !(hasInfix v (':' :: [' '])) && !(hasInfix v (' ' :: ['#'])) &&
    !(v.getLast? = some ':')

/-- Does `safe_dump` write this string value unquoted?  Exactly when reading
it back as a plain scalar returns the same string: it is plain-acceptable
and does not resolve as a number, boolean or null. -/
def plainOK (v : List Char) : Bool :=
  plainBodyOK v && decide (parseScalar v = .s (String.mk v))

/-- Truncate a plain value at a `#` comment: a `#` at the start of the value
or preceded by whitespace. -/
def cutCommentF : Bool → List Char → List Char
  | _, [] => []
  | prevWS, c :: rest =>
    if c = '#' ∧ prevWS then [] else c :: cutCommentF (isWS c) rest

/-- Scan a single-quoted scalar for its closing quote (a doubled `''` is an
escaped apostrophe); returns the contents and the remainder (`none`: the
quote is unterminated). -/
def scanSQ : List Char → Option (List Char × List Char)
  | [] => none
  | [c] => if c = '\'' then some ([], []) else none
  | c :: c2 :: r2 =>
    if c = '\'' then
      if c2 = '\'' then (scanSQ r2).map (fun p => ('\'' :: p.1, p.2))
      else some ([], c2 :: r2)
    else (scanSQ (c2 :: r2)).map (fun p => (c :: p.1, p.2))

/-- Escape a string for single-quoted style: double each apostrophe. -/
def escSQ : List Char → List Char
  | [] => []
  | c :: rest => if c = '\'' then '\'' :: '\'' :: escSQ rest else c :: escSQ rest

/-- Least `j` (searching upward, `fuel` attempts) with `q.den ∣ 10 ^ j`: the
scale at which `q` is an exact decimal. -/
def decExp (q : ℚ) : Nat → Nat → Nat
  | 0, j => j
  | fuel + 1, j => if q.den ∣ 10 ^ j then j else decExp q fuel (j + 1)

/-- Left-pad a digit string with zeros to width `k`. -/
def padZeros (k : Nat) (l : List Char) : List Char :=
  List.replicate (k - l.length) '0' ++ l

/-- `repr(float)` as emitted by `safe_dump` for an exact decimal: the
minimal-scale decimal digits, with at least one integer and one fractional
digit.  (A `ℚ` whose denominator has a prime factor other than 2 or 5
corresponds to no IEEE double, so `safe_dump` never meets one; the search
then stops at `q.den` and the digits are those of a truncated value.) -/
def renderFloat (q : ℚ) : List Char :=
  let j := decExp q q.den 0
  let n := (q.num * 10 ^ j / (q.den : Int)).natAbs
  (if q.num < 0 then ['-'] else []) ++
    natToChars (n / 10 ^ j) ++ '.' :: padZeros j (natToChars (n % 10 ^ j))

/-- Scalar rendering of `yaml.safe_dump` on the fragment: strings are
written plain when re-reading them plain gives the same string, else
single-quoted; numbers in their decimal forms; `true`/`false`/`null`. -/
def renderScalar : SVal → List Char
  | .s v => if plainOK v.data then v.data else '\'' :: (escSQ v.data ++ ['\''])
  | .i v => intToChars v
  | .f v => renderFloat v
  | .b true => "true".data
  | .b false => "false".data
  | .null => "null".data

/-- Distinctness of the keys of an association list. -/
def keysDistinct {α : Type} : List (String × α) → Bool
  | [] => true
  | kv :: rest => !(rest.any (fun e => e.1 = kv.1)) && keysDistinct rest

/-- One key/value assignment into a Python dict: a repeated key keeps its
first position but takes the new value (`d[k] = v`). -/
def insertKV {α : Type} (acc : List (String × α)) (k : String) (v : α) :
    List (String × α) :=
  if acc.any (fun kv => kv.1 = k) then
    acc.map (fun kv => if kv.1 = k then (k, v) else kv)
  else acc ++ [(k, v)]

/-- Python dict construction from a key/value stream (duplicate keys: last
value wins, first position kept), as PyYAML builds a mapping. -/
def loadDict {α : Type} (l : List (String × α)) : List (String × α) :=
  l.foldl (fun acc kv => insertKV acc kv.1 kv.2) []

/-- A double-quoted scalar and its trailer: the quoted content (escape-free
over the fragment alphabet), then only whitespace or a comment. -/
def parseQuotedD (r2 : List Char) : Option (Option SVal) :=
  let content := r2.takeWhile (fun c2 => ¬ c2 = '"')
  match r2.drop content.length with
  | _ :: tail2 =>
    if content.all (fun c2 => vChar c2 && ¬ c2 = '\\') &&
        pyStrip (cutCommentF true tail2) = [] then
      some (some (.s (String.mk content)))
    else none
  | [] => none

/-- A single-quoted scalar and its trailer. -/
def parseQuotedS (r2 : List Char) : Option (Option SVal) :=
  match scanSQ r2 with
  | some (content, tail2) =>
    if content.all vChar && pyStrip (cutCommentF true tail2) = [] then
      some (some (.s (String.mk content)))
    else none
  | none => none

/-- The value token itself, after the separating whitespace: a comment only
(no value), a quoted scalar, or a plain scalar cut at its comment. -/
def parseValueTok : List Char → Option (Option SVal)
  | [] => some none
  | c1 :: r2 =>
    if c1 = '#' then some none
    else if c1 = '"' then parseQuotedD r2
    else if c1 = '\'' then parseQuotedS r2
    else
      let v := pyStrip (cutCommentF true (c1 :: r2))
      if plainBodyOK v then some (some (parseScalar v)) else none

/-- Parse the value token after the `:` of a `key:` line.  `none`: not a
well-formed value (a YAML error).  `some none`: no value on the line (a
null, or the parent of a nested block).  `some (some sv)`: the scalar. -/
def parseValue (rest : List Char) : Option (Option SVal) :=
  match rest with
  | [] => some none
  | c :: _ =>
    if c = ' ' || c = '\t' then
      parseValueTok (rest.dropWhile (fun c2 => c2 = ' ' || c2 = '\t'))
    else none

/-- Parse one unindented `key:` / `key: value` line. -/
def parseEntryLine (l : List Char) : Option (String × Option SVal) :=
  let key := l.takeWhile keyChar
  if keyOK key then
    match l.drop key.length with
    | c :: rest =>
      if c = ':' then (parseValue rest).map (fun v => (String.mk key, v)) else none
    | [] => none
  else none

/-- Group the lines of a block: each unindented line is paired with the
indented lines that follow it; indented lines before any unindented line
are returned separately (an indentation error at top level). -/
def groupLines : List (List Char) → List (List Char × List (List Char)) × List (List Char)
  | [] => ([], [])
  | l :: rest =>
    let p := groupLines rest
    if l.head? = some ' ' then (p.1, l :: p.2)
    else ((l, p.2) :: p.1, [])

/-- Parse the indented lines of a nested block: a uniform indent, then one
`key: scalar` entry per line (an empty value loads as null). -/
def parseBlock (ls : List (List Char)) : Option (List (String × SVal)) :=
  match ls with
  | [] => none
  | l0 :: _ =>
    let ind := l0.takeWhile (fun c => c = ' ')
    ls.mapM (fun l =>
      if l.takeWhile (fun c => c = ' ') = ind then
        (parseEntryLine (l.drop ind.length)).map (fun kv => (kv.1, kv.2.getD .null))
      else none)

/-- Parse one top-level group: a `key: scalar` line without children, or a
`key:` line whose value is null (no children) or the mapping of its
children. -/
def parseGroup (g : List Char × List (List Char)) : Option (String × YVal) :=
  match parseEntryLine g.1 with
  | none => none
  | some (k, some sv) => if g.2 = [] then some (k, YVal.ofS sv) else none
  | some (k, none) =>
    match g.2 with
    | [] => some (k, YVal.null)
    | _ :: _ => (parseBlock g.2).map (fun es => (k, YVal.m (loadDict es)))

/-- A line that can be part of a top-level plain multi-line scalar (the
document then loads as a string, not a mapping). -/
def scalarLine (l : List Char) : Bool :=
  plainBodyOK (pyStrip (cutCommentF true l))

/-- The result of `yaml.safe_load` as observed by `parse_analysis`: a
mapping, a successfully loaded non-mapping document, or a `YAMLError`. -/
inductive YamlRes where
  | dict (m : Metadata)
  | nondict
  | err
deriving DecidableEq

/-- `yaml.safe_load` on the fragment: whitespace loads to `None` (which the
caller's `or {}` turns into the empty dict), a bare `{}` to the empty
mapping; otherwise the non-blank lines are grouped into top-level entries
with their indented children and built into a dict (duplicate keys last-
wins).  If that fails, an all-scalar-line document is the `yaml_not_dict`
case; anything else is a `YAMLError`. -/
def yamlLoad (y : List Char) : YamlRes :=
  let t := pyStrip y
  if t = [] then .dict []
  else if t = "{}".data then .dict []
  else
    let ls := (splitOnNl t).filter (fun l => !(l.all isWS))
    match (groupLines ls).2 with
    | _ :: _ => .err
    | [] =>
      match (groupLines ls).1.mapM parseGroup with
      | some es => .dict (loadDict es)
      | none => if ls ≠ [] && ls.all scalarLine then .nondict else .err

/-- One dumped `key: scalar` line, without its newline. -/
def dumpSLine (e : String × SVal) : List Char :=
  e.1.data ++ ':' :: ' ' :: renderScalar e.2

/-- The dumped lines of one metadata entry (`safe_dump`, block style,
2-space indent): one `key: scalar` line, or a `key:` line followed by one
indented line per nested entry.  (An empty nested mapping would dump in
flow style `key: {}`; the loader never produces one.) -/
def dumpEntry (kv : String × YVal) : List (List Char) :=
  match kv.2.toScalar with
  | some sv => [dumpSLine (kv.1, sv)]
  | none =>
    match kv.2 with
    | .m (e :: es) =>
      (kv.1.data ++ [':']) ::
        (e :: es).map (fun e2 => ' ' :: ' ' :: dumpSLine e2)
    | _ => [kv.1.data ++ ':' :: ' ' :: '{' :: ['}']]

/-- `yaml.safe_dump(m, default_flow_style=False, sort_keys=False)` on the
fragment: `{}` dumps to `"{}\n"`, otherwise the entries' lines in insertion
order, each ended by a newline. -/
def yamlDump (m : Metadata) : List Char :=
  if m = [] then "{}\n".data
  else (((m.map dumpEntry).flatten).map (fun l => l ++ ['\n'])).flatten

/-- Well-formedness of one scalar entry, as established by the loader: the
key is a fragment key and the value renders to one clean, already-stripped
line that re-reads (through the same resolvers) to the same value. -/
def sentryWF (e : String × SVal) : Bool :=
  keyOK e.1.data &&
    renderScalar e.2 ≠ [] &&
    (renderScalar e.2).all vChar &&
    pyStrip (renderScalar e.2) = renderScalar e.2 &&
    decide (parseValue (' ' :: renderScalar e.2) = some (some e.2))

/-- Well-formedness of one metadata entry. -/
def entryWF (kv : String × YVal) : Bool :=
  match kv.2.toScalar with
  | some sv => sentryWF (kv.1, sv)
  | none =>
    match kv.2 with
    | .m es => keyOK kv.1.data && es ≠ [] && es.all sentryWF && keysDistinct es
    | _ => false

/-- Well-formedness of a metadata mapping. -/
def metaWF (m : Metadata) : Bool :=
  m.all entryWF && keysDistinct m

/-! The front-matter matcher. -/

/-- One attempt of the trailing `\r?\n` at a given position: `\r\n` is
preferred over a bare `\n` (the `\r?` is greedy). -/
def wsNlStep : List Char → Option (List Char)
  | c :: rest =>
    if c = '\r' then
      match rest with
      | c2 :: rest2 => if c2 = '\n' then some rest2 else none
      | [] => none
    else if c = '\n' then some rest
    else none
  | [] => none

/-- All ways for `\s*\r?\n` to consume a prefix of `l`, as remainders, in the
greedy engine's preference order (longest `\s*` first). -/
def wsNlCandidates (l : List Char) : List (List Char) :=
  ((List.range ((l.takeWhile isWS).length + 1)).reverse).filterMap
    (fun a => wsNlStep (l.drop a))

/-- The trailing `\s*\r?\n` of the closing delimiter: greedy, so the first
(longest) viable split wins; the remainder is the body group. -/
def closeAfterDashes (r : List Char) : Option (List Char) :=
  (wsNlCandidates r).head?

/-- Helper of `closeAt`: a literal `---` then `\s*\r?\n`. -/
def closeDashes (l : List Char) : Option (List Char) :=
  match l with
  | a :: b :: c :: r2 =>
    if a = '-' ∧ b = '-' ∧ c = '-' then closeAfterDashes r2 else none
  | _ => none

/-- Does the closing delimiter `\r?\n---\s*\r?\n` match at the head of `l`?
If so, return the body group. -/
def closeAt (l : List Char) : Option (List Char) :=
  match l with
  | c :: rest =>
    if c = '\r' then
      match rest with
      | c2 :: rest2 => if c2 = '\n' then closeDashes rest2 else none
      | [] => none
    else if c = '\n' then closeDashes rest
    else none
  | [] => none

/-- Scan for the earliest closing delimiter (the yaml group is non-greedy);
returns the yaml group and the body group. -/
def findClose : List Char → Option (List Char × List Char)
  | [] => none
  | c :: rest =>
    match closeAt (c :: rest) with
    | some body => some ([], body)
    | none => (findClose rest).map (fun yb => (c :: yb.1, yb.2))

/-- `_FRONTMATTER_RE.match(raw)`: returns the yaml and body groups. -/
def frontmatterMatch (s : List Char) : Option (List Char × List Char) :=
  match s.dropWhile isWS with
  | a :: b :: c :: s2 =>
    if a = '-' ∧ b = '-' ∧ c = '-' then
      (wsNlCandidates s2).findSome? (fun cand => findClose cand)
    else none
  | _ => none

/-- BOM stripping, `text.strip("\ufeff")`: byte-order marks are stripped
from both ends. -/
def stripBOM (l : List Char) : List Char :=
  ((l.dropWhile (fun c => c = '\uFEFF')).reverse.dropWhile (fun c => c = '\uFEFF')).reverse

/-- `parse_analysis(text)`: strip the BOM, match the front matter; on no
match return the `no_frontmatter` fallback with the stripped text as body;
on a non-mapping document the `yaml_not_dict` warning with the body; on a
YAML failure the `parse_error` metadata with the raw block, and the body
(or the whole stripped text when the body is empty). -/
def parse_analysis (text : String) : Metadata × String :=
  let raw := stripBOM text.data
  match frontmatterMatch raw with
  | none =>
    ([("agent", .s "unknown"), ("parse_warning", .s "no_frontmatter")],
      String.mk (pyStrip raw))
  | some (y, b) =>
    let body := pyStrip b
    match yamlLoad y with
    | .dict m => (m, String.mk body)
    | .nondict =>
      ([("agent", .s "unknown"), ("parse_warning", .s "yaml_not_dict")],
        String.mk body)
    | .err =>
      ([("agent", .s "unknown"), ("parse_error", .s "yaml_error"),
        ("raw_frontmatter", .s (String.mk y))],
        if body = [] then String.mk (pyStrip raw) else String.mk body)

/-- The internal bookkeeping keys removed by `reconstruct_analysis`. -/
def cleanMeta (m : Metadata) : Metadata :=
  m.filter (fun kv =>
    ¬ (kv.1 = "parse_error" ∨ kv.1 = "parse_warning" ∨ kv.1 = "raw_frontmatter"))

/-- `reconstruct_analysis(metadata, markdown_body)`: strip internal keys,
dump the YAML (`rstrip` + newline), and emit
`---\n<yaml>---\n\n<stripped body>\n`. -/
def reconstruct_analysis (m : Metadata) (markdown_body : String) : String :=
  let yamlStr := pyRStrip (yamlDump (cleanMeta m)) ++ ['\n']
  String.mk ("---\n".data ++ yamlStr ++ "---\n\n".data ++ pyStrip markdown_body.data ++ ['\n'])

/-! ### Validation (`normalize_metadata`, `validate_analysis`) -/

/-- `_coerce_float(value)`: numbers (including booleans, which Python treats
as ints) become floats; numeric-looking strings are parsed; everything else
is returned unchanged with `ok = False`. -/
def coerce_float (v : YVal) : YVal × Bool :=
  match v with
  | .i n => (.f n, true)
  | .f q => (.f q, true)
  | .b bv => (.f (if bv then 1 else 0), true)
  | .s sv =>
    match parseDecimal (pyStrip sv.data) with
    | some q => (.f q, true)
    | none => (.s sv, false)
  | v2 => (v2, false)

/-- `re.fullmatch(r"\d+\.0+", s)`. -/
def isIntDotZero (t : List Char) : Bool :=
  let d := t.takeWhile Char.isDigit
  d ≠ [] &&
    (match t.drop d.length with
     | '.' :: zs => zs ≠ [] && zs.all (fun c => c = '0')
     | _ => false)

/-- `_coerce_int(value)`: ints (and booleans) pass through; strings matching
`\d+` or `\d+\.0+` are converted; everything else is returned unchanged. -/
def coerce_int (v : YVal) : YVal × Bool :=
  match v with
  | .i n => (.i n, true)
  | .b bv => (.b bv, true)
  | .s sv =>
    let t := pyStrip sv.data
    if t ≠ [] && t.all Char.isDigit then (.i (charsToNat t), true)
    else if isIntDotZero t then (.i (charsToNat (t.takeWhile Char.isDigit)), true)
    else (.s sv, false)
  | _ => (v, false)

/-- `normalize_metadata(metadata)`: coerce the `confidence` and
`total_issues` values in place (the source mutates and returns the same
dict; the model returns the updated mapping). -/
def normalize_metadata (m : Metadata) : Metadata :=
  m.map (fun kv =>
    if kv.1 = "confidence" then
      (kv.1, if (coerce_float kv.2).2 then (coerce_float kv.2).1 else kv.2)
    else if kv.1 = "total_issues" then
      (kv.1, if (coerce_int kv.2).2 then (coerce_int kv.2).1 else kv.2)
    else kv)

/-- The validation errors of `validate_analysis`, as tags carrying the data
interpolated into the source's error strings. -/
inductive VError where
  | yamlParseFailed
  | missingField (name : String)
  | agentMismatch (expected : String) (got : Option YVal)
  | confidenceNotNumeric
  | confidenceOutOfRange (q : ℚ)
  | totalIssuesNotInt
  | totalIssuesNegative (n : Int)
  | emptyBody
  | missingHeading
deriving DecidableEq

/-- `isinstance(v, (int, float))` (booleans are ints in Python). -/
def numericYVal : YVal → Bool
  | .i _ => true
  | .f _ => true
  | .b _ => true
  | _ => false

/-- `float(v)` for a numeric value. -/
def toRatYVal : YVal → ℚ
  | .i n => n
  | .f q => q
  | .b bv => if bv then 1 else 0
  | _ => 0

/-- `isinstance(v, int)` (booleans are ints in Python). -/
def intYVal : YVal → Bool
  | .i _ => true
  | .b _ => true
  | _ => false

/-- The integer value of an `int`-typed value. -/
def toIntYVal : YVal → Int
  | .i n => n
  | .b bv => if bv then 1 else 0
  | _ => 0

/-- Does `metadata.get("agent")` equal the expected producer string? -/
def agentMatches (v : Option YVal) (a : String) : Bool :=
  match v with
  | some (.s sv) => sv = a
  | _ => false

/-- One line matching `^\s*#{1,6}\s+\S` (leading whitespace, one to six
hashes, at least one whitespace, then a non-whitespace character).  With
`re.MULTILINE`, a match of the source pattern exists iff some line matches
this (the `\s*` of the pattern may span line breaks, but any such match
yields a match anchored at the line holding the hashes). -/
def lineHeading (l : List Char) : Bool :=
  let l1 := l.dropWhile isWS
  let hs := l1.takeWhile (fun c => c = '#')
  let r := l1.drop hs.length
  let w := r.takeWhile isWS
  1 ≤ hs.length && hs.length ≤ 6 && w ≠ [] && r.drop w.length ≠ []

/-- `validate_analysis(metadata, markdown_body, agent_name, coerce_types)`.
The source returns only the error list and mutates `metadata` in place when
`coerce_types` holds (via `normalize_metadata`, which updates and returns
the same dict); the model returns the error list together with the
post-normalization metadata to make that state change explicit. -/
def validate_analysis (metadata : Metadata) (markdown_body : String)
    (agent_name : Option String) (coerce_types : Bool) : List VError × Metadata :=
  let md := if coerce_types then normalize_metadata metadata else metadata
  if hasKey md "parse_error" then ([.yamlParseFailed], md)
  else
    let e1 := (["agent", "summary", "total_issues", "confidence"].filterMap fun fld =>
      if hasKey md fld then none else some (.missingField fld))
    let e2 := match agent_name with
      | some a =>
        if a ≠ "" ∧ ¬ agentMatches (lookupV md "agent") a then
          [VError.agentMismatch a (lookupV md "agent")]
        else []
      | none => []
    let e3 := match lookupV md "confidence" with
      | some v =>
        if ¬ numericYVal v then [VError.confidenceNotNumeric]
        else if ¬ (0 ≤ toRatYVal v ∧ toRatYVal v ≤ 1) then
          [VError.confidenceOutOfRange (toRatYVal v)]
        else []
      | none => []
    let e4 := match lookupV md "total_issues" with
      | some v =>
        if ¬ intYVal v then [VError.totalIssuesNotInt]
        else if toIntYVal v < 0 then [VError.totalIssuesNegative (toIntYVal v)]
        else []
      | none => []
    let body := pyStrip markdown_body.data
    let e5 :=
      if body = [] then [VError.emptyBody]
      else if ¬ (splitOnNl body).any lineHeading then [VError.missingHeading]
      else []
    (e1 ++ e2 ++ e3 ++ e4 ++ e5, md)

/-- The metadata of the specification's schema-validation scenario. -/
def scenarioMeta : Metadata :=
  [("agent", .s "security"), ("summary", .s "x"),
   ("total_issues", .s "3"), ("confidence", .s "1.5")]

end CodeReview

namespace CodeReview

/-! ### Theorems for claims C4 and C5 -/

theorem clamp_le_hi (x lo hi : ℚ) (h : lo ≤ hi) : clamp x lo hi ≤ hi := by
  unfold clamp
  exact max_le h (min_le_left _ _)

theorem lo_le_clamp (x lo hi : ℚ) : lo ≤ clamp x lo hi :=
  le_max_left _ _

/-- C4: for every finding (all combinations of present/absent confidence,
file path, line, code snippet, evidence), `compute_confidence` lies in
[0.05, 0.98] and equals the clamp of the declared-or-0.55 base plus the
three 0.10 evidence boosts minus the two penalties. -/
theorem compute_confidence_spec (f : Finding) :
    1/20 ≤ compute_confidence f ∧ compute_confidence f ≤ 49/50 ∧
      compute_confidence f = spec_confidence f := by
  refine ⟨lo_le_clamp _ _ _, clamp_le_hi _ _ _ (by norm_num), ?_⟩
  simp only [compute_confidence, spec_confidence]
  cases h1 : boostFile f <;> cases h2 : boostLine f <;> cases h3 : boostSnippet f <;>
    cases h4 : penaltyLogging f <;> cases h5 : penaltyShort f <;>
      simp only [Bool.false_eq_true, if_false, if_true, eq_self_iff_true] <;> ring_nf

/-- C5 (amended): on the four canonical severities, `adjust_severity_by_confidence`
downgrades two ranks when confidence < 0.25, one rank when confidence is in
[0.25, 0.45) and the severity is high or critical, and otherwise leaves the
severity unchanged; in particular `adjust_severity_by_confidence "critical" 0.10`
is `"medium"` (two steps below critical), not `"low"`, while
`adjust_severity_by_confidence "critical" 0.90 = "critical"` and
`adjust_severity_by_confidence "low" 0.01 = "low"`. -/
theorem adjust_severity_spec :
    (∀ sev : String, sev ∈ SEVERITY_ORDER → ∀ c : ℚ,
      adjust_severity_by_confidence sev c =
        rankSev (if c < 1/4 then sevRank sev - 2
                 else if c < 9/20 ∧ 2 ≤ sevRank sev then sevRank sev - 1
                 else sevRank sev)) ∧
    adjust_severity_by_confidence "critical" (10/100) = "medium" ∧
    adjust_severity_by_confidence "critical" (90/100) = "critical" ∧
    adjust_severity_by_confidence "low" (1/100) = "low" := by
  have main : ∀ sev : String, sev ∈ SEVERITY_ORDER → ∀ c : ℚ,
      adjust_severity_by_confidence sev c =
        rankSev (if c < 1/4 then sevRank sev - 2
                 else if c < 9/20 ∧ 2 ≤ sevRank sev then sevRank sev - 1
                 else sevRank sev) := by
    intro sev hmem c
    simp only [SEVERITY_ORDER, List.mem_cons, List.not_mem_nil, or_false] at hmem
    rcases hmem with h | h | h | h <;> subst h <;>
      · simp only [adjust_severity_by_confidence]
        rcases lt_or_le c (1/4) with hc | hc
        · simp only [hc, if_true]
          decide
        · have hc' : ¬ (c < 1/4) := not_lt.mpr hc
          rcases lt_or_le c (9/20) with hc2 | hc2
          · simp only [hc', hc2, if_false, true_and]
            decide
          · have hc2' : ¬ (c < 9/20) := not_lt.mpr hc2
            simp only [hc', hc2', if_false, false_and]
            decide
  refine ⟨main, ?_, ?_, ?_⟩
  · have := main "critical" (by decide) (10/100)
    rw [this, if_pos (by norm_num)]
    decide
  · have := main "critical" (by decide) (90/100)
    rw [this, if_neg (by norm_num), if_neg (by norm_num [sevRank])]
    decide
  · have := main "low" (by decide) (1/100)
    rw [this, if_pos (by norm_num)]
    decide

/-- C5 counterexample: the claim's stated value for
`adjust_severity("critical", 0.10)` is `"low"`, but the code (two steps down
the four-element scale from index 3) yields `"medium"`. -/
theorem adjust_severity_critical_low_conf :
    adjust_severity_by_confidence "critical" (10/100) = "medium" ∧
      adjust_severity_by_confidence "critical" (10/100) ≠ "low" := by
  have h : ((10:ℚ)/100 < 1/4) := by norm_num
  constructor <;> (simp only [adjust_severity_by_confidence, h, if_true]; decide)

/-- Witness for C5: the general statement applied at severity `"high"`,
confidence 0.10. -/
theorem adjust_severity_spec_witness :
    adjust_severity_by_confidence "high" (10/100) =
      rankSev (if (10/100 : ℚ) < 1/4 then sevRank "high" - 2
               else if (10/100 : ℚ) < 9/20 ∧ 2 ≤ sevRank "high" then sevRank "high" - 1
               else sevRank "high") :=
  adjust_severity_spec.1 "high" (by decide) (10/100)

/-! ### Theorems for claim C7 (deduplication) -/

theorem dedup_sublist (l : List Finding) (seen : List (String × String × String × Int × List Char)) :
    List.Sublist (dedup l seen) l := by
  induction l generalizing seen with
  | nil => simp [dedup]
  | cons v rest ih =>
    simp only [dedup]
    split
    · exact (ih seen).trans (List.sublist_cons_self v rest)
    · exact (ih (dedupKey v :: seen)).cons₂ v

theorem dedup_keys_not_seen (l : List Finding) (seen : List (String × String × String × Int × List Char))
    (w : Finding) (hw : w ∈ dedup l seen) : dedupKey w ∉ seen := by
  induction l generalizing seen with
  | nil => simp [dedup] at hw
  | cons v rest ih =>
    simp only [dedup] at hw
    split at hw
    · exact ih seen hw
    · rcases List.mem_cons.mp hw with h | h
      · subst h; assumption
      · intro hmem
        exact ih (dedupKey v :: seen) h (List.mem_cons_of_mem _ hmem)

theorem dedup_keys_nodup (l : List Finding) (seen : List (String × String × String × Int × List Char)) :
    ((dedup l seen).map dedupKey).Nodup := by
  induction l generalizing seen with
  | nil => simp [dedup]
  | cons v rest ih =>
    simp only [dedup]
    split
    · exact ih seen
    · refine List.nodup_cons.mpr ⟨?_, ih (dedupKey v :: seen)⟩
      intro hmem
      rcases List.mem_map.mp hmem with ⟨w, hw, hkey⟩
      exact dedup_keys_not_seen rest (dedupKey v :: seen) w hw (hkey ▸ List.mem_cons_self _ _)

theorem dedup_complete (l : List Finding) (seen : List (String × String × String × Int × List Char))
    (v : Finding) (hv : v ∈ l) (hns : dedupKey v ∉ seen) :
    dedupKey v ∈ (dedup l seen).map dedupKey := by
  induction l generalizing seen with
  | nil => simp at hv
  | cons u rest ih =>
    simp only [dedup]
    rcases List.mem_cons.mp hv with h | h
    · subst h
      split
      · exact absurd (by assumption) hns
      · simp
    · split
      · exact ih seen h hns
      · rename_i hu
        by_cases hk : dedupKey v = dedupKey u
        · simp [hk]
        · have : dedupKey v ∉ dedupKey u :: seen := by
            intro hmem
            rcases List.mem_cons.mp hmem with h' | h'
            · exact hk h'
            · exact hns h'
          simpa using Or.inr (ih (dedupKey u :: seen) h this)

theorem dedup_first_seen (l : List Finding) (seen : List (String × String × String × Int × List Char))
    (w : Finding) (hw : w ∈ dedup l seen) :
    ∃ l1 l2, l = l1 ++ w :: l2 ∧ ∀ u ∈ l1, dedupKey u ∈ seen ∨ dedupKey u ≠ dedupKey w := by
  induction l generalizing seen with
  | nil => simp [dedup] at hw
  | cons v rest ih =>
    simp only [dedup] at hw
    split at hw
    · rcases ih seen hw with ⟨l1, l2, heq, hfirst⟩
      refine ⟨v :: l1, l2, by rw [heq]; rfl, ?_⟩
      intro u hu
      rcases List.mem_cons.mp hu with h | h
      · subst h; exact Or.inl (by assumption)
      · exact hfirst u h
    · rcases List.mem_cons.mp hw with h | h
      · subst h
        exact ⟨[], rest, rfl, by simp⟩
      · have hkw : dedupKey w ∉ dedupKey v :: seen :=
          dedup_keys_not_seen rest (dedupKey v :: seen) w h
        rcases ih (dedupKey v :: seen) h with ⟨l1, l2, heq, hfirst⟩
        refine ⟨v :: l1, l2, by rw [heq]; rfl, ?_⟩
        intro u hu
        rcases List.mem_cons.mp hu with h' | h'
        · subst h'
          exact Or.inr fun hk => hkw (hk ▸ List.mem_cons_self _ _)
        · rcases hfirst u h' with hseen | hne
          · rcases List.mem_cons.mp hseen with h'' | h''
            · exact Or.inr fun hk => hkw (hk ▸ h'' ▸ List.mem_cons_self _ _)
            · exact Or.inl h''
          · exact Or.inr hne

/-- C7: the deduplication step retains, in original relative order, exactly one
finding per composite key `(rule_id, type, file_path, line, first 80 chars of
snippet)` -- namely the first-seen one; in particular two findings with the
same key yield exactly one retained finding. -/
theorem dedup_spec :
    (∀ l : List Finding,
      List.Sublist (dedup l []) l ∧
      ((dedup l []).map dedupKey).Nodup ∧
      (∀ v ∈ l, dedupKey v ∈ (dedup l []).map dedupKey) ∧
      (∀ w ∈ dedup l [], ∃ l1 l2, l = l1 ++ w :: l2 ∧
        ∀ u ∈ l1, dedupKey u ≠ dedupKey w)) ∧
    (∀ v : Finding, dedup [v, v] [] = [v]) := by
  constructor
  · intro l
    refine ⟨dedup_sublist l [], dedup_keys_nodup l [], ?_, ?_⟩
    · intro v hv
      exact dedup_complete l [] v hv (List.not_mem_nil _)
    · intro w hw
      rcases dedup_first_seen l [] w hw with ⟨l1, l2, heq, hfirst⟩
      refine ⟨l1, l2, heq, fun u hu => ?_⟩
      rcases hfirst u hu with hseen | hne
      · exact absurd hseen (List.not_mem_nil _)
      · exact hne
  · intro v
    simp [dedup]

/-- Witness for C7: the completeness part applied to a concrete singleton
list. -/
theorem dedup_spec_witness :
    dedupKey ({} : Finding) ∈ ((dedup [({} : Finding)] []).map dedupKey) :=
  (dedup_spec.1 [{}]).2.2.1 {} (List.mem_singleton_self _)

/-! ### Theorems for claim C9 (CVE lookup fails open) -/

/-- C9: for every well-formed CVE identifier, a lookup ending in a timeout or
any other network/transport error yields `True` (the id is treated as valid,
the pipeline is not blocked), and the lookup is made with a 5-second
timeout. -/
theorem validate_cve_fail_open :
    (∀ (cve : String) (outcome : HttpOutcome),
      cveFormatOk cve.data = true →
      (outcome = .timeout ∨ ∃ m, outcome = .netError m) →
      validate_cve_exists cve outcome = true) ∧
    NVD_REQUEST_TIMEOUT_SECONDS = 5 := by
  refine ⟨?_, rfl⟩
  intro cve oc hfmt hoc
  rcases hoc with h | ⟨m, h⟩ <;> subst h <;> simp [validate_cve_exists, hfmt]

/-- Witness for C9: a concrete well-formed CVE id whose lookup times out is
accepted. -/
theorem validate_cve_fail_open_witness :
    validate_cve_exists "CVE-2023-12345" HttpOutcome.timeout = true :=
  validate_cve_fail_open.1 "CVE-2023-12345" HttpOutcome.timeout (by decide) (Or.inl rfl)

/-! ### Theorems for claim C8 (filter idempotence) -/

theorem subnF_no_occ (pat rep : List Char) :
    ∀ (n : Nat) (s : List Char), s.length ≤ n → hasOccCI pat s = false →
      subnF true pat rep n s = (s, 0) := by
  intro n
  induction n with
  | zero =>
    intro s hlen _
    have hs : s = [] := List.length_eq_zero.mp (Nat.le_zero.mp hlen)
    subst hs
    simp [subnF]
  | succ n ih =>
    intro s hlen hocc
    match s with
    | [] => simp [subnF]
    | c :: rest =>
      simp only [hasOccCI, Bool.or_eq_false_iff] at hocc
      obtain ⟨h1, h2⟩ := hocc
      simp only [subnF]
      rw [if_neg]
      · rw [ih rest (by simpa using hlen) h2]
      · rintro ⟨-, hpm⟩
        rw [h1] at hpm
        exact Bool.false_ne_true hpm

theorem filter_content_noop_aux (y : List Char) :
    ∀ (rules : List (List Char × List Char)) (k : Nat),
      (∀ pr ∈ rules, hasOccCI pr.1 y = false) →
      rules.foldl
        (fun acc pr =>
          let r := subn true pr.1 pr.2 acc.1
          (r.1, acc.2 + r.2)) (y, k) = (y, k) := by
  intro rules
  induction rules with
  | nil => intro k _; rfl
  | cons pr rest ih =>
    intro k h
    have h1 : subn true pr.1 pr.2 y = (y, 0) :=
      subnF_no_occ pr.1 pr.2 y.length y le_rfl (h pr (List.mem_cons_self _ _))
    simp only [List.foldl_cons, h1]
    exact ih k fun q hq => h q (List.mem_cons_of_mem _ hq)

/-- C8 (amended): a second application of `filter_content` with the same rule
set is a no-op (same text, count 0) whenever the once-filtered text contains
no case-insensitive occurrence of any rule pattern; without that proviso,
idempotence fails (see the counterexample). -/
theorem filter_content_second_pass_noop :
    ∀ (rules : List (List Char × List Char)) (body : List Char),
      (∀ pr ∈ rules, hasOccCI pr.1 (filter_content body rules).1 = false) →
      filter_content (filter_content body rules).1 rules =
        ((filter_content body rules).1, 0) := by
  intro rules body h
  unfold filter_content
  exact filter_content_noop_aux _ rules 0 h

/-- C8 counterexample: for the rule set `[("a", "aa")]` and body `"a"`, the
second pass rewrites the text again and reports 2 replacements, refuting
`filter(filter(x)) = filter(x)` with a second-pass count of 0 for arbitrary
rule sets. -/
theorem filter_content_not_idempotent :
    (filter_content (filter_content "a".data [("a".data, "aa".data)]).1
        [("a".data, "aa".data)]).2 ≠ 0 ∧
      (filter_content (filter_content "a".data [("a".data, "aa".data)]).1
          [("a".data, "aa".data)]).1 ≠
        (filter_content "a".data [("a".data, "aa".data)]).1 := by
  constructor <;> decide

/-- Witness for C8: a rule whose replacement does not reintroduce its pattern,
applied to a concrete body. -/
theorem filter_content_second_pass_noop_witness :
    filter_content (filter_content "bad thing".data [("bad".data, "good".data)]).1
        [("bad".data, "good".data)] =
      ((filter_content "bad thing".data [("bad".data, "good".data)]).1, 0) :=
  filter_content_second_pass_noop [("bad".data, "good".data)] "bad thing".data (by decide)

/-! ### Theorems for claim C1 (artifact save/load round trip) -/

theorem save_filename_not_md (agent : String) :
    matchesAnalysisGlob (save_disk_filename agent) = false := by
  unfold matchesAnalysisGlob endsWithL save_disk_filename
  rw [String.data_append, List.reverse_append]
  have h1 : "_analysis.md".data.reverse =
      ['d', 'm', '.', 's', 'i', 's', 'y', 'l', 'a', 'n', 'a', '_'] := by decide
  have h2 : "_analysis.json".data.reverse =
      ['n', 'o', 's', 'j', '.', 's', 'i', 's', 'y', 'l', 'a', 'n', 'a', '_'] := by decide
  rw [h1, h2]
  simp [List.isPrefixOf]

/-- C1: the round trip fails because the saver and the loader disagree on the
file extension: `save_analysis_result` writes `<agent>_analysis.json` on
disk, while `load_analysis_results_from_artifacts` only globs
`*_analysis.md`; hence loading a session directory populated by a save
returns the empty mapping instead of `{producer: document}` -- exhibited
concretely for `("security", "hello")`. -/
theorem artifact_save_load_mismatch :
    (∀ agent : String, matchesAnalysisGlob (save_disk_filename agent) = false) ∧
    (∀ agent doc : String, load_analysis_results (saveDisk agent doc []) = []) ∧
    load_analysis_results (saveDisk "security" "hello" []) = [] := by
  have h2 : ∀ agent doc : String, load_analysis_results (saveDisk agent doc []) = [] := by
    intro agent doc
    simp [saveDisk, setFile, load_analysis_results, save_filename_not_md agent]
  exact ⟨save_filename_not_md, h2, h2 "security" "hello"⟩

/-! ### Theorems for claim C10 (backtick sanitization on save) -/

theorem subBTF_succ_match (n : Nat) (rest : List Char)
    (h : rest.takeWhile nb ≠ [] ∧
      (rest.drop (rest.takeWhile nb).length).head? = some btChar) :
    subBTF (n + 1) (btChar :: rest) =
      '\'' :: (rest.takeWhile nb ++
        '\'' :: subBTF n ((rest.drop (rest.takeWhile nb).length).drop 1)) := by
  simp only [subBTF, if_true]
  rw [if_pos h]

theorem subBTF_succ_nomatch (n : Nat) (rest : List Char)
    (h : ¬ (rest.takeWhile nb ≠ [] ∧
      (rest.drop (rest.takeWhile nb).length).head? = some btChar)) :
    subBTF (n + 1) (btChar :: rest) = btChar :: subBTF n rest := by
  simp only [subBTF, if_true]
  rw [if_neg h]

theorem subBTF_succ_nonbt (n : Nat) (c : Char) (rest : List Char) (h : c ≠ btChar) :
    subBTF (n + 1) (c :: rest) = c :: subBTF n rest := by
  simp only [subBTF]
  rw [if_neg h]

theorem subBTF_fuel :
    ∀ (n m : Nat) (s : List Char), s.length ≤ n → s.length ≤ m →
      subBTF n s = subBTF m s := by
  intro n
  induction n with
  | zero =>
    intro m s hn _
    have hs : s = [] := List.length_eq_zero.mp (Nat.le_zero.mp hn)
    subst hs
    cases m <;> simp [subBTF]
  | succ n ih =>
    intro m s hn hm
    match s, m with
    | [], m => cases m <;> simp [subBTF]
    | c :: rest, 0 => exact absurd hm (by simp)
    | c :: rest, m + 1 =>
      have h1 : rest.length ≤ n := by simpa using hn
      have h2 : rest.length ≤ m := by simpa using hm
      by_cases hc : c = btChar
      · subst hc
        by_cases hmatch : rest.takeWhile nb ≠ [] ∧
            (rest.drop (rest.takeWhile nb).length).head? = some btChar
        · rw [subBTF_succ_match n rest hmatch, subBTF_succ_match m rest hmatch]
          have hd : ((rest.drop (rest.takeWhile nb).length).drop 1).length ≤ rest.length := by
            simp only [List.length_drop]
            omega
          rw [ih m _ (hd.trans h1) (hd.trans h2)]
        · rw [subBTF_succ_nomatch n rest hmatch, subBTF_succ_nomatch m rest hmatch,
            ih m rest h1 h2]
      · rw [subBTF_succ_nonbt n c rest hc, subBTF_succ_nonbt m c rest hc, ih m rest h1 h2]

theorem subBackticks_cons_nonbt (c : Char) (t : List Char) (h : c ≠ btChar) :
    subBackticks (c :: t) = c :: subBackticks t := by
  unfold subBackticks
  rw [List.length_cons, subBTF_succ_nonbt t.length c t h]

theorem takeWhile_nonbt_append (content rest : List Char) (h : btChar ∉ content) :
    (content ++ btChar :: rest).takeWhile nb = content := by
  induction content with
  | nil => simp [List.takeWhile_cons, nb]
  | cons a t ih =>
    have ha : a ≠ btChar := fun hab => h (hab ▸ List.mem_cons_self _ _)
    simp only [List.cons_append, List.takeWhile_cons]
    rw [if_pos (by simp [nb, ha]), ih fun hm => h (List.mem_cons_of_mem _ hm)]

theorem subBackticks_head_match (content rest : List Char) (hne : content ≠ [])
    (hnb : btChar ∉ content) :
    subBackticks (btChar :: (content ++ btChar :: rest)) =
      '\'' :: (content ++ '\'' :: subBackticks rest) := by
  have htw : (content ++ btChar :: rest).takeWhile nb = content :=
    takeWhile_nonbt_append content rest hnb
  have hdrop : (content ++ btChar :: rest).drop content.length = btChar :: rest :=
    List.drop_left content (btChar :: rest)
  have hcond : (content ++ btChar :: rest).takeWhile nb ≠ [] ∧
      ((content ++ btChar :: rest).drop
        ((content ++ btChar :: rest).takeWhile nb).length).head? = some btChar := by
    rw [htw, hdrop]
    exact ⟨hne, rfl⟩
  unfold subBackticks
  rw [List.length_cons, subBTF_succ_match _ _ hcond, htw, hdrop]
  have hfuel : rest.length ≤ (content ++ btChar :: rest).length := by
    simp only [List.length_append, List.length_cons]
    omega
  rw [show (btChar :: rest).drop 1 = rest from rfl, subBTF_fuel _ _ rest hfuel le_rfl]

theorem btMatch_decomp (rest : List Char)
    (h : rest.takeWhile nb ≠ [] ∧
      (rest.drop (rest.takeWhile nb).length).head? = some btChar) :
    rest = rest.takeWhile nb ++
        btChar :: ((rest.drop (rest.takeWhile nb).length).drop 1) ∧
      btChar ∉ rest.takeWhile nb := by
  have hnb2 : btChar ∉ rest.takeWhile nb := by
    intro hmem
    have := List.mem_takeWhile_imp hmem
    simp [nb] at this
  have hafter : rest.drop (rest.takeWhile nb).length = rest.dropWhile nb := by
    nth_rewrite 2 [← List.takeWhile_append_dropWhile nb rest]
    exact List.drop_left _ _
  refine ⟨?_, hnb2⟩
  rw [hafter] at h ⊢
  rcases hd : rest.dropWhile nb with _ | ⟨a, tl⟩
  · rw [hd] at h
    simp at h
  · rw [hd] at h
    have ha : a = btChar := by
      have := h.2
      simp at this
      exact this
    subst ha
    nth_rewrite 1 [← List.takeWhile_append_dropWhile nb rest]
    rw [hd]
    simp

theorem count_subBTF_le :
    ∀ (n : Nat) (s : List Char), (subBTF n s).count btChar ≤ s.count btChar := by
  intro n
  induction n with
  | zero => intro s; cases s <;> simp [subBTF]
  | succ n ih =>
    intro s
    match s with
    | [] => simp [subBTF]
    | c :: rest =>
      by_cases hc : c = btChar
      · subst hc
        by_cases hmatch : rest.takeWhile nb ≠ [] ∧
            (rest.drop (rest.takeWhile nb).length).head? = some btChar
        · rw [subBTF_succ_match n rest hmatch]
          obtain ⟨hdecomp, hnb2⟩ := btMatch_decomp rest hmatch
          have hcontent0 : (rest.takeWhile nb).count btChar = 0 :=
            List.count_eq_zero.mpr hnb2
          have ihs := ih ((rest.drop (rest.takeWhile nb).length).drop 1)
          conv_rhs => rw [hdecomp]
          simp only [List.count_cons, List.count_append, hcontent0]
          simp only [show (btChar == btChar) = true by decide,
            show (btChar == '\'') = false by decide,
            show ('\'' == btChar) = false by decide, Bool.false_eq_true,
            eq_self_iff_true, if_true, if_false]
          omega
        · rw [subBTF_succ_nomatch n rest hmatch]
          have := ih rest
          simp only [List.count_cons]
          omega
      · rw [subBTF_succ_nonbt n c rest hc]
        have := ih rest
        simp only [List.count_cons]
        omega

theorem count_subBTF_lt :
    ∀ (n : Nat) (s : List Char), s.length ≤ n → hasBTMatch s = true →
      (subBTF n s).count btChar < s.count btChar := by
  intro n
  induction n with
  | zero =>
    intro s hlen hocc
    have hs : s = [] := List.length_eq_zero.mp (Nat.le_zero.mp hlen)
    subst hs
    simp [hasBTMatch] at hocc
  | succ n ih =>
    intro s hlen hocc
    match s with
    | [] => simp [hasBTMatch] at hocc
    | c :: rest =>
      have hrlen : rest.length ≤ n := by simpa using hlen
      by_cases hc : c = btChar
      · subst hc
        by_cases hmatch : rest.takeWhile nb ≠ [] ∧
            (rest.drop (rest.takeWhile nb).length).head? = some btChar
        · rw [subBTF_succ_match n rest hmatch]
          obtain ⟨hdecomp, hnb2⟩ := btMatch_decomp rest hmatch
          have hcontent0 : (rest.takeWhile nb).count btChar = 0 :=
            List.count_eq_zero.mpr hnb2
          have ihs := count_subBTF_le n
            ((rest.drop (rest.takeWhile nb).length).drop 1)
          conv_rhs => rw [hdecomp]
          simp only [List.count_cons, List.count_append, hcontent0]
          simp only [show (btChar == btChar) = true by decide,
            show (btChar == '\'') = false by decide,
            show ('\'' == btChar) = false by decide, Bool.false_eq_true,
            eq_self_iff_true, if_true, if_false]
          omega
        · rw [subBTF_succ_nomatch n rest hmatch]
          have hrest : hasBTMatch rest = true := by
            simp only [hasBTMatch, Bool.or_eq_true] at hocc
            rcases hocc with h | h
            · exfalso
              apply hmatch
              simp only [Bool.and_eq_true, decide_eq_true_eq] at h
              exact ⟨h.2.1, h.2.2⟩
            · exact h
          have := ih rest hrlen hrest
          simp only [List.count_cons]
          omega
      · rw [subBTF_succ_nonbt n c rest hc]
        have hrest : hasBTMatch rest = true := by
          simp only [hasBTMatch, Bool.or_eq_true] at hocc
          rcases hocc with h | h
          · exfalso
            simp only [Bool.and_eq_true, decide_eq_true_eq] at h
            exact hc h.1
          · exact h
        have := ih rest hrlen hrest
        simp only [List.count_cons]
        omega

theorem count_pyStrip_le (l : List Char) :
    (pyStrip l).count btChar ≤ l.count btChar := by
  unfold pyStrip
  rw [List.count_reverse]
  calc ((l.dropWhile isWS).reverse.dropWhile isWS).count btChar
      ≤ (l.dropWhile isWS).reverse.count btChar :=
        (List.dropWhile_sublist isWS).count_le btChar
    _ = (l.dropWhile isWS).count btChar := List.count_reverse _ _
    _ ≤ l.count btChar := (List.dropWhile_sublist isWS).count_le btChar

theorem splitOnNl_ne_nil (t : List Char) : splitOnNl t ≠ [] := by
  cases t with
  | nil => simp [splitOnNl]
  | cons c rest =>
    simp only [splitOnNl]
    rcases splitOnNl rest with _ | ⟨h, tl⟩
    · simp
    · by_cases hc : c = '\n' <;> simp [hc]

theorem joinNl_cons_cons (l : List Char) (c : Char) (tl : List (List Char)) :
    joinNl ((c :: l) :: tl) = c :: joinNl (l :: tl) := by
  cases tl <;> simp [joinNl]

theorem join_split (t : List Char) : joinNl (splitOnNl t) = t := by
  induction t with
  | nil => simp [splitOnNl, joinNl]
  | cons c rest ih =>
    simp only [splitOnNl]
    rcases hs : splitOnNl rest with _ | ⟨h, tl⟩
    · exact absurd hs (splitOnNl_ne_nil rest)
    · rw [hs] at ih
      show joinNl (if c = '\n' then [] :: h :: tl else (c :: h) :: tl) = c :: rest
      by_cases hc : c = '\n'
      · rw [if_pos hc, hc]
        simp only [joinNl, List.nil_append]
        rw [ih]
      · rw [if_neg hc, joinNl_cons_cons, ih]

theorem count_joinNl (lines : List (List Char)) :
    (joinNl lines).count btChar = (lines.map (fun l => l.count btChar)).sum := by
  induction lines with
  | nil => simp [joinNl]
  | cons l rest ih =>
    cases rest with
    | nil => simp [joinNl]
    | cons h tl =>
      simp only [joinNl, List.count_append, List.count_cons, List.map_cons, List.sum_cons] at *
      have hq : ¬ (btChar = '\n') := by decide
      have hq2 : ¬ ('\n' = btChar) := by decide
      simp [hq, hq2] at *
      omega

theorem sum_dropLast_le (l : List Nat) : l.dropLast.sum ≤ l.sum := by
  induction l with
  | nil => simp
  | cons a t ih =>
    cases t with
    | nil => simp
    | cons b u =>
      simp only [List.dropLast_cons₂, List.sum_cons]
      have := ih
      simp only [List.sum_cons] at this ⊢
      omega

theorem count_dropClosingFence (L : List (List Char)) :
    ((dropClosingFence L).map (fun l => l.count btChar)).sum ≤
      (L.map (fun l => l.count btChar)).sum := by
  unfold dropClosingFence
  split
  · split
    · rw [List.map_dropLast]
      exact sum_dropLast_le _
    · exact le_rfl
  · exact le_rfl

theorem count_stripCodeFences_le (t : List Char) :
    (stripCodeFences t).count btChar ≤ t.count btChar := by
  have hjoin : ((splitOnNl t).map (fun l => l.count btChar)).sum = t.count btChar := by
    rw [← count_joinNl, join_split]
  have hdrop : (((splitOnNl t).drop 1).map (fun l => l.count btChar)).sum ≤
      ((splitOnNl t).map (fun l => l.count btChar)).sum := by
    cases splitOnNl t with
    | nil => simp
    | cons h tl => simp
  unfold stripCodeFences
  split
  · calc (pyStrip (joinNl (dropClosingFence ((splitOnNl t).drop 1)))).count btChar
        ≤ (joinNl (dropClosingFence ((splitOnNl t).drop 1))).count btChar :=
          count_pyStrip_le _
      _ = ((dropClosingFence ((splitOnNl t).drop 1)).map (fun l => l.count btChar)).sum :=
          count_joinNl _
      _ ≤ (((splitOnNl t).drop 1).map (fun l => l.count btChar)).sum :=
          count_dropClosingFence _
      _ ≤ ((splitOnNl t).map (fun l => l.count btChar)).sum := hdrop
      _ = t.count btChar := hjoin
  · exact le_rfl

/-- C10: `save_analysis_result` rewrites every inline backtick span: the first
span of the text becomes its content wrapped in single quotes (and the scan
continues after it), and consequently an input whose processed form contains
a backtick span is never persisted byte-identical to what the caller
supplied. -/
theorem save_backtick_sanitization :
    (∀ pre content rest : List Char, btChar ∉ pre → content ≠ [] → btChar ∉ content →
      subBackticks (pre ++ btChar :: (content ++ btChar :: rest)) =
        pre ++ '\'' :: (content ++ '\'' :: subBackticks rest)) ∧
    (∀ s : List Char, hasBTMatch (stripCodeFences (pyStrip s)) = true →
      processAnalysisData s ≠ s) := by
  constructor
  · intro pre content rest hpre hne hnb
    induction pre with
    | nil => simpa using subBackticks_head_match content rest hne hnb
    | cons a t ih =>
      have ha : a ≠ btChar := fun hab => hpre (hab ▸ List.mem_cons_self _ _)
      rw [List.cons_append, subBackticks_cons_nonbt a _ ha,
        ih fun hm => hpre (List.mem_cons_of_mem _ hm)]
      rfl
  · intro s hmatch heq
    have h1 : (processAnalysisData s).count btChar <
        (stripCodeFences (pyStrip s)).count btChar := by
      unfold processAnalysisData subBackticks
      exact count_subBTF_lt _ _ le_rfl hmatch
    have h2 : (stripCodeFences (pyStrip s)).count btChar ≤ (pyStrip s).count btChar :=
      count_stripCodeFences_le _
    have h3 : (pyStrip s).count btChar ≤ s.count btChar := count_pyStrip_le s
    rw [heq] at h1
    omega

/-- Witness for C10: a concrete document with an inline backtick span is not
persisted byte-identical. -/
theorem save_backtick_sanitization_witness :
    processAnalysisData "see `code` here".data ≠ "see `code` here".data :=
  save_backtick_sanitization.2 "see `code` here".data (by decide)


/-! ### Theorems for claim C3 (no-frontmatter fallback) -/

/-- C3 (amended): on input without a front-matter match, `parse_analysis`
never raises (it is a total function) and returns
`{agent: "unknown", parse_warning: "no_frontmatter"}` together with the
input *stripped of surrounding whitespace* (not verbatim) as the body; in
particular `parse_analysis "just some text"` yields agent `"unknown"` and
body `"just some text"`. -/
theorem parse_no_frontmatter :
    (∀ t : String, frontmatterMatch (stripBOM t.data) = none →
      parse_analysis t =
        ([("agent", .s "unknown"), ("parse_warning", .s "no_frontmatter")],
          String.mk (pyStrip (stripBOM t.data)))) ∧
    parse_analysis "just some text" =
      ([("agent", .s "unknown"), ("parse_warning", .s "no_frontmatter")],
        "just some text") := by
  constructor
  · intro t h
    simp only [parse_analysis]
    rw [h]
  · decide

/-- C3 counterexample: the body returned by the fallback is the stripped
input, not the input verbatim -- whitespace-padded input comes back
changed. -/
theorem parse_no_frontmatter_strips :
    (parse_analysis "  just some text  ").2 = "just some text" ∧
      (parse_analysis "  just some text  ").2 ≠ "  just some text  " := by
  constructor <;> decide

/-- Witness for C3: the general fallback applied to a concrete input. -/
theorem parse_no_frontmatter_witness :
    parse_analysis "hello" =
      ([("agent", .s "unknown"), ("parse_warning", .s "no_frontmatter")],
        String.mk (pyStrip (stripBOM "hello".data))) :=
  parse_no_frontmatter.1 "hello" (by decide)

/-! ### Infrastructure for the round-trip claim (C2): stripping -/

theorem dropWhile_eq_self_of_head {p : Char → Bool} {l : List Char}
    (h : ∀ c, l.head? = some c → p c = false) : l.dropWhile p = l := by
  cases l with
  | nil => rfl
  | cons a t =>
    rw [List.dropWhile_cons, if_neg]
    simp [h a rfl]

theorem head?_dropWhile_false {p : Char → Bool} {l : List Char} {c : Char}
    (h : (l.dropWhile p).head? = some c) : p c = false := by
  induction l with
  | nil => simp at h
  | cons a t ih =>
    rw [List.dropWhile_cons] at h
    split at h
    · exact ih h
    · simp at h
      subst h
      simp_all

theorem strip2_eq_self (p : Char → Bool) (l : List Char)
    (h1 : ∀ c, l.head? = some c → p c = false)
    (h2 : ∀ c, l.getLast? = some c → p c = false) :
    ((l.dropWhile p).reverse.dropWhile p).reverse = l := by
  rw [dropWhile_eq_self_of_head h1]
  rw [dropWhile_eq_self_of_head]
  · exact l.reverse_reverse
  · intro c hc
    rw [List.head?_reverse] at hc
    exact h2 c hc

theorem pyStrip_eq_self {l : List Char}
    (h1 : ∀ c, l.head? = some c → isWS c = false)
    (h2 : ∀ c, l.getLast? = some c → isWS c = false) : pyStrip l = l :=
  strip2_eq_self isWS l h1 h2

theorem getLast?_mem_of_suffix {l₁ l₂ : List Char} (h : l₁ <:+ l₂) (hne : l₁ ≠ []) :
    l₁.getLast? = l₂.getLast? := by
  obtain ⟨t, ht⟩ := h
  subst ht
  obtain ⟨x, hx⟩ := Option.isSome_iff_exists.mp (List.getLast?_isSome.mpr hne)
  rw [List.getLast?_append, hx]
  rfl

theorem pyStrip_head {l : List Char} {c : Char}
    (h : (pyStrip l).head? = some c) : isWS c = false := by
  unfold pyStrip at h
  rw [List.head?_reverse] at h
  have hsuf : (l.dropWhile isWS).reverse.dropWhile isWS <:+ (l.dropWhile isWS).reverse :=
    List.dropWhile_suffix isWS
  have hne : (l.dropWhile isWS).reverse.dropWhile isWS ≠ [] := by
    intro he
    rw [he] at h
    simp at h
  rw [getLast?_mem_of_suffix hsuf hne] at h
  rw [List.getLast?_reverse] at h
  exact head?_dropWhile_false h

theorem pyStrip_last {l : List Char} {c : Char}
    (h : (pyStrip l).getLast? = some c) : isWS c = false := by
  unfold pyStrip at h
  rw [List.getLast?_reverse] at h
  exact head?_dropWhile_false h

theorem pyStrip_idem (l : List Char) : pyStrip (pyStrip l) = pyStrip l :=
  pyStrip_eq_self (fun _ h => pyStrip_head h) (fun _ h => pyStrip_last h)

theorem strip_self_head {l : List Char} (hl : pyStrip l = l) :
    ∀ c, l.head? = some c → isWS c = false := by
  intro c hc
  rw [← hl] at hc
  exact pyStrip_head hc

theorem strip_self_last {l : List Char} (hl : pyStrip l = l) :
    ∀ c, l.getLast? = some c → isWS c = false := by
  intro c hc
  rw [← hl] at hc
  exact pyStrip_last hc

theorem pyStrip_append_nl {l : List Char} (h : pyStrip l = l) :
    pyStrip (l ++ ['\n']) = l := by
  cases hl : l with
  | nil => decide
  | cons a t =>
    rw [← hl]
    unfold pyStrip
    have h1 : (l ++ ['\n']).dropWhile isWS = l ++ ['\n'] := by
      apply dropWhile_eq_self_of_head
      intro c hc
      rw [hl, List.cons_append, List.head?_cons] at hc
      obtain rfl : a = c := Option.some.inj hc
      exact strip_self_head h a (by rw [hl]; rfl)
    rw [h1, List.reverse_append]
    simp only [List.reverse_cons, List.reverse_nil, List.nil_append, List.singleton_append]
    rw [List.dropWhile_cons, if_pos (by decide)]
    have h2 : l.reverse.dropWhile isWS = l.reverse :=
      dropWhile_eq_self_of_head fun c hc => by
        rw [List.head?_reverse] at hc
        exact strip_self_last h c hc
    rw [h2, List.reverse_reverse]

theorem pyRStrip_eq_self {l : List Char}
    (h : ∀ c, l.getLast? = some c → isWS c = false) : pyRStrip l = l := by
  unfold pyRStrip
  rw [dropWhile_eq_self_of_head, List.reverse_reverse]
  intro c hc
  rw [List.head?_reverse] at hc
  exact h c hc

theorem pyRStrip_append_nl {l : List Char} (h : pyRStrip l = l) :
    pyRStrip (l ++ ['\n']) = l := by
  unfold pyRStrip at *
  have hrev : l.reverse.dropWhile isWS = l.reverse := by
    have := congrArg List.reverse h
    rwa [List.reverse_reverse] at this
  rw [List.reverse_append]
  show (('\n' :: l.reverse).dropWhile isWS).reverse = l
  rw [List.dropWhile_cons, if_pos (by decide), hrev, List.reverse_reverse]

/-! ### Infrastructure for C2: character classification -/

theorem ws_char_cases {c : Char} (h : isWS c = true) :
    c = ' ' ∨ c = '\t' ∨ c = '\n' ∨ c = '\r' ∨ c = '\x0b' ∨ c = '\x0c' := by
  simp [isWS] at h
  tauto

theorem alnum_not_ws {c : Char} (h : c.isAlphanum = true) : isWS c = false := by
  cases hw : isWS c
  · rfl
  · rcases ws_char_cases hw with h' | h' | h' | h' | h' | h' <;> subst h' <;>
      exact absurd h (by decide)

theorem keyChar_not_ws {c : Char} (h : keyChar c = true) : isWS c = false := by
  simp [keyChar] at h
  rcases h with h | h
  · exact alnum_not_ws h
  · subst h; decide

theorem keyChar_props {c : Char} (h : keyChar c = true) :
    c ≠ '\n' ∧ c ≠ '\r' ∧ c ≠ '-' := by
  refine ⟨fun hc => ?_, fun hc => ?_, fun hc => ?_⟩ <;>
    (subst hc; exact absurd h (by decide))

theorem vChar_not_crlf {c : Char} (h : vChar c = true) : c ≠ '\n' ∧ c ≠ '\r' := by
  refine ⟨fun hc => ?_, fun hc => ?_⟩ <;> (subst hc; exact absurd h (by decide))


/-! ### Infrastructure for C2: lines -/

theorem splitOnNl_no_nl {l : List Char} (h : '\n' ∉ l) : splitOnNl l = [l] := by
  induction l with
  | nil => rfl
  | cons c t ih =>
    have hc : c ≠ '\n' := fun hc => h (hc ▸ List.mem_cons_self _ _)
    simp only [splitOnNl, ih fun hm => h (List.mem_cons_of_mem _ hm)]
    rw [if_neg hc]

theorem splitOnNl_append {l r : List Char} (h : '\n' ∉ l) :
    splitOnNl (l ++ '\n' :: r) = l :: splitOnNl r := by
  induction l with
  | nil =>
    show splitOnNl ('\n' :: r) = [] :: splitOnNl r
    rcases hs : splitOnNl r with _ | ⟨a, b⟩
    · exact absurd hs (splitOnNl_ne_nil r)
    · simp [splitOnNl, hs]
  | cons c t ih =>
    have hc : c ≠ '\n' := fun hc => h (hc ▸ List.mem_cons_self _ _)
    show splitOnNl (c :: (t ++ '\n' :: r)) = (c :: t) :: splitOnNl r
    simp only [splitOnNl, ih fun hm => h (List.mem_cons_of_mem _ hm)]
    rw [if_neg hc]

theorem split_joinNl {lines : List (List Char)} (hne : lines ≠ [])
    (h : ∀ l ∈ lines, '\n' ∉ l) : splitOnNl (joinNl lines) = lines := by
  induction lines with
  | nil => exact absurd rfl hne
  | cons l rest ih =>
    cases rest with
    | nil => exact splitOnNl_no_nl (h l (List.mem_cons_self _ _))
    | cons l2 rest2 =>
      rw [show joinNl (l :: l2 :: rest2) = l ++ '\n' :: joinNl (l2 :: rest2) from rfl]
      rw [splitOnNl_append (h l (List.mem_cons_self _ _))]
      rw [ih (by simp) fun u hu => h u (List.mem_cons_of_mem _ hu)]

theorem joinMap_nl {ls : List (List Char)} (hne : ls ≠ []) :
    ((ls.map (fun l => l ++ ['\n'])).flatten) = joinNl ls ++ ['\n'] := by
  induction ls with
  | nil => exact absurd rfl hne
  | cons l rest ih =>
    cases rest with
    | nil => simp [joinNl]
    | cons l2 rest2 =>
      rw [show joinNl (l :: l2 :: rest2) = l ++ '\n' :: joinNl (l2 :: rest2) from rfl]
      rw [List.map_cons, List.flatten_cons, ih (by simp)]
      simp

theorem joinNl_head {h : List Char} {t : List (List Char)} (hne : h ≠ []) :
    (joinNl (h :: t)).head? = h.head? := by
  cases t with
  | nil => rfl
  | cons l2 rest2 =>
    rw [show joinNl (h :: l2 :: rest2) = h ++ '\n' :: joinNl (l2 :: rest2) from rfl]
    cases h with
    | nil => exact absurd rfl hne
    | cons a b => rfl

theorem joinNl_last {lines : List (List Char)} {l : List Char}
    (hl : lines.getLast? = some l) (hlne : l ≠ []) :
    (joinNl lines).getLast? = l.getLast? := by
  induction lines with
  | nil => simp at hl
  | cons h t ih =>
    cases t with
    | nil =>
      simp at hl
      subst hl
      rfl
    | cons l2 rest2 =>
      rw [List.getLast?_cons_cons] at hl
      have hX := ih hl
      obtain ⟨x, hx⟩ := Option.isSome_iff_exists.mp (List.getLast?_isSome.mpr hlne)
      rw [show joinNl (h :: l2 :: rest2) = h ++ '\n' :: joinNl (l2 :: rest2) from rfl]
      rw [List.getLast?_append]
      rcases hJ : joinNl (l2 :: rest2) with _ | ⟨b, bs⟩
      · rw [hJ, hx] at hX
        simp at hX
      · rw [hJ] at hX
        rw [List.getLast?_cons_cons, hX, hx]
        rfl

theorem takeWhile_all_append {p : Char → Bool} {l : List Char} {c : Char} {r : List Char}
    (hall : l.all p = true) (hc : p c = false) :
    ((l ++ c :: r).takeWhile p) = l := by
  induction l with
  | nil =>
    simp only [List.nil_append, List.takeWhile_cons]
    rw [if_neg (by simp [hc])]
  | cons a t ih =>
    simp only [List.all_cons, Bool.and_eq_true] at hall
    simp only [List.cons_append, List.takeWhile_cons]
    rw [if_pos (by simp [hall.1]), ih hall.2]

/-! ### Infrastructure for C2: decimal integers -/

/-- The ten decimal digit characters. -/
def digitChars : List Char := ['0', '1', '2', '3', '4', '5', '6', '7', '8', '9']

theorem digitChar_mem {d : Nat} (hd : d < 10) : digitChar d ∈ digitChars := by
  interval_cases d <;> decide

theorem digitVal_digitChar {d : Nat} (hd : d < 10) : digitVal (digitChar d) = d := by
  interval_cases d <;> decide

theorem charsToNat_append_digit (xs : List Char) (c : Char) :
    charsToNat (xs ++ [c]) = 10 * charsToNat xs + digitVal c := by
  unfold charsToNat
  rw [List.foldl_append]
  rfl

theorem natToCharsF_spec :
    ∀ (fuel n : Nat), n < fuel →
      charsToNat (natToCharsF fuel n) = n ∧ natToCharsF fuel n ≠ [] ∧
        ∀ c ∈ natToCharsF fuel n, c ∈ digitChars := by
  intro fuel
  induction fuel with
  | zero => intro n hn; omega
  | succ fuel ih =>
    intro n hn
    by_cases h10 : n < 10
    · refine ⟨?_, ?_, ?_⟩
      · simp only [natToCharsF, if_pos h10]
        show charsToNat [digitChar n] = n
        unfold charsToNat
        simp [List.foldl_cons, digitVal_digitChar h10]
      · simp [natToCharsF, if_pos h10]
      · simp only [natToCharsF, if_pos h10]
        intro c hc
        simp at hc
        subst hc
        exact digitChar_mem h10
    · have hdiv : n / 10 < fuel := by omega
      obtain ⟨ih1, ih2, ih3⟩ := ih (n / 10) hdiv
      simp only [natToCharsF, if_neg h10]
      refine ⟨?_, by simp, ?_⟩
      · rw [charsToNat_append_digit, ih1, digitVal_digitChar (Nat.mod_lt n (by omega))]
        omega
      · intro c hc
        rcases List.mem_append.mp hc with h | h
        · exact ih3 c h
        · simp at h
          subst h
          exact digitChar_mem (Nat.mod_lt n (by omega))

theorem natToChars_spec (n : Nat) :
    charsToNat (natToChars n) = n ∧ natToChars n ≠ [] ∧
      ∀ c ∈ natToChars n, c ∈ digitChars :=
  natToCharsF_spec (n + 1) n (Nat.lt_succ_self n)

theorem digitChars_isDigit {c : Char} (h : c ∈ digitChars) : c.isDigit = true := by
  fin_cases h <;> decide

theorem digitChars_not_dash {c : Char} (h : c ∈ digitChars) : c ≠ '-' := by
  fin_cases h <;> decide

theorem digitChars_not_plus {c : Char} (h : c ∈ digitChars) : c ≠ '+' := by
  fin_cases h <;> decide

theorem digitChars_vChar {c : Char} (h : c ∈ digitChars) : vChar c = true := by
  fin_cases h <;> decide

theorem digitChars_alnum {c : Char} (h : c ∈ digitChars) : c.isAlphanum = true := by
  fin_cases h <;> decide

theorem digitChars_not_ws {c : Char} (h : c ∈ digitChars) : isWS c = false := by
  fin_cases h <;> decide

theorem natToChars_all_digitChars (n : Nat) : ∀ c ∈ natToChars n, c ∈ digitChars :=
  (natToChars_spec n).2.2

theorem natToChars_head_not_dash (n : Nat) {a : Char} {t : List Char}
    (hn : natToChars n = a :: t) : a ≠ '-' := by
  have := natToChars_all_digitChars n
  rw [hn] at this
  exact digitChars_not_dash (this a (List.mem_cons_self _ _))

theorem natToChars_all_digits (n : Nat) :
    (natToChars n).all Char.isDigit = true := by
  rw [List.all_eq_true]
  intro c hc
  exact digitChars_isDigit (natToChars_all_digitChars n c hc)

theorem mem_of_getLast?Chars {l : List Char} {c : Char} (h : l.getLast? = some c) :
    c ∈ l := by
  induction l with
  | nil => simp at h
  | cons a t ih =>
    cases t with
    | nil =>
      simp at h
      subst h
      exact List.mem_cons_self _ _
    | cons b bs =>
      rw [List.getLast?_cons_cons] at h
      exact List.mem_cons_of_mem _ (ih h)

theorem getLast?_cons_ne_nil {α : Type} {a : α} {l : List α} (h : l ≠ []) :
    (a :: l).getLast? = l.getLast? := by
  cases l with
  | nil => exact absurd rfl h
  | cons b bs => exact List.getLast?_cons_cons

theorem natToChars_head_not_plus (n : Nat) {a : Char} {t : List Char}
    (hn : natToChars n = a :: t) : a ≠ '+' := by
  have := natToChars_all_digitChars n
  rw [hn] at this
  exact digitChars_not_plus (this a (List.mem_cons_self _ _))

theorem parseIntChars_natToChars (n : Nat) : parseIntChars (natToChars n) = (n : Int) := by
  rcases hn : natToChars n with _ | ⟨a, t⟩
  · exact absurd hn (natToChars_spec n).2.1
  · simp only [parseIntChars]
    rw [if_neg (natToChars_head_not_dash n hn), if_neg (natToChars_head_not_plus n hn),
      ← hn, (natToChars_spec n).1]

/-! ### Infrastructure for C2: decimal renderings -/

theorem natToCharsF_head_nz :
    ∀ (fuel n : Nat), n < fuel → 1 ≤ n →
      ∀ a t, natToCharsF fuel n = a :: t → a ≠ '0' := by
  intro fuel
  induction fuel with
  | zero => intro n hn; omega
  | succ fuel ih =>
    intro n hn h1 a t hat
    by_cases h10 : n < 10
    · simp only [natToCharsF, if_pos h10] at hat
      injection hat with hh _
      subst hh
      interval_cases n <;> decide
    · simp only [natToCharsF, if_neg h10] at hat
      have hdiv : n / 10 < fuel := by
        have := Nat.div_lt_self (show 0 < n by omega) (show 1 < 10 by omega)
        omega
      have h1' : 1 ≤ n / 10 := by
        rw [Nat.le_div_iff_mul_le (show 0 < 10 by omega)]
        omega
      rcases hrec : natToCharsF fuel (n / 10) with _ | ⟨a2, t2⟩
      · exact absurd hrec (natToCharsF_spec fuel (n / 10) hdiv).2.1
      · rw [hrec, List.cons_append] at hat
        injection hat with hh _
        subst hh
        exact ih (n / 10) hdiv h1' _ _ hrec

theorem natToChars_head_nz {n : Nat} (h1 : 1 ≤ n) {a : Char} {t : List Char}
    (hn : natToChars n = a :: t) : a ≠ '0' :=
  natToCharsF_head_nz (n + 1) n (Nat.lt_succ_self n) h1 a t hn

theorem natToCharsF_len :
    ∀ (fuel n k : Nat), n < fuel → n < 10 ^ k → 1 ≤ k →
      (natToCharsF fuel n).length ≤ k := by
  intro fuel
  induction fuel with
  | zero => intro n k hn; omega
  | succ fuel ih =>
    intro n k hn hk hk1
    by_cases h10 : n < 10
    · simp only [natToCharsF, if_pos h10, List.length_singleton]
      omega
    · have hdiv : n / 10 < fuel := by
        have := Nat.div_lt_self (show 0 < n by omega) (show 1 < 10 by omega)
        omega
      have hk2 : 2 ≤ k := by
        by_contra hcon
        have hke : k = 1 := by omega
        subst hke
        norm_num at hk
        omega
      have hdivk : n / 10 < 10 ^ (k - 1) := by
        rw [Nat.div_lt_iff_lt_mul (by omega)]
        have : 10 ^ (k - 1) * 10 = 10 ^ k := by
          rw [← pow_succ]
          congr 1
          omega
        omega
      have hlen := ih (n / 10) (k - 1) hdiv hdivk (by omega)
      simp only [natToCharsF, if_neg h10, List.length_append, List.length_singleton]
      omega

theorem natToChars_len {n k : Nat} (hk : n < 10 ^ k) (hk1 : 1 ≤ k) :
    (natToChars n).length ≤ k :=
  natToCharsF_len (n + 1) n k (Nat.lt_succ_self n) hk hk1

theorem charsToNat_zeros (k : Nat) (l : List Char) :
    charsToNat (List.replicate k '0' ++ l) = charsToNat l := by
  induction k with
  | zero => rfl
  | succ k ih =>
    rw [List.replicate_succ, List.cons_append]
    show List.foldl (fun acc c => 10 * acc + digitVal c) ((fun acc c => 10 * acc + digitVal c) 0 '0')
      (List.replicate k '0' ++ l) = charsToNat l
    rw [show (fun acc c => 10 * acc + digitVal c) 0 '0' = 0 from by decide]
    exact ih

theorem padZeros_all {k : Nat} {l : List Char} {p : Char → Bool} (hp : p '0' = true)
    (hl : ∀ c ∈ l, p c = true) : ∀ c ∈ padZeros k l, p c = true := by
  intro c hc
  rcases List.mem_append.mp hc with h | h
  · rw [List.eq_of_mem_replicate h]
    exact hp
  · exact hl c h

theorem charsToNat_padZeros (k : Nat) (l : List Char) :
    charsToNat (padZeros k l) = charsToNat l :=
  charsToNat_zeros _ l

theorem padZeros_len {k : Nat} {l : List Char} (h : l.length ≤ k) :
    (padZeros k l).length = k := by
  simp only [padZeros, List.length_append, List.length_replicate]
  omega

theorem splitSign_nosign {a : Char} {t : List Char} (h1 : a ≠ '-') (h2 : a ≠ '+') :
    splitSign (a :: t) = (false, a :: t) := by
  simp [splitSign, if_neg h1, if_neg h2]

theorem splitSign_neg (t : List Char) : splitSign ('-' :: t) = (true, t) := by
  simp [splitSign]

theorem digitsNZ_natToChars {m : Nat} (h : 1 ≤ m) : digitsNZ (natToChars m) = true := by
  rcases hn : natToChars m with _ | ⟨a, t⟩
  · exact absurd hn (natToChars_spec m).2.1
  · have hmem := natToChars_all_digitChars m
    rw [hn] at hmem
    have ha : a ∈ digitChars := hmem a (List.mem_cons_self _ _)
    simp only [digitsNZ, Bool.and_eq_true]
    refine ⟨⟨digitChars_isDigit ha, ?_⟩, ?_⟩
    · simp [natToChars_head_nz h hn]
    · rw [List.all_eq_true]
      intro c hc
      exact digitChars_isDigit (hmem c (List.mem_cons_of_mem _ hc))

theorem intToChars_nonneg {i : Int} (h : 0 ≤ i) : intToChars i = natToChars i.toNat := by
  unfold intToChars
  rw [if_neg (by omega)]

theorem intToChars_neg {i : Int} (h : i < 0) : intToChars i = '-' :: natToChars i.natAbs := by
  unfold intToChars
  rw [if_pos h]

theorem intToChars_ne_nil (i : Int) : intToChars i ≠ [] := by
  unfold intToChars
  split
  · simp
  · exact (natToChars_spec _).2.1

theorem intToChars_mem (i : Int) : ∀ c ∈ intToChars i, c = '-' ∨ c ∈ digitChars := by
  unfold intToChars
  split <;> intro c hc
  · rcases List.mem_cons.mp hc with h | h
    · exact Or.inl h
    · exact Or.inr (natToChars_all_digitChars _ c h)
  · exact Or.inr (natToChars_all_digitChars _ c hc)

theorem intShape_intToChars (i : Int) : intShape (intToChars i) = true := by
  rcases Int.lt_or_le i 0 with h | h
  · rw [intToChars_neg h]
    simp only [intShape, splitSign_neg]
    have : 1 ≤ i.natAbs := by omega
    simp [digitsNZ_natToChars this]
  · rw [intToChars_nonneg h]
    rcases hn : natToChars i.toNat with _ | ⟨a, t⟩
    · exact absurd hn (natToChars_spec _).2.1
    · have hmem := natToChars_all_digitChars i.toNat
      rw [hn] at hmem
      have ha : a ∈ digitChars := hmem a (List.mem_cons_self _ _)
      simp only [intShape, splitSign_nosign (digitChars_not_dash ha) (digitChars_not_plus ha)]
      rcases Nat.eq_zero_or_pos i.toNat with h0 | h0
      · rw [← hn, h0]
        decide
      · rw [← hn]
        simp [digitsNZ_natToChars h0]

theorem parseIntChars_intToChars (i : Int) : parseIntChars (intToChars i) = i := by
  rcases Int.lt_or_le i 0 with h | h
  · rw [intToChars_neg h]
    simp only [parseIntChars, eq_self_iff_true, if_true]
    rw [(natToChars_spec _).1]
    omega
  · rw [intToChars_nonneg h]
    rcases hn : natToChars i.toNat with _ | ⟨a, t⟩
    · exact absurd hn (natToChars_spec _).2.1
    · simp only [parseIntChars]
      rw [if_neg (natToChars_head_not_dash _ hn), if_neg (natToChars_head_not_plus _ hn),
        ← hn, (natToChars_spec _).1]
      omega

/-! ### Infrastructure for C2: the scalar resolvers on renderings -/

theorem ne_of_head {a c : Char} {t w2 : List Char} (hne : a ≠ c) : a :: t ≠ c :: w2 := by
  intro h
  injection h with h1 _
  exact hne h1

theorem wordVal_none {a : Char} {t : List Char} (ha : a ∈ digitChars ∨ a = '-') :
    wordVal (a :: t) = none := by
  have hne : a ≠ 'y' ∧ a ≠ 'Y' ∧ a ≠ 't' ∧ a ≠ 'T' ∧ a ≠ 'o' ∧ a ≠ 'O' ∧ a ≠ 'n' ∧
      a ≠ 'N' ∧ a ≠ 'f' ∧ a ≠ 'F' ∧ a ≠ '~' := by
    rcases ha with h | h
    · fin_cases h <;> decide
    · subst h
      decide
  obtain ⟨n1, n2, n3, n4, n5, n6, n7, n8, n9, n10, n11⟩ := hne
  unfold wordVal
  rw [if_neg, if_neg, if_neg]
  · rintro (h | h | h | h)
    · exact ne_of_head n7 h
    · exact ne_of_head n8 h
    · exact ne_of_head n8 h
    · exact ne_of_head n11 h
  · rintro (h | h | h | h | h | h | h | h | h)
    · exact ne_of_head n7 h
    · exact ne_of_head n8 h
    · exact ne_of_head n8 h
    · exact ne_of_head n9 h
    · exact ne_of_head n10 h
    · exact ne_of_head n10 h
    · exact ne_of_head n5 h
    · exact ne_of_head n6 h
    · exact ne_of_head n6 h
  · rintro (h | h | h | h | h | h | h | h | h)
    · exact ne_of_head n1 h
    · exact ne_of_head n2 h
    · exact ne_of_head n2 h
    · exact ne_of_head n3 h
    · exact ne_of_head n4 h
    · exact ne_of_head n4 h
    · exact ne_of_head n5 h
    · exact ne_of_head n6 h
    · exact ne_of_head n6 h

/-! ### Infrastructure for C2: comments, quotes and plain scalars -/

theorem vChar_ws_space {c : Char} (hv : vChar c = true) (hw : isWS c = true) : c = ' ' := by
  simp only [vChar, Bool.not_eq_true', Bool.or_eq_false_iff] at hv
  simp only [isWS, Bool.or_eq_true, decide_eq_true_eq] at hw
  simp only [decide_eq_false_iff_not] at hv
  tauto

theorem hasInfix_tail {c : Char} {t pat : List Char} (h : hasInfix (c :: t) pat = false) :
    hasInfix t pat = false := by
  simp only [hasInfix, Bool.or_eq_false_iff] at h
  exact h.2

theorem hasInfix_head {c : Char} {t pat : List Char} (h : hasInfix (c :: t) pat = false) :
    pat.isPrefixOf (c :: t) = false := by
  simp only [hasInfix, Bool.or_eq_false_iff] at h
  exact h.1

theorem hasInfix_false {l : List Char} {p0 : Char} {pr : List Char}
    (h : p0 ∉ l) : hasInfix l (p0 :: pr) = false := by
  induction l with
  | nil => simp [hasInfix, List.isPrefixOf]
  | cons c t ih =>
    have hcp : ¬ (p0 == c) = true := by
      intro hb
      exact h (by rw [show p0 = c from by simpa using hb]; exact List.mem_cons_self _ _)
    simp only [hasInfix, Bool.or_eq_false_iff]
    constructor
    · simp only [List.isPrefixOf]
      rw [show (p0 == c) = false from by simpa using hcp]
      rfl
    · exact ih (fun hm => h (List.mem_cons_of_mem _ hm))

theorem head?_mem {l : List Char} {c : Char} (h : l.head? = some c) : c ∈ l := by
  cases l with
  | nil => simp at h
  | cons a t =>
    rw [List.head?_cons] at h
    rw [← Option.some.inj h]
    exact List.mem_cons_self _ _

theorem pyStrip_eq_self_of_mem {l : List Char} (h : ∀ c ∈ l, isWS c = false) :
    pyStrip l = l :=
  pyStrip_eq_self (fun c hc => h c (head?_mem hc)) (fun c hc => h c (mem_of_getLast?Chars hc))

theorem getLast?_ne_of_not_mem {l : List Char} {c : Char} (h : c ∉ l) :
    ¬ l.getLast? = some c := by
  intro hl
  exact h (mem_of_getLast?Chars hl)

theorem cutCommentF_id :
    ∀ (l : List Char) (prev : Bool), l.all vChar = true →
      (prev = true → l.head? ≠ some '#') →
      hasInfix l (' ' :: ['#']) = false →
      cutCommentF prev l = l := by
  intro l
  induction l with
  | nil => intro prev _ _ _; rfl
  | cons c t ih =>
    intro prev hv hh hi
    simp only [List.all_cons, Bool.and_eq_true] at hv
    simp only [cutCommentF]
    rw [if_neg]
    · rw [ih (isWS c) hv.2]
      · intro hws hth
        have hsp : c = ' ' := vChar_ws_space hv.1 hws
        subst hsp
        have hpre := hasInfix_head hi
        cases t with
        | nil => simp at hth
        | cons b t2 =>
          rw [List.head?_cons] at hth
          have hb : b = '#' := Option.some.inj hth
          subst hb
          simp [List.isPrefixOf] at hpre
      · exact hasInfix_tail hi
    · rintro ⟨hc, hprev⟩
      subst hc
      exact hh hprev rfl

theorem escSQ_all {l : List Char} {p : Char → Bool} (hq : p '\'' = true)
    (h : ∀ c ∈ l, p c = true) : ∀ c ∈ escSQ l, p c = true := by
  induction l with
  | nil => simp [escSQ]
  | cons c t ih =>
    intro d hd
    simp only [escSQ] at hd
    by_cases hc : c = '\''
    · rw [if_pos hc] at hd
      rcases List.mem_cons.mp hd with rfl | hd2
      · exact hq
      · rcases List.mem_cons.mp hd2 with rfl | hd3
        · exact hq
        · exact ih (fun e he => h e (List.mem_cons_of_mem _ he)) d hd3
    · rw [if_neg hc] at hd
      rcases List.mem_cons.mp hd with rfl | hd2
      · exact h d (List.mem_cons_self _ _)
      · exact ih (fun e he => h e (List.mem_cons_of_mem _ he)) d hd2

theorem scanSQ_cons {c : Char} (l : List Char) (hc : c ≠ '\'') :
    scanSQ (c :: l) = (scanSQ l).map (fun p => (c :: p.1, p.2)) := by
  cases l with
  | nil =>
    show scanSQ [c] = none.map _
    simp only [scanSQ]
    rw [if_neg hc]
    rfl
  | cons d r =>
    simp only [scanSQ]
    rw [if_neg hc]

theorem scanSQ_esc (v : List Char) : scanSQ (escSQ v ++ ['\'']) = some (v, []) := by
  induction v with
  | nil => rfl
  | cons c t ih =>
    by_cases hc : c = '\''
    · subst hc
      show scanSQ (('\'' :: '\'' :: escSQ t) ++ ['\'']) = _
      rw [List.cons_append, List.cons_append]
      rcases he : escSQ t ++ ['\''] with _ | ⟨d, r⟩
      · simp at he
      · rw [← he]
        show (if '\'' = '\'' then
            if '\'' = '\'' then (scanSQ (escSQ t ++ ['\''])).map (fun p => ('\'' :: p.1, p.2))
            else some ([], '\'' :: (escSQ t ++ ['\'']))
          else (scanSQ ('\'' :: (escSQ t ++ ['\'']))).map (fun p => ('\'' :: p.1, p.2))) = _
        rw [if_pos rfl, if_pos rfl, ih]
        rfl
    · have hesc : escSQ (c :: t) = c :: escSQ t := by
        simp [escSQ, hc]
      rw [hesc, List.cons_append, scanSQ_cons _ hc, ih]
      rfl

theorem plainHead_numeric {a : Char} {t : List Char}
    (ha : a = '-' ∨ a = '.' ∨ a ∈ digitChars) (hdash : a = '-' → t ≠ [])
    (hsp : ' ' ∉ a :: t) : plainHead (a :: t) = true := by
  by_cases hda : a = '-'
  · subst hda
    rcases ht : t with _ | ⟨b, t2⟩
    · exact absurd ht (hdash rfl)
    · subst ht
      have hb : b ≠ ' ' := fun hbe => by
        rw [hbe] at hsp
        exact hsp (List.mem_cons_of_mem _ (List.mem_cons_self _ _))
      simp [plainHead, indicatorChar, hb]
  · have hind : indicatorChar a = false := by
      rcases ha with h | h | h
      · exact absurd h hda
      · subst h; decide
      · fin_cases h <;> decide
    have hc1 : a ≠ ':' := by
      rcases ha with h | h | h
      · exact absurd h hda
      · subst h; decide
      · fin_cases h <;> decide
    have hc2 : a ≠ '?' := by
      rcases ha with h | h | h
      · exact absurd h hda
      · subst h; decide
      · fin_cases h <;> decide
    simp [plainHead, hind, hc1, hc2, hda]

theorem plainBodyOK_numeric {a : Char} {t : List Char}
    (hmem : ∀ c ∈ a :: t, c = '-' ∨ c = '.' ∨ c ∈ digitChars)
    (hdash : a = '-' → t ≠ []) :
    plainBodyOK (a :: t) = true := by
  have hnosp : ' ' ∉ a :: t := by
    intro hm
    rcases hmem ' ' hm with h | h | h
    · exact absurd h (by decide)
    · exact absurd h (by decide)
    · exact absurd h (by decide)
  have hnocolon : ':' ∉ a :: t := by
    intro hm
    rcases hmem ':' hm with h | h | h
    · exact absurd h (by decide)
    · exact absurd h (by decide)
    · exact absurd h (by decide)
  have hvc : (a :: t).all vChar = true := by
    rw [List.all_eq_true]
    intro c hc
    rcases hmem c hc with h | h | h
    · subst h; decide
    · subst h; decide
    · exact digitChars_vChar h
  have hws : ∀ c ∈ a :: t, isWS c = false := by
    intro c hc
    rcases hmem c hc with h | h | h
    · subst h; decide
    · subst h; decide
    · exact digitChars_not_ws h
  simp [plainBodyOK, hvc, pyStrip_eq_self_of_mem hws,
    plainHead_numeric (hmem a (List.mem_cons_self _ _)) hdash hnosp,
    hasInfix_false hnocolon, hasInfix_false hnosp, getLast?_ne_of_not_mem hnocolon]

/-! ### Infrastructure for C2: exact decimals (floats) -/

theorem dvd_ten_pow_self {n k : Nat} (h : n ∣ 10 ^ k) : n ∣ 10 ^ n := by
  induction n using Nat.strong_induction_on with
  | _ n ih =>
    rcases Nat.eq_zero_or_pos n with h0 | h0
    · subst h0
      have h1 := Nat.eq_zero_of_zero_dvd h
      exact absurd h1 (by positivity)
    · rcases Nat.lt_or_ge n 2 with h1 | h1
      · have h2 : n = 1 := by omega
        subst h2
        exact one_dvd _
      · have hp : n.minFac.Prime := Nat.minFac_prime (by omega)
        have hpn : n.minFac ∣ n := Nat.minFac_dvd n
        have hp10 : n.minFac ∣ 10 := hp.dvd_of_dvd_pow (hpn.trans h)
        have hmn : n.minFac * (n / n.minFac) = n := Nat.mul_div_cancel' hpn
        have hm_dvd : n / n.minFac ∣ n := Nat.div_dvd_of_dvd hpn
        have hm_lt : n / n.minFac < n := Nat.div_lt_self (by omega) hp.one_lt
        have ihm : n / n.minFac ∣ 10 ^ (n / n.minFac) :=
          ih (n / n.minFac) hm_lt (hm_dvd.trans h)
        have hm1 : 1 ≤ n / n.minFac := by
          rcases Nat.eq_zero_or_pos (n / n.minFac) with hm0 | hm0
          · rw [hm0, Nat.mul_zero] at hmn
            omega
          · exact hm0
        have h2 : n ∣ 10 ^ (n / n.minFac + 1) := by
          have hdd : n.minFac * (n / n.minFac) ∣ 10 * 10 ^ (n / n.minFac) :=
            mul_dvd_mul hp10 ihm
          rw [hmn] at hdd
          have hpw : (10 : ℕ) * 10 ^ (n / n.minFac) = 10 ^ (n / n.minFac + 1) := by
            rw [pow_succ, mul_comm]
          rwa [hpw] at hdd
        refine h2.trans (pow_dvd_pow 10 ?_)
        have hp2 : 2 ≤ n.minFac := hp.two_le
        have : 2 * (n / n.minFac) ≤ n.minFac * (n / n.minFac) :=
          Nat.mul_le_mul_right _ hp2
        omega

theorem decExp_spec (q : ℚ) :
    ∀ (fuel j0 : Nat), q.den ∣ 10 ^ (j0 + fuel) → q.den ∣ 10 ^ (decExp q fuel j0) := by
  intro fuel
  induction fuel with
  | zero =>
    intro j0 h
    simpa using h
  | succ fuel ih =>
    intro j0 h
    simp only [decExp]
    split
    · rename_i hgood
      exact hgood
    · refine ih (j0 + 1) ?_
      rw [show j0 + 1 + fuel = j0 + (fuel + 1) from by omega]
      exact h

theorem den_dvd_decExp {q : ℚ} (hk : ∃ k, q.den ∣ 10 ^ k) :
    q.den ∣ 10 ^ (decExp q q.den 0) := by
  obtain ⟨k, hk⟩ := hk
  refine decExp_spec q q.den 0 ?_
  simpa using dvd_ten_pow_self hk

theorem den_div_int (a b : ℤ) : ((a : ℚ) / (b : ℚ)).den ∣ b.natAbs := by
  have h := Rat.den_dvd a b
  rw [Rat.divInt_eq_div] at h
  exact Int.ofNat_dvd_right.mp (Int.dvd_natAbs.mpr h)

theorem den_add_div (a b m : Nat) : (((a : ℚ) + (b : ℚ) / 10 ^ m)).den ∣ 10 ^ m := by
  have h1 : ((a : ℚ) + (b : ℚ) / 10 ^ m) = (((a * 10 ^ m + b : ℕ) : ℤ) : ℚ) /
      (((10 ^ m : ℕ) : ℤ) : ℚ) := by
    push_cast
    field_simp
  rw [h1]
  have h2 := den_div_int ((a * 10 ^ m + b : ℕ) : ℤ) ((10 ^ m : ℕ) : ℤ)
  simp only [Int.natAbs_ofNat] at h2
  simpa using h2

theorem parseDecimal_split {l : List Char} {sgn : Bool} {body : List Char}
    (h : splitSign l = (sgn, body)) :
    parseDecimal l = (parseDecimalMag (body.takeWhile Char.isDigit)
      (body.drop (body.takeWhile Char.isDigit).length)).map
      (fun q => if sgn then -q else q) := by
  unfold parseDecimal
  rw [h]

theorem parseDecimalMag_den {ip rest : List Char} {q0 : ℚ}
    (h : parseDecimalMag ip rest = some q0) : ∃ k, q0.den ∣ 10 ^ k := by
  rcases rest with _ | ⟨c, fp⟩
  · have hq1 : (if ip = [] then none else some ((charsToNat ip : ℚ))) = some q0 := h
    by_cases hip : ip = []
    · rw [if_pos hip] at hq1
      simp at hq1
    · rw [if_neg hip] at hq1
      have hq := Option.some.inj hq1
      refine ⟨0, ?_⟩
      rw [← hq, Rat.den_natCast]
      exact one_dvd _
  · have hq1 : (if c = '.' then
        (if fp.all Char.isDigit && (ip ≠ [] || fp ≠ []) then
          some ((charsToNat ip : ℚ) + (charsToNat fp : ℚ) / (10 ^ fp.length))
        else none)
      else none) = some q0 := h
    by_cases hc : c = '.'
    · rw [if_pos hc] at hq1
      split at hq1
      · have hq := Option.some.inj hq1
        refine ⟨fp.length, ?_⟩
        rw [← hq]
        exact den_add_div _ _ _
      · simp at hq1
    · rw [if_neg hc] at hq1
      simp at hq1

theorem parseDecimal_den {l : List Char} {q : ℚ} (h : parseDecimal l = some q) :
    ∃ k, q.den ∣ 10 ^ k := by
  unfold parseDecimal at h
  rw [Option.map_eq_some'] at h
  obtain ⟨q0, hq0, hfq⟩ := h
  obtain ⟨k, hk⟩ := parseDecimalMag_den hq0
  refine ⟨k, ?_⟩
  rw [← hfq]
  split
  · rwa [Rat.neg_den]
  · exact hk

theorem parseDecimalMag_dot (a : Nat) (fp : List Char) (hfp : fp.all Char.isDigit = true) :
    parseDecimalMag (natToChars a) ('.' :: fp) =
      some ((a : ℚ) + (charsToNat fp : ℚ) / 10 ^ fp.length) := by
  have h1 : parseDecimalMag (natToChars a) ('.' :: fp) =
      (if fp.all Char.isDigit && (natToChars a ≠ [] || fp ≠ []) then
        some ((charsToNat (natToChars a) : ℚ) + (charsToNat fp : ℚ) / (10 ^ fp.length))
      else none) := by
    simp [parseDecimalMag]
  rw [h1, if_pos (by simp [hfp, (natToChars_spec a).2.1]), (natToChars_spec a).1]

theorem splitSign_digits (a : Nat) (r : List Char) :
    splitSign (natToChars a ++ r) = (false, natToChars a ++ r) := by
  obtain ⟨a0, t0, hA⟩ : ∃ a0 t0, natToChars a = a0 :: t0 := by
    rcases hA : natToChars a with _ | ⟨x, y⟩
    · exact absurd hA (natToChars_spec a).2.1
    · exact ⟨x, y, rfl⟩
  have ha0 : a0 ∈ digitChars := by
    have hall := natToChars_all_digitChars a
    rw [hA] at hall
    exact hall a0 (List.mem_cons_self _ _)
  rw [hA, List.cons_append]
  exact splitSign_nosign (digitChars_not_dash ha0) (digitChars_not_plus ha0)

theorem parseDecimal_digits (a : Nat) (fp : List Char) (hfp : fp.all Char.isDigit = true) :
    parseDecimal (natToChars a ++ '.' :: fp) =
      some ((a : ℚ) + (charsToNat fp : ℚ) / 10 ^ fp.length) := by
  rw [parseDecimal_split (splitSign_digits a ('.' :: fp)),
    takeWhile_all_append (natToChars_all_digits a) (by decide),
    List.drop_left, parseDecimalMag_dot a fp hfp]
  rfl

theorem parseDecimal_neg_digits (a : Nat) (fp : List Char) (hfp : fp.all Char.isDigit = true) :
    parseDecimal ('-' :: (natToChars a ++ '.' :: fp)) =
      some (-((a : ℚ) + (charsToNat fp : ℚ) / 10 ^ fp.length)) := by
  rw [parseDecimal_split (splitSign_neg (natToChars a ++ '.' :: fp)),
    takeWhile_all_append (natToChars_all_digits a) (by decide),
    List.drop_left, parseDecimalMag_dot a fp hfp]
  rfl

theorem pad_val (j n : Nat) :
    ((n / 10 ^ j : ℕ) : ℚ) + ((charsToNat (padZeros j (natToChars (n % 10 ^ j)))) : ℚ) /
      10 ^ (padZeros j (natToChars (n % 10 ^ j))).length = (n : ℚ) / 10 ^ j := by
  rw [charsToNat_padZeros, (natToChars_spec _).1]
  rcases Nat.eq_zero_or_pos j with hj | hj
  · subst hj
    simp [Nat.mod_one, Nat.div_one, padZeros]
  · have hlen : (padZeros j (natToChars (n % 10 ^ j))).length = j :=
      padZeros_len (natToChars_len (Nat.mod_lt _ (by positivity)) hj)
    rw [hlen]
    have hdm : 10 ^ j * (n / 10 ^ j) + n % 10 ^ j = n := Nat.div_add_mod n (10 ^ j)
    have hq : ((10 : ℚ)) ^ j * ((n / 10 ^ j : ℕ) : ℚ) + ((n % 10 ^ j : ℕ) : ℚ) = (n : ℚ) := by
      exact_mod_cast hdm
    have hpz : ((10 : ℚ) ^ j) ≠ 0 := by positivity
    rw [eq_div_iff hpz, add_mul, div_mul_cancel₀ _ hpz]
    linear_combination hq

theorem renderFloat_eq (q : ℚ) :
    renderFloat q = (if q.num < 0 then ['-'] else []) ++
      natToChars ((q.num * 10 ^ decExp q q.den 0 / (q.den : Int)).natAbs / 10 ^ decExp q q.den 0) ++
      '.' :: padZeros (decExp q q.den 0)
        (natToChars ((q.num * 10 ^ decExp q q.den 0 / (q.den : Int)).natAbs % 10 ^ decExp q q.den 0)) :=
  rfl

theorem renderFloat_parse {q : ℚ} (hk : ∃ k, q.den ∣ 10 ^ k) :
    parseDecimal (renderFloat q) = some q := by
  have hden : q.den ∣ 10 ^ (decExp q q.den 0) := den_dvd_decExp hk
  have hdpos : 0 < q.den := q.pos
  have hdvdZ : (q.den : Int) ∣ q.num * 10 ^ (decExp q q.den 0) := by
    refine Dvd.dvd.mul_left ?_ q.num
    exact_mod_cast Int.natCast_dvd_natCast.mpr hden
  have hNmul : q.num * 10 ^ (decExp q q.den 0) / (q.den : Int) * (q.den : Int) =
      q.num * 10 ^ (decExp q q.den 0) := Int.ediv_mul_cancel hdvdZ
  have hdq : ((q.den : Int) : ℚ) ≠ 0 := by
    simp only [ne_eq, Int.cast_natCast, Nat.cast_eq_zero]
    omega
  have hNq : ((q.num * 10 ^ (decExp q q.den 0) / (q.den : Int) : Int) : ℚ) =
      q * 10 ^ (decExp q q.den 0) := by
    have h1 : ((q.num * 10 ^ (decExp q q.den 0) / (q.den : Int) : Int) : ℚ) * ((q.den : Int) : ℚ) =
        ((q.num : ℚ)) * 10 ^ (decExp q q.den 0) := by
      exact_mod_cast congrArg (fun x : Int => (x : ℚ)) hNmul
    have h2 : ((q.num * 10 ^ (decExp q q.den 0) / (q.den : Int) : Int) : ℚ) =
        (q.num : ℚ) * 10 ^ (decExp q q.den 0) / ((q.den : Int) : ℚ) := by
      rw [eq_div_iff hdq]
      exact h1
    have hdq2 : ((q.den : ℚ)) ≠ 0 := Nat.cast_ne_zero.mpr hdpos.ne'
    have hqe : (q.num : ℚ) = q * (q.den : ℚ) := (div_eq_iff hdq2).mp (Rat.num_div_den q)
    rw [h2]
    rw [show ((q.den : Int) : ℚ) = (q.den : ℚ) from by push_cast; rfl]
    rw [hqe, mul_right_comm, mul_div_assoc, div_self hdq2, mul_one]
  have hdig : (padZeros (decExp q q.den 0)
      (natToChars ((q.num * 10 ^ decExp q q.den 0 / (q.den : Int)).natAbs %
        10 ^ decExp q q.den 0))).all Char.isDigit = true := by
    rw [List.all_eq_true]
    exact padZeros_all (by decide)
      (fun c hc => digitChars_isDigit (natToChars_all_digitChars _ c hc))
  have h10 : ((10 : ℚ)) ^ (decExp q q.den 0) ≠ 0 := by positivity
  by_cases hneg : q.num < 0
  · have hrf : renderFloat q =
        '-' :: (natToChars ((q.num * 10 ^ decExp q q.den 0 / (q.den : Int)).natAbs /
            10 ^ decExp q q.den 0) ++ '.' ::
          padZeros (decExp q q.den 0)
            (natToChars ((q.num * 10 ^ decExp q q.den 0 / (q.den : Int)).natAbs %
              10 ^ decExp q q.den 0))) := by
      rw [renderFloat_eq, if_pos hneg]
      rfl
    rw [hrf, parseDecimal_neg_digits _ _ hdig, pad_val]
    have hqneg : q < 0 := by
      rw [← Rat.num_neg]
      exact hneg
    have hNneg : ((q.num * 10 ^ decExp q q.den 0 / (q.den : Int) : Int) : ℚ) < 0 := by
      rw [hNq]
      have hp : (0 : ℚ) < 10 ^ (decExp q q.den 0) := by positivity
      exact mul_neg_of_neg_of_pos hqneg hp
    have hNneg2 : (q.num * 10 ^ decExp q q.den 0 / (q.den : Int) : Int) ≤ 0 := by
      exact_mod_cast le_of_lt hNneg
    have habs : (((q.num * 10 ^ decExp q q.den 0 / (q.den : Int)).natAbs : ℕ) : ℚ) =
        -(((q.num * 10 ^ decExp q q.den 0 / (q.den : Int) : Int) : ℚ)) := by
      rw [Int.cast_natAbs, abs_of_nonpos hNneg2]
      push_cast
      ring
    rw [habs]
    rw [show -(((q.num * 10 ^ decExp q q.den 0 / (q.den : Int) : Int) : ℚ)) /
        10 ^ decExp q q.den 0 =
        -((((q.num * 10 ^ decExp q q.den 0 / (q.den : Int) : Int) : ℚ)) /
          10 ^ decExp q q.den 0) from by ring]
    rw [hNq, neg_neg, mul_div_assoc, div_self h10, mul_one]
  · have hrf : renderFloat q =
        natToChars ((q.num * 10 ^ decExp q q.den 0 / (q.den : Int)).natAbs /
            10 ^ decExp q q.den 0) ++ '.' ::
          padZeros (decExp q q.den 0)
            (natToChars ((q.num * 10 ^ decExp q q.den 0 / (q.den : Int)).natAbs %
              10 ^ decExp q q.den 0)) := by
      rw [renderFloat_eq, if_neg hneg]
      rfl
    rw [hrf, parseDecimal_digits _ _ hdig, pad_val]
    have hqpos : 0 ≤ q := by
      rw [← Rat.num_nonneg]
      omega
    have hNpos : (0 : ℚ) ≤ ((q.num * 10 ^ decExp q q.den 0 / (q.den : Int) : Int) : ℚ) := by
      rw [hNq]
      have hp : (0 : ℚ) ≤ 10 ^ (decExp q q.den 0) := by positivity
      exact mul_nonneg hqpos hp
    have habs : (((q.num * 10 ^ decExp q q.den 0 / (q.den : Int)).natAbs : ℕ) : ℚ) =
        (((q.num * 10 ^ decExp q q.den 0 / (q.den : Int) : Int) : ℚ)) := by
      have hN2 : (0 : Int) ≤ q.num * 10 ^ decExp q q.den 0 / (q.den : Int) := by
        exact_mod_cast hNpos
      rw [Int.cast_natAbs, abs_of_nonneg hN2]
    rw [habs, hNq, mul_div_assoc, div_self h10, mul_one]

/-! ### Infrastructure for C2: scalar and line round trips -/

theorem all_takeWhile {p : Char → Bool} (l : List Char) :
    (l.takeWhile p).all p = true := by
  rw [List.all_eq_true]
  intro c hc
  exact List.mem_takeWhile_imp hc

theorem string_mk_data (s : String) : String.mk s.data = s := rfl

/-! ### Infrastructure for C2: scalars across the codec -/

/-- Invariant of the scalars that flow through the codec: string scalars are
over the fragment alphabet, float scalars are exact decimals. -/
def svalOK : SVal → Prop
  | .s v => v.data.all vChar = true
  | .f q => ∃ k, q.den ∣ 10 ^ k
  | _ => True

theorem wordVal_some {l : List Char} {sv : SVal} (h : wordVal l = some sv) :
    sv = .b true ∨ sv = .b false ∨ sv = .null := by
  unfold wordVal at h
  split_ifs at h
  · exact Or.inl (Option.some.inj h).symm
  · exact Or.inr (Or.inl (Option.some.inj h).symm)
  · exact Or.inr (Or.inr (Option.some.inj h).symm)

theorem parseScalar_none {l : List Char} (hw : wordVal l = none) :
    parseScalar l = if intShape l then .i (parseIntChars l)
      else if floatShape l then
        match parseDecimal l with
        | some q => .f q
        | none => .s (String.mk l)
      else .s (String.mk l) := by
  unfold parseScalar
  rw [hw]

theorem parseScalar_some {l : List Char} {sv : SVal} (hw : wordVal l = some sv) :
    parseScalar l = sv := by
  unfold parseScalar
  rw [hw]

theorem parseScalar_svalOK {v : List Char} (hv : v.all vChar = true) :
    svalOK (parseScalar v) := by
  rcases hw : wordVal v with _ | sv0
  · rw [parseScalar_none hw]
    by_cases hi : intShape v = true
    · rw [if_pos hi]
      trivial
    · rw [if_neg hi]
      by_cases hf : floatShape v = true
      · rw [if_pos hf]
        rcases hpd : parseDecimal v with _ | q
        · exact hv
        · exact parseDecimal_den hpd
      · rw [if_neg hf]
        exact hv
  · rw [parseScalar_some hw]
    rcases wordVal_some hw with rfl | rfl | rfl <;> trivial

theorem natToChars_ne_nil (n : Nat) : natToChars n ≠ [] := by
  unfold natToChars natToCharsF
  by_cases h : n < 10
  · rw [if_pos h]
    simp
  · rw [if_neg h]
    simp

theorem natToChars_cons (n : Nat) : ∃ a t, natToChars n = a :: t ∧ a ∈ digitChars := by
  rcases hn : natToChars n with _ | ⟨a, t⟩
  · exact absurd hn (natToChars_ne_nil n)
  · exact ⟨a, t, rfl, natToChars_all_digitChars n a (by rw [hn]; exact List.mem_cons_self _ _)⟩

theorem takeWhile_nil_of_head {p : Char → Bool} {l : List Char}
    (h : ∀ c, l.head? = some c → p c = false) : l.takeWhile p = [] := by
  cases l with
  | nil => rfl
  | cons a t =>
    rw [List.takeWhile_cons, if_neg]
    simp [h a rfl]

theorem plainBodyOK_parts {v : List Char} (h : plainBodyOK v = true) :
    v ≠ [] ∧ v.all vChar = true ∧ pyStrip v = v ∧ plainHead v = true ∧
      hasInfix v (':' :: [' ']) = false ∧ hasInfix v (' ' :: ['#']) = false ∧
      ¬ v.getLast? = some ':' := by
  simp only [plainBodyOK, Bool.and_eq_true, Bool.not_eq_true', decide_eq_true_eq,
    decide_eq_false_iff_not, ne_eq] at h
  tauto

theorem keyOK_parts {k : List Char} (h : keyOK k = true) :
    k ≠ [] ∧ k.all keyChar = true ∧ wordVal k = none ∧
      (∀ c, k.head? = some c → keyChar c = true) := by
  cases k with
  | nil => exact absurd h (by decide)
  | cons c t =>
    simp only [keyOK, Bool.and_eq_true, decide_eq_true_eq] at h
    refine ⟨by simp, h.1.2, h.2, ?_⟩
    intro c2 hc2
    obtain rfl : c = c2 := Option.some.inj hc2
    exact List.all_eq_true.mp h.1.2 _ (List.mem_cons_self _ _)

theorem plainHead_facts {v : List Char} (hp : plainHead v = true) :
    ∀ c, v.head? = some c → c ≠ '#' ∧ c ≠ '"' ∧ c ≠ '\'' := by
  cases v with
  | nil => exact absurd hp (by decide)
  | cons a t =>
    intro c hc
    obtain rfl : a = c := Option.some.inj hc
    simp only [plainHead, Bool.and_eq_true, Bool.not_eq_true'] at hp
    have hind := hp.1.1.1
    refine ⟨fun he => ?_, fun he => ?_, fun he => ?_⟩ <;>
      (subst he; exact absurd hind (by decide))

theorem not_ws_not_sptab {c : Char} (h : isWS c = false) :
    (c = ' ' || c = '\t') = false := by
  simp only [isWS, Bool.or_eq_false_iff, decide_eq_false_iff_not] at h
  simp only [Bool.or_eq_false_iff, decide_eq_false_iff_not]
  exact ⟨h.1.1.1.1.1, h.1.1.1.1.2⟩

theorem parseValue_space {w : List Char}
    (hdw : w.dropWhile (fun c2 => c2 = ' ' || c2 = '\t') = w) :
    parseValue (' ' :: w) = parseValueTok w := by
  show parseValueTok ((' ' :: w).dropWhile (fun c2 => c2 = ' ' || c2 = '\t')) = _
  rw [show (' ' :: w).dropWhile (fun c2 => c2 = ' ' || c2 = '\t') =
      w.dropWhile (fun c2 => c2 = ' ' || c2 = '\t') from rfl, hdw]

theorem dropWhile_sptab_self {w : List Char} (hst : pyStrip w = w) :
    w.dropWhile (fun c2 => c2 = ' ' || c2 = '\t') = w := by
  apply dropWhile_eq_self_of_head
  intro c hc
  exact not_ws_not_sptab (strip_self_head hst c hc)

theorem parseValueTok_plain {w : List Char} (hw : plainBodyOK w = true)
    (hcut : cutCommentF true w = w) :
    parseValueTok w = some (some (parseScalar w)) := by
  obtain ⟨hne, hv, hst, hph, -, -, -⟩ := plainBodyOK_parts hw
  obtain ⟨c0, w2, rfl⟩ : ∃ c0 w2, w = c0 :: w2 := by
    cases w with
    | nil => exact absurd rfl hne
    | cons a b => exact ⟨a, b, rfl⟩
  obtain ⟨hh1, hh2, hh3⟩ := plainHead_facts hph c0 rfl
  simp only [parseValueTok]
  rw [if_neg hh1, if_neg hh2, if_neg hh3, hcut, hst, if_pos hw]

theorem parseValue_plain {w : List Char} (hw : plainBodyOK w = true)
    (hcut : cutCommentF true w = w) :
    parseValue (' ' :: w) = some (some (parseScalar w)) := by
  obtain ⟨-, -, hst, -, -, -, -⟩ := plainBodyOK_parts hw
  rw [parseValue_space (dropWhile_sptab_self hst)]
  exact parseValueTok_plain hw hcut

theorem parseValueTok_sq {v : List Char} (hv : v.all vChar = true) :
    parseValueTok ('\'' :: (escSQ v ++ ['\''])) = some (some (.s (String.mk v))) := by
  have h0 : parseValueTok ('\'' :: (escSQ v ++ ['\''])) = parseQuotedS (escSQ v ++ ['\'']) := by
    simp [parseValueTok]
  rw [h0]
  have h1 : parseQuotedS (escSQ v ++ ['\'']) =
      (match scanSQ (escSQ v ++ ['\'']) with
       | some (content, tail2) =>
         if content.all vChar && pyStrip (cutCommentF true tail2) = [] then
           some (some (SVal.s (String.mk content)))
         else none
       | none => none) := rfl
  rw [h1, scanSQ_esc]
  have h2 : (match (some (v, ([] : List Char)) : Option (List Char × List Char)) with
       | some (content, tail2) =>
         if content.all vChar && pyStrip (cutCommentF true tail2) = [] then
           some (some (SVal.s (String.mk content)))
         else none
       | none => none) =
      (if v.all vChar && pyStrip (cutCommentF true ([] : List Char)) = [] then
         some (some (SVal.s (String.mk v))) else none) := rfl
  rw [h2, if_pos (by rw [hv]; rfl)]

theorem parseQuotedD_svalOK {r2 : List Char} {sv : SVal}
    (h : parseQuotedD r2 = some (some sv)) : svalOK sv := by
  simp only [parseQuotedD] at h
  rcases hd : r2.drop ((r2.takeWhile (fun c2 => ¬ c2 = '"')).length) with _ | ⟨x, tail2⟩
  · rw [hd] at h
    exact absurd h (by simp)
  · rw [hd] at h
    have h2 : (if (r2.takeWhile (fun c2 => ¬ c2 = '"')).all (fun c2 => vChar c2 && ¬ c2 = '\\') &&
        pyStrip (cutCommentF true tail2) = [] then
        some (some (SVal.s (String.mk (r2.takeWhile (fun c2 => ¬ c2 = '"'))))) else none) =
        some (some sv) := h
    by_cases hg : ((r2.takeWhile (fun c2 => ¬ c2 = '"')).all (fun c2 => vChar c2 && ¬ c2 = '\\') &&
        decide (pyStrip (cutCommentF true tail2) = [])) = true
    · rw [if_pos hg] at h2
      obtain rfl : SVal.s (String.mk (r2.takeWhile (fun c2 => ¬ c2 = '"'))) = sv :=
        Option.some.inj (Option.some.inj h2)
      show (r2.takeWhile (fun c2 => ¬ c2 = '"')).all vChar = true
      simp only [Bool.and_eq_true] at hg
      rw [List.all_eq_true]
      intro c hc
      have h3 := List.all_eq_true.mp hg.1 c hc
      simp only [Bool.and_eq_true] at h3
      exact h3.1
    · rw [if_neg hg] at h2
      exact absurd h2 (by simp)

theorem parseQuotedS_svalOK {r2 : List Char} {sv : SVal}
    (h : parseQuotedS r2 = some (some sv)) : svalOK sv := by
  simp only [parseQuotedS] at h
  rcases hsq : scanSQ r2 with _ | ⟨content, tail2⟩
  · rw [hsq] at h
    exact absurd h (by simp)
  · rw [hsq] at h
    have h2 : (if content.all vChar && pyStrip (cutCommentF true tail2) = [] then
        some (some (SVal.s (String.mk content))) else none) = some (some sv) := h
    by_cases hg : (content.all vChar && decide (pyStrip (cutCommentF true tail2) = [])) = true
    · rw [if_pos hg] at h2
      obtain rfl : SVal.s (String.mk content) = sv :=
        Option.some.inj (Option.some.inj h2)
      show content.all vChar = true
      simp only [Bool.and_eq_true] at hg
      exact hg.1
    · rw [if_neg hg] at h2
      exact absurd h2 (by simp)

theorem parseValueTok_svalOK {w : List Char} {sv : SVal}
    (h : parseValueTok w = some (some sv)) : svalOK sv := by
  cases w with
  | nil => exact absurd h (by simp [parseValueTok])
  | cons c1 r2 =>
    simp only [parseValueTok] at h
    by_cases h1 : c1 = '#'
    · rw [if_pos h1] at h
      exact absurd h (by simp)
    · rw [if_neg h1] at h
      by_cases h2 : c1 = '"'
      · rw [if_pos h2] at h
        exact parseQuotedD_svalOK h
      · rw [if_neg h2] at h
        by_cases h3 : c1 = '\''
        · rw [if_pos h3] at h
          exact parseQuotedS_svalOK h
        · rw [if_neg h3] at h
          by_cases h4 : plainBodyOK (pyStrip (cutCommentF true (c1 :: r2))) = true
          · rw [if_pos h4] at h
            obtain rfl : parseScalar (pyStrip (cutCommentF true (c1 :: r2))) = sv :=
              Option.some.inj (Option.some.inj h)
            exact parseScalar_svalOK (plainBodyOK_parts h4).2.1
          · rw [if_neg h4] at h
            exact absurd h (by simp)

theorem parseValue_svalOK {rest : List Char} {sv : SVal}
    (h : parseValue rest = some (some sv)) : svalOK sv := by
  cases rest with
  | nil => exact absurd h (by simp [parseValue])
  | cons c r =>
    simp only [parseValue] at h
    by_cases hc : (c = ' ' || c = '\t') = true
    · rw [if_pos hc] at h
      exact parseValueTok_svalOK h
    · rw [if_neg hc] at h
      exact absurd h (by simp)

theorem cutCommentF_id_of_mem {l : List Char}
    (hmem : ∀ c ∈ l, c = '-' ∨ c = '.' ∨ c ∈ digitChars) :
    cutCommentF true l = l := by
  have hsp : ' ' ∉ l := by
    intro hm
    rcases hmem ' ' hm with h | h | h
    · exact absurd h (by decide)
    · exact absurd h (by decide)
    · exact absurd h (by decide)
  apply cutCommentF_id l true
  · rw [List.all_eq_true]
    intro c hc
    rcases hmem c hc with h | h | h
    · subst h; decide
    · subst h; decide
    · exact digitChars_vChar h
  · intro _ hh
    rcases hmem '#' (head?_mem hh) with h | h | h
    · exact absurd h (by decide)
    · exact absurd h (by decide)
    · exact absurd h (by decide)
  · exact hasInfix_false hsp

theorem intToChars_num_mem (i : Int) :
    ∀ c ∈ intToChars i, c = '-' ∨ c = '.' ∨ c ∈ digitChars := by
  intro c hc
  rcases intToChars_mem i c hc with h | h
  · exact Or.inl h
  · exact Or.inr (Or.inr h)

theorem intToChars_head (i : Int) :
    ∃ a t, intToChars i = a :: t ∧ (a ∈ digitChars ∨ a = '-') ∧ (a = '-' → t ≠ []) := by
  by_cases h : i < 0
  · rw [intToChars_neg h]
    exact ⟨'-', natToChars i.natAbs, rfl, Or.inr rfl, fun _ => natToChars_ne_nil _⟩
  · rw [intToChars_nonneg (by omega)]
    obtain ⟨a, t, ht, ha⟩ := natToChars_cons i.toNat
    refine ⟨a, t, ht, Or.inl ha, fun hd => ?_⟩
    subst hd
    exact absurd ha (by decide)

theorem parseScalar_intToChars (i : Int) : parseScalar (intToChars i) = .i i := by
  obtain ⟨a, t, ht, ha, -⟩ := intToChars_head i
  have hwv : wordVal (intToChars i) = none := by
    rw [ht]
    exact wordVal_none ha
  rw [parseScalar_none hwv, if_pos (intShape_intToChars i), parseIntChars_intToChars i]

theorem renderFloat_split (q : ℚ) :
    (splitSign (renderFloat q)).2 =
      natToChars ((q.num * 10 ^ decExp q q.den 0 / (q.den : Int)).natAbs / 10 ^ decExp q q.den 0)
        ++ '.' :: padZeros (decExp q q.den 0)
          (natToChars ((q.num * 10 ^ decExp q q.den 0 / (q.den : Int)).natAbs %
            10 ^ decExp q q.den 0)) := by
  by_cases hneg : q.num < 0
  · rw [renderFloat_eq, if_pos hneg]
    rw [show (['-'] ++ natToChars ((q.num * 10 ^ decExp q q.den 0 / (q.den : Int)).natAbs /
        10 ^ decExp q q.den 0) ++ '.' :: padZeros (decExp q q.den 0)
          (natToChars ((q.num * 10 ^ decExp q q.den 0 / (q.den : Int)).natAbs %
            10 ^ decExp q q.den 0))) =
        '-' :: (natToChars ((q.num * 10 ^ decExp q q.den 0 / (q.den : Int)).natAbs /
          10 ^ decExp q q.den 0) ++ '.' :: padZeros (decExp q q.den 0)
            (natToChars ((q.num * 10 ^ decExp q q.den 0 / (q.den : Int)).natAbs %
              10 ^ decExp q q.den 0))) from rfl]
    rw [splitSign_neg]
  · rw [renderFloat_eq, if_neg hneg]
    obtain ⟨a, t, ht, ha⟩ := natToChars_cons
      ((q.num * 10 ^ decExp q q.den 0 / (q.den : Int)).natAbs / 10 ^ decExp q q.den 0)
    rw [ht, List.nil_append, List.cons_append,
      splitSign_nosign (digitChars_not_dash ha) (digitChars_not_plus ha)]

theorem renderFloat_mem (q : ℚ) :
    ∀ c ∈ renderFloat q, c = '-' ∨ c = '.' ∨ c ∈ digitChars := by
  intro c hc
  rw [renderFloat_eq] at hc
  rcases List.mem_append.mp hc with hc1 | hc2
  · rcases List.mem_append.mp hc1 with hc3 | hc4
    · by_cases hneg : q.num < 0
      · rw [if_pos hneg] at hc3
        simp at hc3
        exact Or.inl hc3
      · rw [if_neg hneg] at hc3
        simp at hc3
    · exact Or.inr (Or.inr (natToChars_all_digitChars _ c hc4))
  · rcases List.mem_cons.mp hc2 with rfl | hc5
    · exact Or.inr (Or.inl rfl)
    · simp only [padZeros] at hc5
      rcases List.mem_append.mp hc5 with hr | hn
      · rw [List.eq_of_mem_replicate hr]
        exact Or.inr (Or.inr (by decide))
      · exact Or.inr (Or.inr (natToChars_all_digitChars _ c hn))

theorem renderFloat_head (q : ℚ) :
    ∃ a t, renderFloat q = a :: t ∧ (a ∈ digitChars ∨ a = '-') ∧ (a = '-' → t ≠ []) := by
  by_cases hneg : q.num < 0
  · refine ⟨'-', natToChars ((q.num * 10 ^ decExp q q.den 0 / (q.den : Int)).natAbs /
        10 ^ decExp q q.den 0) ++ '.' :: padZeros (decExp q q.den 0)
          (natToChars ((q.num * 10 ^ decExp q q.den 0 / (q.den : Int)).natAbs %
            10 ^ decExp q q.den 0)), ?_, Or.inr rfl, fun _ => by simp⟩
    rw [renderFloat_eq, if_pos hneg]
    rfl
  · obtain ⟨a, t, ht, ha⟩ := natToChars_cons
      ((q.num * 10 ^ decExp q q.den 0 / (q.den : Int)).natAbs / 10 ^ decExp q q.den 0)
    refine ⟨a, t ++ '.' :: padZeros (decExp q q.den 0)
        (natToChars ((q.num * 10 ^ decExp q q.den 0 / (q.den : Int)).natAbs %
          10 ^ decExp q q.den 0)), ?_, Or.inl ha, fun hd => by
            subst hd
            exact absurd ha (by decide)⟩
    rw [renderFloat_eq, if_neg hneg, ht]
    rfl

theorem padZeros_all_digits (k m : Nat) :
    (padZeros k (natToChars m)).all Char.isDigit = true := by
  rw [List.all_eq_true]
  exact padZeros_all (by decide)
    (fun c hc => digitChars_isDigit (natToChars_all_digitChars _ c hc))

theorem digits_dot_not_all (A P : List Char) :
    ((A ++ '.' :: P).all Char.isDigit) = false := by
  rw [Bool.eq_false_iff]
  intro hall
  have h2 := List.all_eq_true.mp hall '.' (List.mem_append_right _ (List.mem_cons_self _ _))
  exact absurd h2 (by decide)

theorem intShape_renderFloat (q : ℚ) : intShape (renderFloat q) = false := by
  simp only [intShape, renderFloat_split]
  obtain ⟨a, t, ht, -⟩ := natToChars_cons
    ((q.num * 10 ^ decExp q q.den 0 / (q.den : Int)).natAbs / 10 ^ decExp q q.den 0)
  rw [ht, List.cons_append]
  rw [Bool.or_eq_false_iff]
  constructor
  · rw [decide_eq_false_iff_not]
    intro he
    have hd : ('.' : Char) ∈ (['0'] : List Char) := by
      rw [← he]
      exact List.mem_cons_of_mem _ (List.mem_append_right _ (List.mem_cons_self _ _))
    exact absurd hd (by decide)
  · simp [digitsNZ, digits_dot_not_all]

theorem floatShape_renderFloat (q : ℚ) : floatShape (renderFloat q) = true := by
  simp only [floatShape, renderFloat_split]
  rw [takeWhile_all_append (natToChars_all_digits _) (by decide), List.drop_left]
  rw [show (match '.' :: padZeros (decExp q q.den 0)
        (natToChars ((q.num * 10 ^ decExp q q.den 0 / (q.den : Int)).natAbs %
          10 ^ decExp q q.den 0)) with
      | c :: fp => c = '.' && fp.all Char.isDigit &&
          (natToChars ((q.num * 10 ^ decExp q q.den 0 / (q.den : Int)).natAbs /
            10 ^ decExp q q.den 0) ≠ [] || fp ≠ [])
      | _ => false) =
      ((('.' : Char) = '.') && (padZeros (decExp q q.den 0)
        (natToChars ((q.num * 10 ^ decExp q q.den 0 / (q.den : Int)).natAbs %
          10 ^ decExp q q.den 0))).all Char.isDigit &&
        (natToChars ((q.num * 10 ^ decExp q q.den 0 / (q.den : Int)).natAbs /
            10 ^ decExp q q.den 0) ≠ [] ||
          padZeros (decExp q q.den 0)
            (natToChars ((q.num * 10 ^ decExp q q.den 0 / (q.den : Int)).natAbs %
              10 ^ decExp q q.den 0)) ≠ [])) from rfl]
  simp [padZeros_all_digits, natToChars_ne_nil]

theorem parseScalar_renderFloat {q : ℚ} (hk : ∃ k, q.den ∣ 10 ^ k) :
    parseScalar (renderFloat q) = .f q := by
  obtain ⟨a, t, ht, ha, -⟩ := renderFloat_head q
  have hwv : wordVal (renderFloat q) = none := by
    rw [ht]
    exact wordVal_none ha
  rw [parseScalar_none hwv, if_neg (by simp [intShape_renderFloat]),
    if_pos (floatShape_renderFloat q), renderFloat_parse hk]

theorem sval_render : ∀ (sv : SVal), svalOK sv →
    renderScalar sv ≠ [] ∧ (renderScalar sv).all vChar = true ∧
    pyStrip (renderScalar sv) = renderScalar sv ∧
    parseValue (' ' :: renderScalar sv) = some (some sv) := by
  intro sv h
  cases sv with
  | b bv =>
    cases bv with
    | false => exact ⟨by decide, by decide, by decide, by decide⟩
    | true => exact ⟨by decide, by decide, by decide, by decide⟩
  | null => exact ⟨by decide, by decide, by decide, by decide⟩
  | i v =>
    have hmem := intToChars_num_mem v
    obtain ⟨a, t, ht, ha, hd⟩ := intToChars_head v
    have hpb : plainBodyOK (intToChars v) = true := by
      rw [ht]
      exact plainBodyOK_numeric (fun c hc => hmem c (by rw [ht]; exact hc)) hd
    have hcut : cutCommentF true (intToChars v) = intToChars v := cutCommentF_id_of_mem hmem
    have hpv : parseValue (' ' :: intToChars v) = some (some (SVal.i v)) := by
      rw [parseValue_plain hpb hcut, parseScalar_intToChars]
    exact ⟨(plainBodyOK_parts hpb).1, (plainBodyOK_parts hpb).2.1,
      (plainBodyOK_parts hpb).2.2.1, hpv⟩
  | f q =>
    have hkk : ∃ k, q.den ∣ 10 ^ k := h
    have hmem := renderFloat_mem q
    obtain ⟨a, t, ht, ha, hd⟩ := renderFloat_head q
    have hpb : plainBodyOK (renderFloat q) = true := by
      rw [ht]
      exact plainBodyOK_numeric (fun c hc => hmem c (by rw [ht]; exact hc)) hd
    have hcut : cutCommentF true (renderFloat q) = renderFloat q := cutCommentF_id_of_mem hmem
    have hpv : parseValue (' ' :: renderFloat q) = some (some (SVal.f q)) := by
      rw [parseValue_plain hpb hcut, parseScalar_renderFloat hkk]
    exact ⟨(plainBodyOK_parts hpb).1, (plainBodyOK_parts hpb).2.1,
      (plainBodyOK_parts hpb).2.2.1, hpv⟩
  | s str =>
    by_cases hpo : plainOK str.data = true
    · have hr : renderScalar (.s str) = str.data := by
        show (if plainOK str.data then str.data else _) = str.data
        rw [if_pos hpo]
      have hpb : plainBodyOK str.data = true := by
        simp only [plainOK, Bool.and_eq_true] at hpo
        exact hpo.1
      have hps : parseScalar str.data = .s str := by
        simp only [plainOK, Bool.and_eq_true, decide_eq_true_eq] at hpo
        rw [hpo.2, string_mk_data]
      have hcut : cutCommentF true str.data = str.data := by
        obtain ⟨hne, hv, hst, hph, -, hih, -⟩ := plainBodyOK_parts hpb
        apply cutCommentF_id _ true hv _ hih
        intro _ hh
        exact (plainHead_facts hph '#' hh).1 rfl
      rw [hr]
      refine ⟨(plainBodyOK_parts hpb).1, (plainBodyOK_parts hpb).2.1,
        (plainBodyOK_parts hpb).2.2.1, ?_⟩
      rw [parseValue_plain hpb hcut, hps]
    · have hr : renderScalar (.s str) = '\'' :: (escSQ str.data ++ ['\'']) := by
        show (if plainOK str.data then str.data else _) = _
        rw [if_neg hpo]
      have hv : str.data.all vChar = true := h
      rw [hr]
      refine ⟨by simp, ?_, ?_, ?_⟩
      · rw [List.all_eq_true]
        intro c hc
        rcases List.mem_cons.mp hc with rfl | hc2
        · decide
        · rcases List.mem_append.mp hc2 with hc3 | hc4
          · exact escSQ_all (by decide) (fun e he => List.all_eq_true.mp hv e he) c hc3
          · simp at hc4
            subst hc4
            decide
      · apply pyStrip_eq_self
        · intro c hc
          rw [List.head?_cons] at hc
          obtain rfl : '\'' = c := Option.some.inj hc
          decide
        · intro c hc
          rw [show ('\'' :: (escSQ str.data ++ ['\''])) =
            ('\'' :: escSQ str.data) ++ ['\''] from by simp] at hc
          rw [List.getLast?_concat] at hc
          obtain rfl : '\'' = c := Option.some.inj hc
          decide
      · have hdw : ('\'' :: (escSQ str.data ++ ['\''])).dropWhile
            (fun c2 => c2 = ' ' || c2 = '\t') = '\'' :: (escSQ str.data ++ ['\'']) := by
          apply dropWhile_eq_self_of_head
          intro c hc
          rw [List.head?_cons] at hc
          obtain rfl : '\'' = c := Option.some.inj hc
          decide
        rw [parseValue_space hdw, parseValueTok_sq hv, string_mk_data]

theorem sentryWF_of {k : String} {sv : SVal} (hk : keyOK k.data = true) (hsv : svalOK sv) :
    sentryWF (k, sv) = true := by
  obtain ⟨h1, h2, h3, h4⟩ := sval_render sv hsv
  simp only [sentryWF, Bool.and_eq_true, decide_eq_true_eq]
  exact ⟨⟨⟨⟨hk, h1⟩, h2⟩, h3⟩, h4⟩

theorem sentryWF_parts {e : String × SVal} (h : sentryWF e = true) :
    keyOK e.1.data = true ∧ renderScalar e.2 ≠ [] ∧ (renderScalar e.2).all vChar = true ∧
    pyStrip (renderScalar e.2) = renderScalar e.2 ∧
    parseValue (' ' :: renderScalar e.2) = some (some e.2) := by
  simp only [sentryWF, Bool.and_eq_true, decide_eq_true_eq] at h
  exact ⟨h.1.1.1.1, h.1.1.1.2, h.1.1.2, h.1.2, h.2⟩

/-! ### Infrastructure for C2: mapping traversal and dict construction -/

theorem mapM_cons_opt {α β : Type} (f : α → Option β) (a : α) (l : List α) :
    (a :: l).mapM f = (f a).bind (fun v => (l.mapM f).bind (fun vs => some (v :: vs))) := by
  rw [List.mapM_cons]
  rfl

theorem mapM_nil_opt {α β : Type} (f : α → Option β) : ([] : List α).mapM f = some [] := rfl

theorem mapM_mem {α β : Type} (f : α → Option β) :
    ∀ (l : List α) (es : List β), l.mapM f = some es → ∀ e ∈ es, ∃ x ∈ l, f x = some e := by
  intro l
  induction l with
  | nil =>
    intro es h e he
    rw [mapM_nil_opt] at h
    obtain rfl : [] = es := Option.some.inj h
    simp at he
  | cons a t ih =>
    intro es h e he
    rw [mapM_cons_opt] at h
    rcases hfa : f a with _ | v
    · rw [hfa] at h
      exact absurd h (by simp)
    · rw [hfa] at h
      rcases hmt : t.mapM f with _ | vs
      · rw [hmt] at h
        exact absurd h (by simp)
      · rw [hmt] at h
        have h2 : some (v :: vs) = some es := h
        obtain rfl : v :: vs = es := Option.some.inj h2
        rcases List.mem_cons.mp he with rfl | he2
        · exact ⟨a, List.mem_cons_self _ _, hfa⟩
        · obtain ⟨x, hx, hfx⟩ := ih vs hmt e he2
          exact ⟨x, List.mem_cons_of_mem _ hx, hfx⟩

theorem mapM_of_pointwise {α β : Type} (f : α → Option β) (g : β → α) :
    ∀ (l : List β), (∀ x ∈ l, f (g x) = some x) → (l.map g).mapM f = some l := by
  intro l
  induction l with
  | nil => intro _; rfl
  | cons a t ih =>
    intro h
    rw [List.map_cons, mapM_cons_opt, h a (List.mem_cons_self _ _),
      ih (fun x hx => h x (List.mem_cons_of_mem _ hx))]
    rfl

theorem mapM_cons_shape {α β : Type} {f : α → Option β} {a : α} {t : List α} {es : List β}
    (h : (a :: t).mapM f = some es) : es ≠ [] := by
  rw [mapM_cons_opt] at h
  rcases hfa : f a with _ | v
  · rw [hfa] at h
    exact absurd h (by simp)
  · rw [hfa] at h
    rcases hmt : t.mapM f with _ | vs
    · rw [hmt] at h
      exact absurd h (by simp)
    · rw [hmt] at h
      have h2 : some (v :: vs) = some es := h
      obtain rfl : v :: vs = es := Option.some.inj h2
      simp

theorem insertKV_mem {α : Type} {acc : List (String × α)} {k : String} {v : α} {e : String × α}
    (h : e ∈ insertKV acc k v) : e ∈ acc ∨ e = (k, v) := by
  unfold insertKV at h
  by_cases ha : acc.any (fun kv => kv.1 = k) = true
  · rw [if_pos ha] at h
    rcases List.mem_map.mp h with ⟨kv0, hkv0, heq⟩
    by_cases hk0 : kv0.1 = k
    · rw [if_pos hk0] at heq
      exact Or.inr heq.symm
    · rw [if_neg hk0] at heq
      exact Or.inl (heq ▸ hkv0)
  · rw [if_neg ha] at h
    rcases List.mem_append.mp h with h1 | h2
    · exact Or.inl h1
    · exact Or.inr (List.mem_singleton.mp h2)

theorem foldl_insert_mem {α : Type} :
    ∀ (l acc : List (String × α)) (e : String × α),
      e ∈ l.foldl (fun acc2 kv => insertKV acc2 kv.1 kv.2) acc → e ∈ acc ∨ e ∈ l := by
  intro l
  induction l with
  | nil =>
    intro acc e h
    exact Or.inl h
  | cons a t ih =>
    intro acc e h
    rw [List.foldl_cons] at h
    rcases ih _ e h with h1 | h2
    · rcases insertKV_mem h1 with h3 | h4
      · exact Or.inl h3
      · exact Or.inr (by rw [h4]; exact List.mem_cons_self _ _)
    · exact Or.inr (List.mem_cons_of_mem _ h2)

theorem loadDict_mem {α : Type} {l : List (String × α)} {e : String × α}
    (h : e ∈ loadDict l) : e ∈ l := by
  unfold loadDict at h
  rcases foldl_insert_mem l [] e h with h1 | h2
  · simp at h1
  · exact h2

theorem any_ext {α : Type} {p q : α → Bool} (h : ∀ a, p a = q a) :
    ∀ l : List α, l.any p = l.any q := by
  intro l
  induction l with
  | nil => rfl
  | cons a t ih => simp [List.any_cons, h a, ih]

theorem keysDistinct_map_keys {α : Type} {f : String × α → String × α}
    (hf : ∀ e, (f e).1 = e.1) :
    ∀ l : List (String × α), keysDistinct (l.map f) = keysDistinct l := by
  intro l
  induction l with
  | nil => rfl
  | cons a t ih =>
    rw [List.map_cons]
    unfold keysDistinct
    rw [ih, List.any_map]
    have hpt : ∀ e : String × α, ((fun e2 => decide (e2.1 = (f a).1)) ∘ f) e =
        (fun e2 => decide (e2.1 = a.1)) e := by
      intro e
      simp only [Function.comp]
      rw [hf e, hf a]
    rw [any_ext hpt t]

theorem keysDistinct_insertKV {α : Type} {acc : List (String × α)} (k : String) (v : α)
    (h : keysDistinct acc = true) (hk : acc.any (fun kv => kv.1 = k) = false →
      keysDistinct (acc ++ [(k, v)]) = true) :
    keysDistinct (insertKV acc k v) = true := by
  unfold insertKV
  by_cases ha : acc.any (fun kv => kv.1 = k) = true
  · rw [if_pos ha]
    have hf : ∀ e : String × α, ((if e.1 = k then (k, v) else e) : String × α).1 = e.1 := by
      intro e
      by_cases he : e.1 = k
      · rw [if_pos he]
        exact he.symm
      · rw [if_neg he]
    rw [keysDistinct_map_keys hf acc]
    exact h
  · rw [if_neg ha]
    exact hk (Bool.eq_false_iff.mpr ha)

theorem keysDistinct_append_one {α : Type} :
    ∀ (acc : List (String × α)) (k : String) (v : α),
      keysDistinct acc = true → acc.any (fun kv => kv.1 = k) = false →
      keysDistinct (acc ++ [(k, v)]) = true := by
  intro acc
  induction acc with
  | nil =>
    intro k v _ _
    rfl
  | cons a t ih =>
    intro k v hd hk
    simp only [keysDistinct, Bool.and_eq_true, Bool.not_eq_true'] at hd
    simp only [List.any_cons, Bool.or_eq_false_iff, decide_eq_false_iff_not] at hk
    rw [List.cons_append]
    simp only [keysDistinct, Bool.and_eq_true, Bool.not_eq_true']
    constructor
    · rw [List.any_append, Bool.or_eq_false_iff]
      refine ⟨hd.1, ?_⟩
      simp only [List.any_cons, List.any_nil, Bool.or_eq_false_iff, decide_eq_false_iff_not]
      exact ⟨fun hka => hk.1 hka.symm, trivial⟩
    · exact ih k v hd.2 hk.2

theorem keysDistinct_foldl_insert {α : Type} :
    ∀ (l acc : List (String × α)), keysDistinct acc = true →
      keysDistinct (l.foldl (fun acc2 kv => insertKV acc2 kv.1 kv.2) acc) = true := by
  intro l
  induction l with
  | nil =>
    intro acc h
    exact h
  | cons a t ih =>
    intro acc h
    rw [List.foldl_cons]
    exact ih _ (keysDistinct_insertKV a.1 a.2 h (keysDistinct_append_one acc a.1 a.2 h))

theorem keysDistinct_loadDict {α : Type} (l : List (String × α)) :
    keysDistinct (loadDict l) = true :=
  keysDistinct_foldl_insert l [] rfl

theorem insertKV_ne_nil {α : Type} {acc : List (String × α)} (hne : acc ≠ []) (k : String) (v : α) :
    insertKV acc k v ≠ [] := by
  unfold insertKV
  by_cases ha : acc.any (fun kv => kv.1 = k) = true
  · rw [if_pos ha]
    simp [hne]
  · rw [if_neg ha]
    simp

theorem foldl_insert_ne_nil {α : Type} :
    ∀ (l acc : List (String × α)), acc ≠ [] →
      l.foldl (fun acc2 kv => insertKV acc2 kv.1 kv.2) acc ≠ [] := by
  intro l
  induction l with
  | nil =>
    intro acc h
    exact h
  | cons a t ih =>
    intro acc h
    rw [List.foldl_cons]
    exact ih _ (insertKV_ne_nil h a.1 a.2)

theorem loadDict_ne_nil {α : Type} (a : String × α) (t : List (String × α)) :
    loadDict (a :: t) ≠ [] := by
  unfold loadDict
  rw [List.foldl_cons]
  apply foldl_insert_ne_nil
  unfold insertKV
  simp

theorem foldl_insert_id {α : Type} :
    ∀ (l acc : List (String × α)), keysDistinct l = true →
      (∀ kv ∈ l, acc.any (fun e => e.1 = kv.1) = false) →
      l.foldl (fun acc2 kv => insertKV acc2 kv.1 kv.2) acc = acc ++ l := by
  intro l
  induction l with
  | nil =>
    intro acc _ _
    simp
  | cons a t ih =>
    intro acc hd hdisj
    simp only [keysDistinct, Bool.and_eq_true, Bool.not_eq_true'] at hd
    rw [List.foldl_cons]
    have hins : insertKV acc a.1 a.2 = acc ++ [a] := by
      unfold insertKV
      rw [if_neg (by simp [hdisj a (List.mem_cons_self _ _)])]
    have hdisj2 : ∀ kv ∈ t, (acc ++ [a]).any (fun e => e.1 = kv.1) = false := by
      intro kv hkv
      rw [List.any_append, Bool.or_eq_false_iff]
      refine ⟨hdisj kv (List.mem_cons_of_mem _ hkv), ?_⟩
      simp only [List.any_cons, List.any_nil, Bool.or_eq_false_iff, decide_eq_false_iff_not]
      refine ⟨fun hak => ?_, trivial⟩
      have ht : t.any (fun e => e.1 = a.1) = true :=
        List.any_eq_true.mpr ⟨kv, hkv, by simp [hak]⟩
      rw [hd.1] at ht
      exact absurd ht (by decide)
    rw [hins, ih (acc ++ [a]) hd.2 hdisj2]
    simp

theorem loadDict_id {α : Type} {l : List (String × α)} (h : keysDistinct l = true) :
    loadDict l = l := by
  unfold loadDict
  rw [foldl_insert_id l [] h (fun kv _ => rfl)]
  simp

/-! ### Infrastructure for C2: what the loader produces is well-formed -/

theorem parseEntryLine_facts {l : List Char} {k : String} {v : Option SVal}
    (h : parseEntryLine l = some (k, v)) :
    keyOK k.data = true ∧ ∀ sv, v = some sv → svalOK sv := by
  simp only [parseEntryLine] at h
  by_cases hk : keyOK (l.takeWhile keyChar) = true
  · rw [if_pos hk] at h
    rcases hd : l.drop (l.takeWhile keyChar).length with _ | ⟨c, rest⟩
    · rw [hd] at h
      exact absurd h (by simp)
    · rw [hd] at h
      have h2 : (if c = ':' then
          (parseValue rest).map (fun v2 => (String.mk (l.takeWhile keyChar), v2)) else none) =
          some (k, v) := h
      by_cases hc : c = ':'
      · rw [if_pos hc] at h2
        obtain ⟨v0, hpv, heq⟩ := Option.map_eq_some'.mp h2
        obtain rfl : String.mk (l.takeWhile keyChar) = k := congrArg Prod.fst heq
        obtain rfl : v0 = v := congrArg Prod.snd heq
        refine ⟨hk, ?_⟩
        intro sv hsv
        subst hsv
        exact parseValue_svalOK hpv
      · rw [if_neg hc] at h2
        exact absurd h2 (by simp)
  · rw [if_neg hk] at h
    exact absurd h (by simp)

theorem parseBlock_facts {ls : List (List Char)} {es : List (String × SVal)}
    (h : parseBlock ls = some es) : es ≠ [] ∧ ∀ e ∈ es, sentryWF e = true := by
  cases ls with
  | nil => exact absurd h (by simp [parseBlock])
  | cons l0 lrest =>
    simp only [parseBlock] at h
    constructor
    · exact mapM_cons_shape h
    · intro e he
      obtain ⟨x, hx, hfx⟩ := mapM_mem _ _ _ h e he
      by_cases hind : x.takeWhile (fun c => c = ' ') = l0.takeWhile (fun c => c = ' ')
      · rw [if_pos hind] at hfx
        obtain ⟨⟨k0, v0⟩, hpe, heq⟩ := Option.map_eq_some'.mp hfx
        obtain ⟨h1, h2⟩ := parseEntryLine_facts hpe
        obtain rfl : (k0, v0.getD SVal.null) = e := heq
        cases v0 with
        | none => exact sentryWF_of h1 True.intro
        | some sv => exact sentryWF_of h1 (h2 sv rfl)
      · rw [if_neg hind] at hfx
        exact absurd hfx (by simp)

theorem toScalar_ofS (sv : SVal) : (YVal.ofS sv).toScalar = some sv := by
  cases sv <;> rfl

theorem ofS_toScalar {y : YVal} {sv : SVal} (h : y.toScalar = some sv) : YVal.ofS sv = y := by
  cases y with
  | s v =>
    obtain rfl : SVal.s v = sv := Option.some.inj h
    rfl
  | i v =>
    obtain rfl : SVal.i v = sv := Option.some.inj h
    rfl
  | f v =>
    obtain rfl : SVal.f v = sv := Option.some.inj h
    rfl
  | b v =>
    obtain rfl : SVal.b v = sv := Option.some.inj h
    rfl
  | null =>
    obtain rfl : SVal.null = sv := Option.some.inj h
    rfl
  | m es => exact absurd h (by simp [YVal.toScalar])

theorem entryWF_ofS {k : String} {sv : SVal} : entryWF (k, YVal.ofS sv) = sentryWF (k, sv) := by
  cases sv <;> rfl

theorem entryWF_m {k : String} {es : List (String × SVal)} :
    entryWF (k, YVal.m es) =
      (keyOK k.data && decide (es ≠ []) && es.all sentryWF && keysDistinct es) := rfl

theorem parseGroup_facts {g : List Char × List (List Char)} {kv : String × YVal}
    (h : parseGroup g = some kv) : entryWF kv = true := by
  simp only [parseGroup] at h
  rcases hpe : parseEntryLine g.1 with _ | ⟨k0, v0⟩
  · rw [hpe] at h
    exact absurd h (by simp)
  · rw [hpe] at h
    cases v0 with
    | some sv =>
      have h2 : (if g.2 = [] then some (k0, YVal.ofS sv) else none) = some kv := h
      by_cases hg : g.2 = []
      · rw [if_pos hg] at h2
        obtain rfl : (k0, YVal.ofS sv) = kv := Option.some.inj h2
        obtain ⟨h1, hsv⟩ := parseEntryLine_facts hpe
        rw [entryWF_ofS]
        exact sentryWF_of h1 (hsv sv rfl)
      · rw [if_neg hg] at h2
        exact absurd h2 (by simp)
    | none =>
      rcases hg2 : g.2 with _ | ⟨c0, crest⟩
      · rw [hg2] at h
        have h2 : some (k0, YVal.null) = some kv := h
        obtain rfl : (k0, YVal.null) = kv := Option.some.inj h2
        obtain ⟨h1, -⟩ := parseEntryLine_facts hpe
        exact sentryWF_of h1 True.intro
      · rw [hg2] at h
        have h2 : (parseBlock (c0 :: crest)).map (fun es => (k0, YVal.m (loadDict es))) =
            some kv := h
        obtain ⟨es, hpb, heq⟩ := Option.map_eq_some'.mp h2
        obtain rfl : (k0, YVal.m (loadDict es)) = kv := heq
        obtain ⟨h1, -⟩ := parseEntryLine_facts hpe
        obtain ⟨hne, hall⟩ := parseBlock_facts hpb
        rw [entryWF_m]
        simp only [Bool.and_eq_true, decide_eq_true_eq]
        refine ⟨⟨⟨h1, ?_⟩, ?_⟩, keysDistinct_loadDict _⟩
        · obtain ⟨a, t, rfl⟩ : ∃ a t, es = a :: t := by
            cases es with
            | nil => exact absurd rfl hne
            | cons a t => exact ⟨a, t, rfl⟩
          exact loadDict_ne_nil a t
        · rw [List.all_eq_true]
          intro e he
          exact hall e (loadDict_mem he)

theorem metaWF_of_parts {m : Metadata} (h1 : List.all m entryWF = true)
    (h2 : keysDistinct m = true) : metaWF m = true := by
  unfold metaWF
  rw [Bool.and_eq_true]
  exact ⟨h1, h2⟩

theorem yamlLoad_metaWF {y : List Char} {m : Metadata} (h : yamlLoad y = .dict m) :
    metaWF m = true := by
  simp only [yamlLoad] at h
  by_cases h1 : pyStrip y = []
  · rw [if_pos h1] at h
    obtain rfl : ([] : Metadata) = m := YamlRes.dict.inj h
    rfl
  · rw [if_neg h1] at h
    by_cases h2 : pyStrip y = "{}".data
    · rw [if_pos h2] at h
      obtain rfl : ([] : Metadata) = m := YamlRes.dict.inj h
      rfl
    · rw [if_neg h2] at h
      rcases hg : (groupLines ((splitOnNl (pyStrip y)).filter (fun l => !(l.all isWS)))).2 with
        _ | ⟨s0, srest⟩
      · rw [hg] at h
        rcases hm : ((groupLines ((splitOnNl (pyStrip y)).filter
            (fun l => !(l.all isWS)))).1).mapM parseGroup with _ | es
        · rw [hm] at h
          have h3 : (if ((splitOnNl (pyStrip y)).filter (fun l => !(l.all isWS))) ≠ [] &&
              ((splitOnNl (pyStrip y)).filter (fun l => !(l.all isWS))).all scalarLine then
              YamlRes.nondict else YamlRes.err) = YamlRes.dict m := h
          by_cases h4 : (decide (((splitOnNl (pyStrip y)).filter (fun l => !(l.all isWS))) ≠ []) &&
              ((splitOnNl (pyStrip y)).filter (fun l => !(l.all isWS))).all scalarLine) = true
          · rw [if_pos h4] at h3
            exact absurd h3 (by simp)
          · rw [if_neg h4] at h3
            exact absurd h3 (by simp)
        · rw [hm] at h
          have h3 : YamlRes.dict (loadDict es) = YamlRes.dict m := h
          obtain rfl : loadDict es = m := YamlRes.dict.inj h3
          apply metaWF_of_parts
          · rw [List.all_eq_true]
            intro kv hkv
            obtain ⟨g, -, hpg⟩ := mapM_mem _ _ _ hm kv (loadDict_mem hkv)
            exact parseGroup_facts hpg
          · exact keysDistinct_loadDict es
      · rw [hg] at h
        have h3 : YamlRes.err = YamlRes.dict m := h
        exact absurd h3 (by simp)

/-! ### Infrastructure for C2: the dumped lines of an entry -/

theorem mem_of_getLast?Gen {α : Type} {l : List α} {c : α} (h : l.getLast? = some c) :
    c ∈ l := by
  induction l with
  | nil => simp at h
  | cons a t ih =>
    cases t with
    | nil =>
      simp at h
      subst h
      exact List.mem_cons_self _ _
    | cons b bs =>
      rw [List.getLast?_cons_cons] at h
      exact List.mem_cons_of_mem _ (ih h)

theorem head?_append_left {l r : List Char} (h : l ≠ []) : (l ++ r).head? = l.head? := by
  cases l with
  | nil => exact absurd rfl h
  | cons a t => rfl

/-- The indented child lines of a dumped entry (nested mappings only). -/
def entryChildren (kv : String × YVal) : List (List Char) :=
  match kv.2 with
  | .m (e :: es) => (e :: es).map (fun e2 => ' ' :: ' ' :: dumpSLine e2)
  | _ => []

/-- The first (unindented) line of a dumped entry. -/
def entryTop (kv : String × YVal) : List Char :=
  match kv.2.toScalar with
  | some sv => dumpSLine (kv.1, sv)
  | none =>
    match kv.2 with
    | .m (_ :: _) => kv.1.data ++ [':']
    | _ => kv.1.data ++ ':' :: ' ' :: '{' :: ['}']

theorem dumpEntry_decomp (kv : String × YVal) :
    dumpEntry kv = entryTop kv :: entryChildren kv := by
  rcases kv with ⟨k, y⟩
  cases y with
  | s v => rfl
  | i v => rfl
  | f v => rfl
  | b v => rfl
  | null => rfl
  | m es =>
    cases es with
    | nil => rfl
    | cons e es2 => rfl

theorem keyChar_ne_space {c : Char} (h : keyChar c = true) : (decide (c = ' ')) = false := by
  rw [decide_eq_false_iff_not]
  intro hc
  subst hc
  exact absurd h (by decide)

theorem keyChar_not_lbrace {c : Char} (h : keyChar c = true) : c ≠ '\x7b' := by
  intro hc
  subst hc
  exact absurd h (by decide)

theorem all_false_of_mem {p : Char → Bool} {l : List Char} {c : Char}
    (hc : c ∈ l) (hpc : p c = false) : l.all p = false := by
  rw [Bool.eq_false_iff]
  intro hall
  rw [List.all_eq_true] at hall
  rw [hall c hc] at hpc
  exact absurd hpc (by decide)

theorem dumpSLine_ne_nil (e : String × SVal) : dumpSLine e ≠ [] := by
  unfold dumpSLine
  simp

theorem dumpSLine_mem {e : String × SVal} (h : sentryWF e = true) :
    ∀ c ∈ dumpSLine e, c ≠ '\n' ∧ c ≠ '\r' := by
  obtain ⟨hk, -, hall, -, -⟩ := sentryWF_parts h
  intro c hc
  unfold dumpSLine at hc
  rcases List.mem_append.mp hc with h1 | h2
  · obtain ⟨-, hkall, -, -⟩ := keyOK_parts hk
    have hp := keyChar_props (List.all_eq_true.mp hkall c h1)
    exact ⟨hp.1, hp.2.1⟩
  · rcases List.mem_cons.mp h2 with rfl | h3
    · exact ⟨by decide, by decide⟩
    · rcases List.mem_cons.mp h3 with rfl | h4
      · exact ⟨by decide, by decide⟩
      · exact vChar_not_crlf (List.all_eq_true.mp hall c h4)

theorem dumpSLine_head {e : String × SVal} (h : sentryWF e = true) :
    ∀ c, (dumpSLine e).head? = some c → keyChar c = true := by
  obtain ⟨hk, -, -, -, -⟩ := sentryWF_parts h
  obtain ⟨hne, -, -, hhd⟩ := keyOK_parts hk
  intro c hc
  unfold dumpSLine at hc
  rw [head?_append_left hne] at hc
  exact hhd c hc

theorem dumpSLine_last {e : String × SVal} (h : sentryWF e = true) :
    ∀ c, (dumpSLine e).getLast? = some c → isWS c = false := by
  obtain ⟨-, hrne, -, hstr, -⟩ := sentryWF_parts h
  intro c hc
  have h1 : (dumpSLine e).getLast? = (renderScalar e.2).getLast? := by
    unfold dumpSLine
    rw [List.getLast?_append]
    rw [getLast?_cons_ne_nil (by simp [hrne] : (' ' :: renderScalar e.2) ≠ [])]
    rw [getLast?_cons_ne_nil hrne]
    obtain ⟨x, hx⟩ := Option.isSome_iff_exists.mp (List.getLast?_isSome.mpr hrne)
    rw [hx]
    rfl
  rw [h1] at hc
  exact strip_self_last hstr c hc

theorem dumpSLine_not_all_ws {e : String × SVal} (h : sentryWF e = true) :
    (dumpSLine e).all isWS = false := by
  obtain ⟨c0, t0, ht0⟩ : ∃ c0 t0, dumpSLine e = c0 :: t0 := by
    cases hd : dumpSLine e with
    | nil => exact absurd hd (dumpSLine_ne_nil e)
    | cons a b => exact ⟨a, b, rfl⟩
  have hc0 : keyChar c0 = true := dumpSLine_head h c0 (by rw [ht0]; rfl)
  exact all_false_of_mem (by rw [ht0]; exact List.mem_cons_self _ _) (keyChar_not_ws hc0)

theorem entryWF_scalar {k : String} {sv : SVal} {y : YVal}
    (hts : y.toScalar = some sv) (h : entryWF (k, y) = true) :
    sentryWF (k, sv) = true := by
  obtain rfl : YVal.ofS sv = y := ofS_toScalar hts
  rw [entryWF_ofS] at h
  exact h

theorem entryWF_m_parts {k : String} {es : List (String × SVal)}
    (h : entryWF (k, YVal.m es) = true) :
    keyOK k.data = true ∧ es ≠ [] ∧ (∀ e ∈ es, sentryWF e = true) ∧
      keysDistinct es = true := by
  rw [entryWF_m] at h
  simp only [Bool.and_eq_true, decide_eq_true_eq] at h
  exact ⟨h.1.1.1, h.1.1.2, List.all_eq_true.mp h.1.2, h.2⟩

theorem entryTop_head {kv : String × YVal} (h : entryWF kv = true) :
    ∀ c, (entryTop kv).head? = some c → keyChar c = true := by
  rcases kv with ⟨k, y⟩
  cases y with
  | s v => exact dumpSLine_head h
  | i v => exact dumpSLine_head h
  | f v => exact dumpSLine_head h
  | b v => exact dumpSLine_head h
  | null => exact dumpSLine_head h
  | m es =>
    cases es with
    | nil =>
      rw [entryWF_m] at h
      simp at h
    | cons e es2 =>
      obtain ⟨hk, -, -, -⟩ := entryWF_m_parts h
      obtain ⟨hne, -, -, hhd⟩ := keyOK_parts hk
      intro c hc
      have hc2 : (k.data ++ [':']).head? = some c := hc
      rw [head?_append_left hne] at hc2
      exact hhd c hc2

theorem entryChildren_head (kv : String × YVal) :
    ∀ l ∈ entryChildren kv, l.head? = some ' ' := by
  rcases kv with ⟨k, y⟩
  cases y with
  | s v =>
    intro l hl
    exact absurd hl (List.not_mem_nil l)
  | i v =>
    intro l hl
    exact absurd hl (List.not_mem_nil l)
  | f v =>
    intro l hl
    exact absurd hl (List.not_mem_nil l)
  | b v =>
    intro l hl
    exact absurd hl (List.not_mem_nil l)
  | null =>
    intro l hl
    exact absurd hl (List.not_mem_nil l)
  | m es =>
    cases es with
    | nil =>
      intro l hl
      exact absurd hl (List.not_mem_nil l)
    | cons e es2 =>
      intro l hl
      have hl2 : l ∈ (e :: es2).map (fun e2 => ' ' :: ' ' :: dumpSLine e2) := hl
      rcases List.mem_map.mp hl2 with ⟨e2, -, rfl⟩
      rfl

theorem dumpEntry_lines_facts {kv : String × YVal} (h : entryWF kv = true) :
    ∀ l ∈ dumpEntry kv, l ≠ [] ∧ (∀ c ∈ l, c ≠ '\n' ∧ c ≠ '\r') ∧ l.all isWS = false ∧
      (∀ c, l.head? = some c → c ≠ '-') ∧ (∀ c, l.getLast? = some c → isWS c = false) := by
  rcases kv with ⟨k, y⟩
  have hScalar : ∀ (sv : SVal), sentryWF (k, sv) = true →
      ∀ l ∈ [dumpSLine (k, sv)], l ≠ [] ∧ (∀ c ∈ l, c ≠ '\n' ∧ c ≠ '\r') ∧
        l.all isWS = false ∧ (∀ c, l.head? = some c → c ≠ '-') ∧
        (∀ c, l.getLast? = some c → isWS c = false) := by
    intro sv hs l hl
    obtain rfl : l = dumpSLine (k, sv) := List.mem_singleton.mp hl
    refine ⟨dumpSLine_ne_nil _, dumpSLine_mem hs, dumpSLine_not_all_ws hs, ?_,
      dumpSLine_last hs⟩
    intro c hc
    exact (keyChar_props (dumpSLine_head hs c hc)).2.2
  cases y with
  | s v => exact hScalar (.s v) h
  | i v => exact hScalar (.i v) h
  | f v => exact hScalar (.f v) h
  | b v => exact hScalar (.b v) h
  | null => exact hScalar .null h
  | m es =>
    cases es with
    | nil =>
      rw [entryWF_m] at h
      simp at h
    | cons e es2 =>
      obtain ⟨hk, -, hall, -⟩ := entryWF_m_parts h
      obtain ⟨hkne, hkall, -, hkhd⟩ := keyOK_parts hk
      intro l hl
      have hl2 : l ∈ (k.data ++ [':']) ::
          (e :: es2).map (fun e2 => ' ' :: ' ' :: dumpSLine e2) := hl
      rcases List.mem_cons.mp hl2 with rfl | hl3
      · refine ⟨by simp, ?_, ?_, ?_, ?_⟩
        · intro c hc
          rcases List.mem_append.mp hc with h1 | h2
          · have hp := keyChar_props (List.all_eq_true.mp hkall c h1)
            exact ⟨hp.1, hp.2.1⟩
          · obtain rfl : c = ':' := List.mem_singleton.mp h2
            exact ⟨by decide, by decide⟩
        · obtain ⟨c0, t0, ht0⟩ : ∃ c0 t0, k.data = c0 :: t0 := by
            cases hd : k.data with
            | nil => exact absurd hd hkne
            | cons a b => exact ⟨a, b, rfl⟩
          have hc0 : keyChar c0 = true := hkhd c0 (by rw [ht0]; rfl)
          exact all_false_of_mem
            (List.mem_append_left _ (by rw [ht0]; exact List.mem_cons_self _ _))
            (keyChar_not_ws hc0)
        · intro c hc
          rw [head?_append_left hkne] at hc
          exact (keyChar_props (hkhd c hc)).2.2
        · intro c hc
          rw [List.getLast?_concat] at hc
          obtain rfl : ':' = c := Option.some.inj hc
          decide
      · rcases List.mem_map.mp hl3 with ⟨e2, he2, rfl⟩
        have hs2 : sentryWF e2 = true := hall e2 he2
        obtain ⟨c0, t0, ht0⟩ : ∃ c0 t0, dumpSLine e2 = c0 :: t0 := by
          cases hd : dumpSLine e2 with
          | nil => exact absurd hd (dumpSLine_ne_nil e2)
          | cons a b => exact ⟨a, b, rfl⟩
        refine ⟨by simp, ?_, ?_, ?_, ?_⟩
        · intro c hc
          rcases List.mem_cons.mp hc with rfl | hc2
          · exact ⟨by decide, by decide⟩
          · rcases List.mem_cons.mp hc2 with rfl | hc3
            · exact ⟨by decide, by decide⟩
            · exact dumpSLine_mem hs2 c hc3
        · have hc0 : keyChar c0 = true := dumpSLine_head hs2 c0 (by rw [ht0]; rfl)
          refine all_false_of_mem ?_ (keyChar_not_ws hc0)
          exact List.mem_cons_of_mem _ (List.mem_cons_of_mem _
            (by rw [ht0]; exact List.mem_cons_self _ _))
        · intro c hc
          obtain rfl : ' ' = c := Option.some.inj hc
          decide
        · intro c hc
          have h1 : (' ' :: ' ' :: dumpSLine e2).getLast? = (dumpSLine e2).getLast? := by
            rw [getLast?_cons_ne_nil (by simp [dumpSLine_ne_nil e2] :
              (' ' :: dumpSLine e2) ≠ [])]
            rw [getLast?_cons_ne_nil (dumpSLine_ne_nil e2)]
          rw [h1] at hc
          exact dumpSLine_last hs2 c hc

/-! ### Infrastructure for C2: re-reading the dumped lines -/

theorem parseEntryLine_dump {k : String} (hk : keyOK k.data = true) (rest : List Char) :
    parseEntryLine (k.data ++ ':' :: rest) = (parseValue rest).map (fun v => (k, v)) := by
  obtain ⟨-, hall, -, -⟩ := keyOK_parts hk
  have htk : (k.data ++ ':' :: rest).takeWhile keyChar = k.data :=
    takeWhile_all_append hall (by decide)
  simp only [parseEntryLine, htk, List.drop_left]
  rw [if_pos hk]
  rw [if_pos trivial]

theorem parseEntryLine_dumpSLine {e : String × SVal} (h : sentryWF e = true) :
    parseEntryLine (dumpSLine e) = some (e.1, some e.2) := by
  obtain ⟨hk, -, -, -, hpv⟩ := sentryWF_parts h
  show parseEntryLine (e.1.data ++ ':' :: ' ' :: renderScalar e.2) = _
  rw [parseEntryLine_dump hk (' ' :: renderScalar e.2), hpv]
  rfl

theorem parseBlock_dump {e0 : String × SVal} {es2 : List (String × SVal)}
    (hall : ∀ e ∈ e0 :: es2, sentryWF e = true) :
    parseBlock ((e0 :: es2).map (fun e2 => ' ' :: ' ' :: dumpSLine e2)) = some (e0 :: es2) := by
  have hind : (' ' :: ' ' :: dumpSLine e0).takeWhile (fun c => c = ' ') = [' ', ' '] := by
    rw [List.takeWhile_cons, if_pos (by decide), List.takeWhile_cons, if_pos (by decide),
      takeWhile_nil_of_head (fun c hc =>
        keyChar_ne_space (dumpSLine_head (hall e0 (List.mem_cons_self _ _)) c hc))]
  have hpb : parseBlock ((e0 :: es2).map (fun e2 => ' ' :: ' ' :: dumpSLine e2)) =
      ((e0 :: es2).map (fun e2 => ' ' :: ' ' :: dumpSLine e2)).mapM (fun l =>
        if l.takeWhile (fun c => c = ' ') =
            (' ' :: ' ' :: dumpSLine e0).takeWhile (fun c => c = ' ') then
          (parseEntryLine (l.drop ((' ' :: ' ' :: dumpSLine e0).takeWhile
            (fun c => c = ' ')).length)).map (fun kv => (kv.1, kv.2.getD .null))
        else none) := rfl
  rw [hpb, hind]
  apply mapM_of_pointwise
  intro x hx
  have hsx : sentryWF x = true := hall x hx
  have htx : (' ' :: ' ' :: dumpSLine x).takeWhile (fun c => c = ' ') = [' ', ' '] := by
    rw [List.takeWhile_cons, if_pos (by decide), List.takeWhile_cons, if_pos (by decide),
      takeWhile_nil_of_head (fun c hc => keyChar_ne_space (dumpSLine_head hsx c hc))]
  rw [if_pos htx]
  rw [show (' ' :: ' ' :: dumpSLine x).drop ([' ', ' '] : List Char).length = dumpSLine x
    from rfl]
  rw [parseEntryLine_dumpSLine hsx]
  rfl

theorem parseGroup_dump_scalar {k : String} {sv : SVal}
    (h : sentryWF (k, sv) = true) :
    parseGroup (dumpSLine (k, sv), ([] : List (List Char))) = some (k, YVal.ofS sv) := by
  obtain ⟨hk, -, -, -, hpv⟩ := sentryWF_parts h
  have hpe : parseEntryLine (dumpSLine (k, sv)) = some (k, some sv) :=
    parseEntryLine_dumpSLine h
  have hgoal : parseGroup (dumpSLine (k, sv), ([] : List (List Char))) =
      (match parseEntryLine (dumpSLine (k, sv)) with
       | none => none
       | some (k2, some sv2) =>
         if ([] : List (List Char)) = [] then some (k2, YVal.ofS sv2) else none
       | some (k2, none) =>
         match ([] : List (List Char)) with
         | [] => some (k2, YVal.null)
         | _ :: _ => (parseBlock ([] : List (List Char))).map
             (fun es3 => (k2, YVal.m (loadDict es3)))) := rfl
  rw [hgoal, hpe]
  rfl

theorem parseGroup_dump {kv : String × YVal} (h : entryWF kv = true) :
    parseGroup (entryTop kv, entryChildren kv) = some kv := by
  rcases kv with ⟨k, y⟩
  cases y with
  | s v => exact parseGroup_dump_scalar h
  | i v => exact parseGroup_dump_scalar h
  | f v => exact parseGroup_dump_scalar h
  | b v => exact parseGroup_dump_scalar h
  | null => exact parseGroup_dump_scalar h
  | m es =>
    cases es with
    | nil =>
      rw [entryWF_m] at h
      simp at h
    | cons e es2 =>
      obtain ⟨hk, -, hall, hdist⟩ := entryWF_m_parts h
      have hpe : parseEntryLine (entryTop (k, YVal.m (e :: es2))) = some (k, none) := by
        show parseEntryLine (k.data ++ ':' :: []) = _
        rw [parseEntryLine_dump hk []]
        rfl
      have hgoal : parseGroup (entryTop (k, YVal.m (e :: es2)),
          entryChildren (k, YVal.m (e :: es2))) =
          (match parseEntryLine (entryTop (k, YVal.m (e :: es2))) with
           | none => none
           | some (k2, some sv2) =>
             if entryChildren (k, YVal.m (e :: es2)) = [] then
               some (k2, YVal.ofS sv2) else none
           | some (k2, none) =>
             match entryChildren (k, YVal.m (e :: es2)) with
             | [] => some (k2, YVal.null)
             | _ :: _ => (parseBlock (entryChildren (k, YVal.m (e :: es2)))).map
                 (fun es3 => (k2, YVal.m (loadDict es3)))) := rfl
      rw [hgoal, hpe]
      have hch : entryChildren (k, YVal.m (e :: es2)) =
          (e :: es2).map (fun e2 => ' ' :: ' ' :: dumpSLine e2) := rfl
      rw [hch]
      have hred : (match (some ((k : String), (none : Option SVal)) :
            Option (String × Option SVal)) with
           | none => none
           | some (k2, some sv2) =>
             if ((e :: es2).map (fun e2 => ' ' :: ' ' :: dumpSLine e2)) = [] then
               some (k2, YVal.ofS sv2) else none
           | some (k2, none) =>
             match (e :: es2).map (fun e2 => ' ' :: ' ' :: dumpSLine e2) with
             | [] => some (k2, YVal.null)
             | _ :: _ => (parseBlock ((e :: es2).map
                 (fun e2 => ' ' :: ' ' :: dumpSLine e2))).map
                 (fun es3 => (k2, YVal.m (loadDict es3)))) =
          (parseBlock ((e :: es2).map (fun e2 => ' ' :: ' ' :: dumpSLine e2))).map
            (fun es3 => ((k : String), YVal.m (loadDict es3))) := rfl
      rw [hred, parseBlock_dump hall]
      rw [show (some (e :: es2)).map (fun es3 => ((k : String), YVal.m (loadDict es3))) =
        some (k, YVal.m (loadDict (e :: es2))) from rfl]
      rw [loadDict_id hdist]

/-! ### Infrastructure for C2: grouping the dumped lines -/

theorem groupLines_children :
    ∀ (children L : List (List Char)), (∀ l ∈ children, l.head? = some ' ') →
      groupLines (children ++ L) = ((groupLines L).1, children ++ (groupLines L).2) := by
  intro children
  induction children with
  | nil =>
    intro L _
    simp
  | cons c cs ih =>
    intro L h
    rw [List.cons_append]
    simp only [groupLines]
    rw [ih L (fun l hl => h l (List.mem_cons_of_mem _ hl)),
      if_pos (h c (List.mem_cons_self _ _))]
    exact rfl

theorem groupLines_dumpEntry {kv : String × YVal} (h : entryWF kv = true)
    (L : List (List Char)) :
    groupLines (dumpEntry kv ++ L) =
      ((entryTop kv, entryChildren kv ++ (groupLines L).2) :: (groupLines L).1, []) := by
  rw [dumpEntry_decomp, List.cons_append]
  simp only [groupLines]
  rw [groupLines_children (entryChildren kv) L (entryChildren_head kv)]
  rw [if_neg ?_]
  intro hh
  exact absurd (entryTop_head h ' ' hh) (by decide)

theorem groupLines_dump {mc : Metadata} (h : List.all mc entryWF = true) :
    groupLines ((mc.map dumpEntry).flatten) =
      (mc.map (fun kv => (entryTop kv, entryChildren kv)), []) := by
  induction mc with
  | nil => rfl
  | cons kv mcr ih =>
    simp only [List.all_cons, Bool.and_eq_true] at h
    rw [List.map_cons, List.flatten_cons]
    rw [groupLines_dumpEntry h.1 ((mcr.map dumpEntry).flatten)]
    rw [ih h.2]
    simp

theorem filter_all_id {ls : List (List Char)} (h : ∀ l ∈ ls, l.all isWS = false) :
    ls.filter (fun l => !(l.all isWS)) = ls := by
  rw [List.filter_eq_self]
  intro l hl
  rw [h l hl]
  rfl

theorem dumpLines_facts {mc : Metadata} (h : List.all mc entryWF = true) :
    ∀ l ∈ (mc.map dumpEntry).flatten, l ≠ [] ∧ (∀ c ∈ l, c ≠ '\n' ∧ c ≠ '\r') ∧
      l.all isWS = false ∧ (∀ c, l.head? = some c → c ≠ '-') ∧
      (∀ c, l.getLast? = some c → isWS c = false) := by
  intro l hl
  rcases List.mem_flatten.mp hl with ⟨ls, hls, hlin⟩
  rcases List.mem_map.mp hls with ⟨kv, hkv, rfl⟩
  exact dumpEntry_lines_facts (List.all_eq_true.mp h kv hkv) l hlin

theorem yamlLoad_dump {mc : Metadata} (hne : mc ≠ []) (hwf : metaWF mc = true) :
    yamlLoad (joinNl ((mc.map dumpEntry).flatten)) = YamlRes.dict mc := by
  have hallWF : List.all mc entryWF = true := by
    unfold metaWF at hwf
    simp only [Bool.and_eq_true] at hwf
    exact hwf.1
  have hdist : keysDistinct mc = true := by
    unfold metaWF at hwf
    simp only [Bool.and_eq_true] at hwf
    exact hwf.2
  have hfacts := dumpLines_facts hallWF
  obtain ⟨kv0, mc2, rfl⟩ : ∃ kv0 mc2, mc = kv0 :: mc2 := by
    cases mc with
    | nil => exact absurd rfl hne
    | cons a b => exact ⟨a, b, rfl⟩
  have hkv0WF : entryWF kv0 = true := by
    have h2 := hallWF
    simp only [List.all_cons, Bool.and_eq_true] at h2
    exact h2.1
  have hshape : ((kv0 :: mc2).map dumpEntry).flatten =
      entryTop kv0 :: (entryChildren kv0 ++ ((mc2.map dumpEntry).flatten)) := by
    rw [List.map_cons, List.flatten_cons, dumpEntry_decomp, List.cons_append]
  have htopmem : entryTop kv0 ∈ ((kv0 :: mc2).map dumpEntry).flatten := by
    rw [hshape]
    exact List.mem_cons_self _ _
  have htopne : entryTop kv0 ≠ [] := (hfacts _ htopmem).1
  obtain ⟨c0, t0, hc0t⟩ : ∃ c0 t0, entryTop kv0 = c0 :: t0 := by
    cases hd : entryTop kv0 with
    | nil => exact absurd hd htopne
    | cons a b => exact ⟨a, b, rfl⟩
  have hc0 : keyChar c0 = true := entryTop_head hkv0WF c0 (by rw [hc0t]; rfl)
  have hlne : ((kv0 :: mc2).map dumpEntry).flatten ≠ [] := by
    rw [hshape]
    simp
  have hheadJ : (joinNl (((kv0 :: mc2).map dumpEntry).flatten)).head? = some c0 := by
    rw [hshape, joinNl_head htopne, hc0t]
    rfl
  have hJne : joinNl (((kv0 :: mc2).map dumpEntry).flatten) ≠ [] := by
    intro he
    rw [he] at hheadJ
    simp at hheadJ
  have hstrip : pyStrip (joinNl (((kv0 :: mc2).map dumpEntry).flatten)) =
      joinNl (((kv0 :: mc2).map dumpEntry).flatten) := by
    apply pyStrip_eq_self
    · intro c hc
      rw [hheadJ] at hc
      obtain rfl : c0 = c := Option.some.inj hc
      exact keyChar_not_ws hc0
    · intro c hc
      obtain ⟨llast, hllast⟩ := Option.isSome_iff_exists.mp
        (List.getLast?_isSome.mpr hlne)
      have hmemlast : llast ∈ ((kv0 :: mc2).map dumpEntry).flatten :=
        mem_of_getLast?Gen hllast
      have hlastne : llast ≠ [] := (hfacts _ hmemlast).1
      rw [joinNl_last hllast hlastne] at hc
      exact (hfacts _ hmemlast).2.2.2.2 c hc
  have hnotbrace : joinNl (((kv0 :: mc2).map dumpEntry).flatten) ≠ "{}".data := by
    intro he
    rw [he] at hheadJ
    have hcb : c0 = '\x7b' := by
      have h2 : ("{}".data).head? = some '\x7b' := by decide
      rw [h2] at hheadJ
      exact (Option.some.inj hheadJ).symm
    exact keyChar_not_lbrace hc0 hcb
  have hsplit : splitOnNl (joinNl (((kv0 :: mc2).map dumpEntry).flatten)) =
      ((kv0 :: mc2).map dumpEntry).flatten := by
    apply split_joinNl hlne
    intro l hl hnl
    exact ((hfacts l hl).2.1 '\n' hnl).1 rfl
  have hfilter : (((kv0 :: mc2).map dumpEntry).flatten).filter (fun l => !(l.all isWS)) =
      ((kv0 :: mc2).map dumpEntry).flatten :=
    filter_all_id (fun l hl => (hfacts l hl).2.2.1)
  have hgroup := groupLines_dump hallWF
  have hmapM : (((kv0 :: mc2)).map (fun kv => (entryTop kv, entryChildren kv))).mapM
      parseGroup = some (kv0 :: mc2) :=
    mapM_of_pointwise parseGroup (fun kv => (entryTop kv, entryChildren kv)) (kv0 :: mc2)
      (fun kv hkv => parseGroup_dump (List.all_eq_true.mp hallWF kv hkv))
  simp only [yamlLoad]
  rw [hstrip, if_neg hJne, if_neg hnotbrace, hsplit, hfilter, hgroup]
  show (match (((kv0 :: mc2).map (fun kv => (entryTop kv, entryChildren kv))).mapM
      parseGroup : Option (List (String × YVal))) with
    | some es => YamlRes.dict (loadDict es)
    | none =>
      if ((kv0 :: mc2).map dumpEntry).flatten ≠ [] &&
          (((kv0 :: mc2).map dumpEntry).flatten).all scalarLine then
        YamlRes.nondict
      else YamlRes.err) = YamlRes.dict (kv0 :: mc2)
  rw [hmapM]
  show YamlRes.dict (loadDict (kv0 :: mc2)) = YamlRes.dict (kv0 :: mc2)
  rw [loadDict_id hdist]

/-! ### Infrastructure for C2: the front-matter matcher on reconstructed text -/

theorem wsNlStep_nl (r : List Char) : wsNlStep ('\n' :: r) = some r := by
  simp [wsNlStep]

theorem wsNlStep_nonws {c : Char} {r : List Char} (h : isWS c = false) :
    wsNlStep (c :: r) = none := by
  have h1 : c ≠ '\r' := fun hc => by subst hc; exact absurd h (by decide)
  have h2 : c ≠ '\n' := fun hc => by subst hc; exact absurd h (by decide)
  simp only [wsNlStep]
  rw [if_neg h1, if_neg h2]

theorem takeWhile_isWS_nonws_head {X : List Char}
    (hX : ∀ c, X.head? = some c → isWS c = false) : X.takeWhile isWS = [] := by
  cases X with
  | nil => rfl
  | cons c X' =>
    rw [List.takeWhile_cons, if_neg (by simp [hX c rfl])]

theorem wsNlCandidates_cons_nl (X : List Char)
    (hX : ∀ c, X.head? = some c → isWS c = false) :
    wsNlCandidates ('\n' :: X) = [X] := by
  have htake : ('\n' :: X).takeWhile isWS = ['\n'] := by
    rw [List.takeWhile_cons, if_pos (by decide), takeWhile_isWS_nonws_head hX]
  have hf1 : wsNlStep X = none := by
    cases hX0 : X with
    | nil => rfl
    | cons c X' => exact wsNlStep_nonws (hX c (by rw [hX0]; rfl))
  unfold wsNlCandidates
  rw [htake, show ((List.range ((['\n'] : List Char).length + 1)).reverse) = [1, 0] from by decide]
  simp [List.filterMap_cons, hf1, wsNlStep_nl]

theorem closeAfterDashes_empty : closeAfterDashes ['\n', '\n', '\n'] = some [] := by
  decide

theorem closeAfterDashes_body {B : List Char} (hBne : B ≠ [])
    (hBh : ∀ c, B.head? = some c → isWS c = false) :
    closeAfterDashes ('\n' :: '\n' :: (B ++ ['\n'])) = some (B ++ ['\n']) := by
  obtain ⟨c0, B', rfl⟩ : ∃ c0 B', B = c0 :: B' := by
    cases B with
    | nil => exact absurd rfl hBne
    | cons a b => exact ⟨a, b, rfl⟩
  have hc0 : isWS c0 = false := hBh c0 rfl
  unfold closeAfterDashes wsNlCandidates
  have htake : (('\n' :: '\n' :: ((c0 :: B') ++ ['\n']))).takeWhile isWS = ['\n', '\n'] := by
    rw [List.takeWhile_cons, if_pos (by decide), List.takeWhile_cons, if_pos (by decide),
      List.cons_append, List.takeWhile_cons, if_neg (by simp [hc0])]
  rw [htake, show ((List.range ((['\n', '\n'] : List Char).length + 1)).reverse) = [2, 1, 0]
    from by decide]
  simp [List.filterMap_cons, wsNlStep_nonws hc0, wsNlStep_nl]

theorem closeAt_head {r2 bod : List Char} (h : closeAfterDashes r2 = some bod) :
    closeAt ('\n' :: '-' :: '-' :: '-' :: r2) = some bod := by
  simp [closeAt, closeDashes, h]

theorem closeAt_cons_other {c : Char} {rest : List Char} (h1 : c ≠ '\r') (h2 : c ≠ '\n') :
    closeAt (c :: rest) = none := by
  simp only [closeAt]
  rw [if_neg h1, if_neg h2]

theorem closeAt_nl (rest : List Char) : closeAt ('\n' :: rest) = closeDashes rest := by
  simp [closeAt]

theorem closeDashes_head_not_dash {l : List Char}
    (h : ∀ c, l.head? = some c → c ≠ '-') : closeDashes l = none := by
  match l with
  | [] => rfl
  | [a] => rfl
  | [a, b] => rfl
  | a :: b :: c :: r2 =>
    simp only [closeDashes]
    rw [if_neg]
    rintro ⟨rfl, -, -⟩
    exact h '-' rfl rfl

theorem findClose_append_noclose (w : List Char) (hw : ∀ c ∈ w, c ≠ '\n' ∧ c ≠ '\r')
    (t : List Char) :
    findClose (w ++ t) = (findClose t).map (fun yb => (w ++ yb.1, yb.2)) := by
  induction w with
  | nil =>
    cases h' : findClose t <;> simp [h']
  | cons c w' ih =>
    rw [List.cons_append]
    have hc := hw c (List.mem_cons_self _ _)
    show findClose (c :: (w' ++ t)) = _
    simp only [findClose]
    rw [closeAt_cons_other hc.2 hc.1]
    rw [ih fun x hx => hw x (List.mem_cons_of_mem _ hx)]
    cases h' : findClose t <;> simp [h']

theorem findClose_joinNl :
    ∀ (ls : List (List Char)), ls ≠ [] →
      (∀ l ∈ ls, l ≠ [] ∧ (∀ c ∈ l, c ≠ '\n' ∧ c ≠ '\r') ∧
        (∀ c, l.head? = some c → c ≠ '-')) →
      ∀ (T body : List Char), closeAt T = some body →
        findClose (joinNl ls ++ T) = some (joinNl ls, body) := by
  intro ls
  induction ls with
  | nil => intro h; exact absurd rfl h
  | cons l rest ih =>
    intro _ hgood T body hT
    obtain ⟨hlne, hlchars, -⟩ := hgood l (List.mem_cons_self _ _)
    cases rest with
    | nil =>
      show findClose (l ++ T) = some (l, body)
      rw [findClose_append_noclose l hlchars T]
      have hTne : T ≠ [] := by
        intro he
        rw [he] at hT
        simp [closeAt] at hT
      obtain ⟨c, T', rfl⟩ : ∃ c T', T = c :: T' := by
        cases T with
        | nil => exact absurd rfl hTne
        | cons a b => exact ⟨a, b, rfl⟩
      simp only [findClose]
      rw [hT]
      simp
    | cons l2 rest2 =>
      rw [show joinNl (l :: l2 :: rest2) = l ++ '\n' :: joinNl (l2 :: rest2) from rfl]
      rw [List.append_assoc, findClose_append_noclose l hlchars]
      rw [show ('\n' :: joinNl (l2 :: rest2)) ++ T = '\n' :: (joinNl (l2 :: rest2) ++ T)
        from rfl]
      simp only [findClose]
      obtain ⟨hl2ne, -, hl2head⟩ := hgood l2 (List.mem_cons_of_mem _ (List.mem_cons_self _ _))
      have hclose : closeAt ('\n' :: (joinNl (l2 :: rest2) ++ T)) = none := by
        rw [closeAt_nl]
        apply closeDashes_head_not_dash
        intro c hc
        obtain ⟨a, b, hl2⟩ : ∃ a b, l2 = a :: b := by
          cases l2 with
          | nil => exact absurd rfl hl2ne
          | cons a b => exact ⟨a, b, rfl⟩
        have hjh : (joinNl (l2 :: rest2)).head? = some a := by
          rw [joinNl_head hl2ne, hl2]
          rfl
        obtain ⟨J', hJ⟩ : ∃ J', joinNl (l2 :: rest2) = a :: J' := by
          cases hj : joinNl (l2 :: rest2) with
          | nil => rw [hj] at hjh; simp at hjh
          | cons x y =>
            rw [hj] at hjh
            simp at hjh
            subst hjh
            exact ⟨y, rfl⟩
        rw [hJ, List.cons_append, List.head?_cons] at hc
        obtain rfl : a = c := Option.some.inj hc
        refine hl2head _ (by rw [hl2]; rfl)
      rw [hclose]
      rw [ih (by simp) (fun u hu => hgood u (List.mem_cons_of_mem _ hu)) T body hT]
      simp


/-! ### Infrastructure for C2: shape of the dumped YAML -/

theorem metaWF_clean {m : Metadata} (h : metaWF m = true) : metaWF (cleanMeta m) = true := by
  unfold metaWF at *
  simp only [Bool.and_eq_true] at *
  constructor
  · rw [List.all_eq_true]
    intro kv hkv
    exact List.all_eq_true.mp h.1 kv (List.mem_filter.mp hkv).1
  · have : ∀ (l : Metadata), keysDistinct l = true → keysDistinct (cleanMeta l) = true := by
      intro l
      induction l with
      | nil => intro _; rfl
      | cons kv rest ih =>
        intro hd
        unfold keysDistinct at hd
        simp only [Bool.and_eq_true] at hd
        unfold cleanMeta
        rw [List.filter_cons]
        split
        · unfold keysDistinct
          simp only [Bool.and_eq_true]
          constructor
          · simp only [Bool.not_eq_true']
            rw [← Bool.not_eq_true]
            intro hany
            rcases List.any_eq_true.mp hany with ⟨u, hu, hueq⟩
            have : u ∈ rest := (List.mem_filter.mp hu).1
            have h2 := hd.1
            simp only [Bool.not_eq_true'] at h2
            rw [← Bool.not_eq_true] at h2
            exact h2 (List.any_eq_true.mpr ⟨u, this, hueq⟩)
          · exact ih hd.2
        · exact ih hd.2
    exact this m h.2


/-! ### The round trip itself -/

theorem dumpFlat_ne_nil {mc : Metadata} (hne : mc ≠ []) :
    (mc.map dumpEntry).flatten ≠ [] := by
  obtain ⟨kv0, mc2, rfl⟩ : ∃ kv0 mc2, mc = kv0 :: mc2 := by
    cases mc with
    | nil => exact absurd rfl hne
    | cons a b => exact ⟨a, b, rfl⟩
  rw [List.map_cons, List.flatten_cons, dumpEntry_decomp]
  simp

theorem yamlDump_join {mc : Metadata} (h : mc ≠ []) :
    yamlDump mc = joinNl ((mc.map dumpEntry).flatten) ++ ['\n'] := by
  unfold yamlDump
  rw [if_neg h]
  exact joinMap_nl (dumpFlat_ne_nil h)

theorem metaWF_all {mc : Metadata} (hwf : metaWF mc = true) :
    List.all mc entryWF = true := by
  unfold metaWF at hwf
  simp only [Bool.and_eq_true] at hwf
  exact hwf.1

theorem joinNl_dump_last {mc : Metadata} (hne : mc ≠ []) (hwf : metaWF mc = true) :
    ∀ c, (joinNl ((mc.map dumpEntry).flatten)).getLast? = some c → isWS c = false := by
  have hfacts := dumpLines_facts (metaWF_all hwf)
  have hlne := dumpFlat_ne_nil hne
  intro c hc
  obtain ⟨llast, hllast⟩ := Option.isSome_iff_exists.mp (List.getLast?_isSome.mpr hlne)
  have hmemlast := mem_of_getLast?Gen hllast
  have hlastne : llast ≠ [] := (hfacts _ hmemlast).1
  rw [joinNl_last hllast hlastne] at hc
  exact (hfacts _ hmemlast).2.2.2.2 c hc

theorem dump_head {mc : Metadata} (hne : mc ≠ []) (hwf : metaWF mc = true) :
    ∃ c0, (joinNl ((mc.map dumpEntry).flatten)).head? = some c0 ∧ keyChar c0 = true := by
  have hfacts := dumpLines_facts (metaWF_all hwf)
  obtain ⟨kv0, mc2, rfl⟩ : ∃ kv0 mc2, mc = kv0 :: mc2 := by
    cases mc with
    | nil => exact absurd rfl hne
    | cons a b => exact ⟨a, b, rfl⟩
  have hkv0WF : entryWF kv0 = true := by
    have h2 := metaWF_all hwf
    simp only [List.all_cons, Bool.and_eq_true] at h2
    exact h2.1
  have hshape : ((kv0 :: mc2).map dumpEntry).flatten =
      entryTop kv0 :: (entryChildren kv0 ++ ((mc2.map dumpEntry).flatten)) := by
    rw [List.map_cons, List.flatten_cons, dumpEntry_decomp, List.cons_append]
  have htopne : entryTop kv0 ≠ [] := by
    refine (hfacts _ ?_).1
    rw [hshape]
    exact List.mem_cons_self _ _
  obtain ⟨c0, t0, hc0t⟩ : ∃ c0 t0, entryTop kv0 = c0 :: t0 := by
    cases hd : entryTop kv0 with
    | nil => exact absurd hd htopne
    | cons a b => exact ⟨a, b, rfl⟩
  refine ⟨c0, ?_, entryTop_head hkv0WF c0 (by rw [hc0t]; rfl)⟩
  rw [hshape, joinNl_head htopne, hc0t]
  rfl

theorem rstrip_dump {mc : Metadata} (hwf : metaWF mc = true) :
    pyRStrip (yamlDump mc) ++ ['\n'] = yamlDump mc := by
  by_cases hne : mc = []
  · subst hne
    decide
  · rw [yamlDump_join hne]
    rw [pyRStrip_append_nl (pyRStrip_eq_self (joinNl_dump_last hne hwf))]

theorem dump_head_nonws {mc : Metadata} (hwf : metaWF mc = true) :
    ∀ c, (yamlDump mc).head? = some c → isWS c = false := by
  intro c hc
  by_cases hne : mc = []
  · subst hne
    have h2 : (yamlDump ([] : Metadata)).head? = some '\x7b' := by decide
    rw [h2] at hc
    obtain rfl : '\x7b' = c := Option.some.inj hc
    decide
  · obtain ⟨c0, hh, hk⟩ := dump_head hne hwf
    rw [yamlDump_join hne,
      head?_append_left (by intro he; rw [he] at hh; simp at hh)] at hc
    rw [hh] at hc
    obtain rfl : c0 = c := Option.some.inj hc
    exact keyChar_not_ws hk

theorem yamlDump_ne_nil (mc : Metadata) : yamlDump mc ≠ [] := by
  by_cases hne : mc = []
  · subst hne
    decide
  · rw [yamlDump_join hne]
    simp

theorem parse_of_reconstructed (mc : Metadata) (B : List Char)
    (hwf : metaWF mc = true) (hB : pyStrip B = B) :
    parse_analysis (String.mk ("---\n".data ++ (pyRStrip (yamlDump mc) ++ ['\n']) ++
      "---\n\n".data ++ B ++ ['\n'])) = (mc, String.mk B) := by
  rw [rstrip_dump hwf]
  have hBhead : ∀ c, B.head? = some c → isWS c = false := strip_self_head hB
  set D : List Char := '-' :: '-' :: '-' :: '\n' :: '\n' :: (B ++ ['\n']) with hD
  set X : List Char := yamlDump mc ++ D with hXdef
  set L : List Char := "---\n".data ++ yamlDump mc ++ "---\n\n".data ++ B ++ ['\n'] with hLdef
  set body0 : List Char := if B = [] then [] else B ++ ['\n'] with hbody0
  have hcadB : closeAfterDashes ('\n' :: '\n' :: (B ++ ['\n'])) = some body0 := by
    by_cases hBe : B = []
    · rw [hbody0, if_pos hBe, hBe]
      exact closeAfterDashes_empty
    · rw [hbody0, if_neg hBe]
      exact closeAfterDashes_body hBe hBhead
  have hT : closeAt ('\n' :: D) = some body0 := by
    rw [hD]
    exact closeAt_head hcadB
  have hstripbody : pyStrip body0 = B := by
    by_cases hBe : B = []
    · rw [hbody0, if_pos hBe, hBe]
      rfl
    · rw [hbody0, if_neg hBe]
      exact pyStrip_append_nl hB
  have hLshape : L = '-' :: '-' :: '-' :: '\n' :: X := by
    rw [hLdef, hXdef, hD]
    rw [show "---\n".data = ['-', '-', '-', '\n'] from by decide,
      show "---\n\n".data = ['-', '-', '-', '\n', '\n'] from by decide]
    simp [List.append_assoc]
  have hXhead : ∀ c, X.head? = some c → isWS c = false := by
    intro c hc
    rw [hXdef, head?_append_left (yamlDump_ne_nil mc)] at hc
    exact dump_head_nonws hwf c hc
  have hbom : stripBOM L = L := by
    apply strip2_eq_self
    · intro c hc
      rw [hLshape, List.head?_cons] at hc
      have h2 : '-' = c := Option.some.inj hc
      subst h2
      decide
    · intro c hc
      rw [hLdef, List.getLast?_concat] at hc
      have h2 : '\n' = c := Option.some.inj hc
      subst h2
      decide
  have hfm : frontmatterMatch L = findClose X := by
    rw [hLshape]
    simp only [frontmatterMatch]
    rw [dropWhile_eq_self_of_head (fun c hc => by
      rw [List.head?_cons] at hc
      have h2 : '-' = c := Option.some.inj hc
      subst h2
      decide)]
    show (if ('-' : Char) = '-' ∧ ('-' : Char) = '-' ∧ ('-' : Char) = '-' then
      (wsNlCandidates ('\n' :: X)).findSome? (fun cand => findClose cand) else none) =
      findClose X
    rw [if_pos (by decide), wsNlCandidates_cons_nl X hXhead]
    cases hfx : findClose X <;> simp [List.findSome?, hfx]
  obtain ⟨G, hfc, hld⟩ : ∃ G, findClose X = some (G, body0) ∧ yamlLoad G = YamlRes.dict mc := by
    by_cases hne : mc = []
    · refine ⟨"{}".data, ?_, by rw [hne]; decide⟩
      have hXsh : X = ['\x7b', '\x7d'] ++ ('\n' :: D) := by
        rw [hXdef, hne, show yamlDump ([] : Metadata) = ['\x7b', '\x7d', '\n'] from by decide]
        rfl
      rw [hXsh, findClose_append_noclose ['\x7b', '\x7d'] (by decide) ('\n' :: D)]
      rw [show findClose ('\n' :: D) = some ([], body0) from by
        simp only [findClose]
        rw [hT]]
      simp
    · have hlines : X = joinNl ((mc.map dumpEntry).flatten) ++ ('\n' :: D) := by
        rw [hXdef, yamlDump_join hne]
        simp [List.append_assoc]
      refine ⟨joinNl ((mc.map dumpEntry).flatten), ?_, yamlLoad_dump hne hwf⟩
      rw [hlines]
      apply findClose_joinNl ((mc.map dumpEntry).flatten) (dumpFlat_ne_nil hne) ?_
        ('\n' :: D) body0 hT
      intro l hl
      have hfacts := dumpLines_facts (metaWF_all hwf) l hl
      exact ⟨hfacts.1, hfacts.2.1, hfacts.2.2.2.1⟩
  have hmkdata : (String.mk L).data = L := rfl
  simp only [parse_analysis, hmkdata, hbom, hfm, hfc, hld, hstripbody]


/-- C2: for every text that parses successfully (the returned metadata
contains neither `parse_error` nor `parse_warning`), re-parsing the output of
`reconstruct_analysis` applied to that parse yields metadata byte-identical
to the first parse's cleaned metadata (internal keys removed) and a body
byte-identical to the first parse's body. -/
theorem parse_reconstruct_roundtrip (t : String) (m : Metadata) (b : String)
    (hp : parse_analysis t = (m, b))
    (he : hasKey m "parse_error" = false)
    (hw : hasKey m "parse_warning" = false) :
    parse_analysis (reconstruct_analysis m b) = (cleanMeta m, b) := by
  simp only [parse_analysis] at hp
  rcases hfm : frontmatterMatch (stripBOM t.data) with _ | ⟨y, b0⟩
  · rw [hfm] at hp
    have hm : ([("agent", YVal.s "unknown"), ("parse_warning", YVal.s "no_frontmatter")] :
        Metadata) = m := congrArg Prod.fst hp
    rw [← hm] at hw
    exact absurd hw (by decide)
  · rw [hfm] at hp
    have hp2 : (match yamlLoad y with
      | YamlRes.dict m2 => ((m2, String.mk (pyStrip b0)) : Metadata × String)
      | YamlRes.nondict =>
        ([("agent", YVal.s "unknown"), ("parse_warning", YVal.s "yaml_not_dict")],
          String.mk (pyStrip b0))
      | YamlRes.err =>
        ([("agent", YVal.s "unknown"), ("parse_error", YVal.s "yaml_error"),
          ("raw_frontmatter", YVal.s (String.mk y))],
          if pyStrip b0 = [] then String.mk (pyStrip (stripBOM t.data))
          else String.mk (pyStrip b0))) = (m, b) := hp
    rcases hld : yamlLoad y with m0 | _ | _
    · rw [hld] at hp2
      have hp3 : ((m0, String.mk (pyStrip b0)) : Metadata × String) = (m, b) := hp2
      have hm : m0 = m := congrArg Prod.fst hp3
      have hb : String.mk (pyStrip b0) = b := congrArg Prod.snd hp3
      subst hm
      have hwf : metaWF m0 = true := yamlLoad_metaWF hld
      have hwfc : metaWF (cleanMeta m0) = true := metaWF_clean hwf
      have hBB : pyStrip b.data = b.data := by
        rw [← hb]
        exact pyStrip_idem b0
      simp only [reconstruct_analysis]
      rw [hBB]
      rw [parse_of_reconstructed (cleanMeta m0) b.data hwfc hBB]
    · rw [hld] at hp2
      have hp3 : (([("agent", YVal.s "unknown"), ("parse_warning", YVal.s "yaml_not_dict")] :
          Metadata), String.mk (pyStrip b0)) = (m, b) := hp2
      have hm : ([("agent", YVal.s "unknown"), ("parse_warning", YVal.s "yaml_not_dict")] :
          Metadata) = m := congrArg Prod.fst hp3
      rw [← hm] at hw
      exact absurd hw (by decide)
    · rw [hld] at hp2
      have hp3 : (([("agent", YVal.s "unknown"), ("parse_error", YVal.s "yaml_error"),
          ("raw_frontmatter", YVal.s (String.mk y))] : Metadata),
          if pyStrip b0 = [] then String.mk (pyStrip (stripBOM t.data))
          else String.mk (pyStrip b0)) = (m, b) := hp2
      have hm : ([("agent", YVal.s "unknown"), ("parse_error", YVal.s "yaml_error"),
          ("raw_frontmatter", YVal.s (String.mk y))] : Metadata) = m := congrArg Prod.fst hp3
      rw [← hm] at he
      exact absurd he (by simp [hasKey])

/-- Witness for C2 at a canonical document of the wire format: a nested
`severity:` block and an integer scalar round-trip through
`reconstruct_analysis` and back. -/
theorem parse_reconstruct_roundtrip_witness :
    parse_analysis (reconstruct_analysis
      [("agent", YVal.s "security"), ("severity", YVal.m [("critical", SVal.i 1)])]
      "# Title\nBody") =
      (cleanMeta [("agent", YVal.s "security"),
        ("severity", YVal.m [("critical", SVal.i 1)])], "# Title\nBody") :=
  parse_reconstruct_roundtrip
    "---\nagent: security\nseverity:\n  critical: 1\n---\n\n# Title\nBody"
    [("agent", YVal.s "security"), ("severity", YVal.m [("critical", SVal.i 1)])]
    "# Title\nBody" (by decide) (by decide) (by decide)

/-! ### C6: validate_analysis and the normalization pass -/

theorem validate_snd (m : Metadata) (b : String) (a : Option String) (c : Bool) :
    (validate_analysis m b a c).2 = if c then normalize_metadata m else m := by
  simp only [validate_analysis]
  split <;> first | rfl | (split <;> rfl)

theorem validate_analysis_true (m : Metadata) (b : String) (a : Option String) :
    validate_analysis m b a true = validate_analysis (normalize_metadata m) b a false := rfl

theorem normalize_scenario :
    normalize_metadata scenarioMeta =
      [("agent", YVal.s "security"), ("summary", YVal.s "x"),
       ("total_issues", YVal.i 3), ("confidence", YVal.f (3/2))] := by
  have h1 : normalize_metadata scenarioMeta =
      [("agent", YVal.s "security"), ("summary", YVal.s "x"),
       ("total_issues", YVal.i 3),
       ("confidence", YVal.f (((1 : ℕ) : ℚ) + ((5 : ℕ) : ℚ) / 10 ^ 1))] := rfl
  rw [h1]
  norm_num

/-- C6 counterexample: with type coercion enabled (the source's default),
`validate_analysis` runs `normalize_metadata`, which writes the coerced
values back into the metadata dict; on the specification's own scenario the
metadata argument is changed, so the function is not pure. -/
theorem validate_analysis_mutates :
    (validate_analysis scenarioMeta "# x" none true).2 ≠ scenarioMeta := by
  rw [validate_analysis_true, normalize_scenario, validate_snd]
  decide

/-- C6 (amended): `validate_analysis` always returns an error list (the
model is total, and the metadata passes through unchanged only when type
coercion is off); on the specification's scenario metadata
`{agent: security, summary: x, total_issues: "3", confidence: "1.5"}` the
coercion pass turns `total_issues` into the integer 3 — no type error is
reported for it — while `confidence` is reported out of range (1.5 > 1),
and the post-validation metadata holds the coerced values. -/
theorem validate_analysis_spec :
    (∀ (m : Metadata) (b : String) (a : Option String),
        (validate_analysis m b a false).2 = m) ∧
    (validate_analysis scenarioMeta "# x" none true).1 =
        [VError.confidenceOutOfRange (3/2)] ∧
    (validate_analysis scenarioMeta "# x" none true).2 =
        [("agent", YVal.s "security"), ("summary", YVal.s "x"),
         ("total_issues", YVal.i 3), ("confidence", YVal.f (3/2))] := by
  refine ⟨?_, ?_, ?_⟩
  · intro m b a
    rw [validate_snd]
    rfl
  · rw [validate_analysis_true, normalize_scenario]
    have h1 : (validate_analysis
        [("agent", YVal.s "security"), ("summary", YVal.s "x"),
         ("total_issues", YVal.i 3), ("confidence", YVal.f (3/2))] "# x" none false).1 =
        [] ++ [] ++
          (if ¬ ((0 : ℚ) ≤ 3/2 ∧ (3/2 : ℚ) ≤ 1) then
            [VError.confidenceOutOfRange (3/2)] else []) ++ [] ++ [] := rfl
    rw [h1, if_pos (show ¬ ((0 : ℚ) ≤ 3/2 ∧ (3/2 : ℚ) ≤ 1) from by norm_num)]
    rfl
  · rw [validate_analysis_true, normalize_scenario, validate_snd]
    rfl

end CodeReview
